import Mathlib

/-!
# FinTrack front-end bundle: connection state, Flow bridge and router helpers

A shallow embedding of the parts of `indexhtml-DyusxkLE.js` that the
specification talks about, followed by the theorems about them.

JavaScript strings are modelled as `String` (or `List Char` where the code
works character by character), JavaScript integers as `Nat` / `Int`,
`undefined` as `Option.none`, thrown errors as `Except.error`.
-/

namespace FinTrack

/-! ## The enum `Ee` (ConnectionState) -/

namespace Ee

/-- Enum member `Ee.CONNECTED`. -/
def CONNECTED : String := "connected"

/-- Enum member `Ee.LOADING`. -/
def LOADING : String := "loading"

/-- Enum member `Ee.RECONNECTING`. -/
def RECONNECTING : String := "reconnecting"

/-- Enum member `Ee.CONNECTION_LOST`. -/
def CONNECTION_LOST : String := "connection-lost"

end Ee

/-! ## Class `k0` (ConnectionStateStore) -/

/-- One invocation of a state-change listener: the listener that was called
and the two arguments `(previous, current)` it received. -/
structure ListenerCall where
  listener : Nat
  previous : String
  current : String
deriving DecidableEq, Repr

/-- Class `k0`.  `stateChangeListeners` is the JavaScript `Set` of callbacks in
insertion order; a callback is identified by a number.  Callbacks are external
code: calling one is recorded in `calls`, and a callback has no access to the
store, so it cannot modify it. -/
structure k0 where
  stateChangeListeners : List Nat
  loadingCount : Nat
  connectionState : String
  calls : List ListenerCall
deriving DecidableEq, Repr

namespace k0

/-- The field initialisers of the constructor: `new k0(t)`. -/
def new (t : String) : k0 :=
  { stateChangeListeners := [], loadingCount := 0, connectionState := t, calls := [] }

/-- Method `addStateChangeListener(t)`: `Set.prototype.add`. -/
def addStateChangeListener (s : k0) (t : Nat) : k0 :=
  if t ∈ s.stateChangeListeners then s
  else { s with stateChangeListeners := s.stateChangeListeners ++ [t] }

/-- Method `removeStateChangeListener(t)`: `Set.prototype.delete`. -/
def removeStateChangeListener (s : k0) (t : Nat) : k0 :=
  { s with stateChangeListeners := s.stateChangeListeners.erase t }

/-- Getter `get state()`. -/
def state (s : k0) : String := s.connectionState

/-- Setter `set state(t)`:
`if(t!==this.connectionState){const n=this.connectionState;this.connectionState=t,
this.loadingCount=0;for(const r of this.stateChangeListeners)r(n,this.connectionState)}`. -/
def setState (s : k0) (t : String) : k0 :=
  if t ≠ s.connectionState then
    let n := s.connectionState
    { s with
      connectionState := t
      loadingCount := 0
      calls := s.calls ++ s.stateChangeListeners.map (fun r => ⟨r, n, t⟩) }
  else s

/-- Getter `get online()`. -/
def online (s : k0) : Bool :=
  s.connectionState == Ee.CONNECTED || s.connectionState == Ee.LOADING

/-- Getter `get offline()`: `!this.online`. -/
def offline (s : k0) : Bool := !s.online

/-- Method `loadingStarted()`: `this.state=Ee.LOADING,this.loadingCount+=1`. -/
def loadingStarted (s : k0) : k0 :=
  let s1 := s.setState Ee.LOADING
  { s1 with loadingCount := s1.loadingCount + 1 }

/-- Method `decreaseLoadingCount(t)`:
`this.loadingCount>0&&(this.loadingCount-=1,this.loadingCount===0&&(this.state=t))`. -/
def decreaseLoadingCount (s : k0) (t : String) : k0 :=
  if s.loadingCount > 0 then
    let s1 := { s with loadingCount := s.loadingCount - 1 }
    if s1.loadingCount = 0 then s1.setState t else s1
  else s

/-- Method `loadingFinished()`. -/
def loadingFinished (s : k0) : k0 := s.decreaseLoadingCount Ee.CONNECTED

/-- Method `loadingFailed()`. -/
def loadingFailed (s : k0) : k0 := s.decreaseLoadingCount Ee.CONNECTION_LOST

end k0

/-- The three loading-counter methods of `k0`, as a call that can be put in a
sequence. -/
inductive LoadingOp where
  | started
  | finished
  | failed
deriving DecidableEq, Repr

/-- Perform one loading-counter call on the store. -/
def LoadingOp.run : LoadingOp → k0 → k0
  | .started, s => s.loadingStarted
  | .finished, s => s.loadingFinished
  | .failed, s => s.loadingFailed

/-- Perform a sequence of loading-counter calls, first to last. -/
def runOps (ops : List LoadingOp) (s : k0) : k0 :=
  ops.foldl (fun acc op => op.run acc) s

/-! ## Class `Re` (the connection indicator element) -/

/-- Enum `Et` (LoadingBarState): `IDLE=""`, `FIRST`, `SECOND`, `THIRD`. -/
inductive Et where
  | IDLE
  | FIRST
  | SECOND
  | THIRD
deriving DecidableEq, Repr

/-- The callbacks that `Re` hands to `window.setTimeout`. -/
inductive TimerAction where
  /-- Callback `()=>{this.loadingBarState=Et.X}`. -/
  | loadingBar (st : Et)
  /-- Callback `()=>{this.expanded=!1}`. -/
  | collapse
deriving DecidableEq, Repr

/-- The timer table of `window`: the last handle handed out (handles are
positive integers) and the timers still pending, as
(handle, callback, delay). -/
structure Timers where
  lastHandle : Nat
  pending : List (Nat × TimerAction × Nat)
deriving DecidableEq, Repr

/-- Platform call `window.clearTimeout(h)`. -/
def Timers.clearTimeout (w : Timers) (h : Nat) : Timers :=
  { w with pending := w.pending.filter (fun p => p.1 ≠ h) }

/-- Platform call `window.setTimeout(r, o)`: returns a fresh positive handle. -/
def Timers.setTimeout (w : Timers) (r : TimerAction) (o : Nat) : Nat × Timers :=
  (w.lastHandle + 1,
    { lastHandle := w.lastHandle + 1, pending := w.pending ++ [(w.lastHandle + 1, r, o)] })

/-- Class `Re`: the reactive properties and plain fields that
`updateConnectionState` and the state listener read or write.
`lastMessageState` holds `n`, which is `undefined` (`none`) when no store is
attached. -/
structure Re where
  firstDelay : Nat
  secondDelay : Nat
  thirdDelay : Nat
  expandedDuration : Nat
  offline : Bool
  reconnecting : Bool
  expanded : Bool
  loading : Bool
  loadingBarState : Et
  firstTimeout : Nat
  secondTimeout : Nat
  thirdTimeout : Nat
  expandedTimeout : Nat
  lastMessageState : Option String
deriving DecidableEq, Repr

namespace Re

/-- The field initialisers of the constructor. -/
def new : Re :=
  { firstDelay := 450, secondDelay := 1500, thirdDelay := 5000, expandedDuration := 2000,
    offline := false, reconnecting := false, expanded := false, loading := false,
    loadingBarState := Et.IDLE, firstTimeout := 0, secondTimeout := 0, thirdTimeout := 0,
    expandedTimeout := 0, lastMessageState := some Ee.CONNECTED }

/-- Method `timeoutFor(t,n,r,o)`:
`t!==0&&window.clearTimeout(t),n?window.setTimeout(r,o):0`. -/
def timeoutFor (w : Timers) (t : Nat) (n : Bool) (r : TimerAction) (o : Nat) : Nat × Timers :=
  let w1 := if t ≠ 0 then w.clearTimeout t else w
  if n then w1.setTimeout r o else (0, w1)

/-- Method `updateLoading(t)`. -/
def updateLoading (e : Re) (w : Timers) (t : Bool) : Re × Timers :=
  let e := { e with loading := t, loadingBarState := Et.IDLE }
  let r1 := timeoutFor w e.firstTimeout t (TimerAction.loadingBar Et.FIRST) e.firstDelay
  let e := { e with firstTimeout := r1.1 }
  let r2 := timeoutFor r1.2 e.secondTimeout t (TimerAction.loadingBar Et.SECOND) e.secondDelay
  let e := { e with secondTimeout := r2.1 }
  let r3 := timeoutFor r2.2 e.thirdTimeout t (TimerAction.loadingBar Et.THIRD) e.thirdDelay
  ({ e with thirdTimeout := r3.1 }, r3.2)

/-- Method `updateConnectionState()`.  `store` is the object that
`this.connectionStateStore` refers to (`none` when the field is undefined).
Returns the method's return value, the element and the timer table. -/
def updateConnectionState (e : Re) (store : Option k0) (w : Timers) : Bool × Re × Timers :=
  let n : Option String := store.map k0.state
  let e := { e with offline := n == some Ee.CONNECTION_LOST }
  let e := { e with reconnecting := n == some Ee.RECONNECTING }
  let r := e.updateLoading w (n == some Ee.LOADING)
  let e := r.1
  if e.loading then (false, e, r.2)
  else if n ≠ e.lastMessageState then (true, { e with lastMessageState := n }, r.2)
  else (false, e, r.2)

/-- The arrow function `connectionStateListener` set up by the constructor:
`this.expanded=this.updateConnectionState(),this.expandedTimeout=this.timeoutFor(
this.expandedTimeout,this.expanded,()=>{this.expanded=!1},this.expandedDuration)`. -/
def connectionStateListener (e : Re) (store : Option k0) (w : Timers) : Re × Timers :=
  let r := e.updateConnectionState store w
  let e := { r.2.1 with expanded := r.1 }
  let t := timeoutFor r.2.2 e.expandedTimeout e.expanded TimerAction.collapse e.expandedDuration
  ({ e with expandedTimeout := t.1 }, t.2)

end Re

/-! ## Class `J0` (the Flow bridge) -/

/-- A thrown value.  `pd` is an instance of `class pd extends Error{}`;
`other` is any thrown value that is not an instance of `pd`. -/
inductive JsError where
  | pd (message : String)
  | other (message : String)
deriving DecidableEq, Repr

/-- The part of the server's init response that `flowInit` reads:
`appConfig.appId` and `pushScript` (present when it is a string). -/
structure FlowResponse where
  appId : String
  pushScript : Option String
deriving DecidableEq, Repr

/-- The functions that the bridge installs as element callbacks. -/
inductive Handler where
  /-- Callback `(n,r)=>this.flowNavigate(n,r)`. -/
  | flowNavigate
  /-- Callback `(n,r)=>this.flowLeave(n,r)`. -/
  | flowLeave
  /-- The `onBeforeEnter` of the offline stub. -/
  | stubBeforeEnter
  /-- The `onBeforeLeave` of the offline stub. -/
  | stubBeforeLeave
  /-- The `serverConnected` callback installed by `flowLeave`. -/
  | leaveServerConnected
deriving DecidableEq, Repr

/-- A DOM element as far as the bridge touches it. -/
structure Element where
  localName : String
  id : String
  attributes : List (String × String)
  display : Option String
  isConnected : Bool
  onBeforeEnter : Option Handler
  onBeforeLeave : Option Handler
  serverConnected : Option Handler
deriving DecidableEq, Repr

/-- Platform call `document.createElement(name)`. -/
def createElement (name : String) : Element :=
  { localName := name, id := "", attributes := [], display := none, isConnected := false,
    onBeforeEnter := none, onBeforeLeave := none, serverConnected := none }

/-- A router context `{pathname, search}`. -/
structure Ctx where
  pathname : String
  search : String
deriving DecidableEq, Repr

/-- One `sendEventMessage` sent by `md(e,t)` to the Flow clients: the event
name and the context from which `route` and `query` are computed. -/
structure ServerMessage where
  event : String
  ctx : Ctx
deriving DecidableEq, Repr

/-- Class `J0` together with the globals it works on:
`connectionState` is `window.Vaadin.connectionState`, `initial` is
`window.Vaadin.TypeScript.initial`, `listenerInstalled` is the presence of
`window.Vaadin.listener`, `sent` logs the messages sent to the server,
`registered` the keys written to `document.body.$`, and `flowInitCalls`
counts the invocations of `flowInit` (an observation, not a field of the
class). -/
structure J0 where
  response : Option FlowResponse
  pathname : String
  isActive : Bool
  navigation : String
  container : Option Element
  connectionState : k0
  initial : Option FlowResponse
  listenerInstalled : Bool
  sent : List ServerMessage
  registered : List String
  flowInitCalls : Nat
deriving DecidableEq, Repr

/-- What the environment answers during one `flowInit`: the outcome of the
init request of `flowInitUi`, of `loadScript`, the element found by
`document.querySelector`, the outcome of loading and running the bootstrap
module, of `config.imports` (when it is a function) and of loading and
starting the client module. -/
structure FlowEnv where
  initRequest : Except JsError FlowResponse
  loadScript : Except JsError Unit
  existing : Option Element
  bootstrap : Except JsError Unit
  imports : Option (Except JsError Unit)
  client : Except JsError Unit

namespace J0

/-- Method `isFlowClientLoaded()`: `this.response!==void 0`. -/
def isFlowClientLoaded (f : J0) : Bool := f.response.isSome

/-- Method `loadingStarted()` of the bridge. -/
def loadingStarted (f : J0) : J0 :=
  { f with isActive := true, connectionState := f.connectionState.loadingStarted }

/-- Method `loadingFinished()` of the bridge. -/
def loadingFinished (f : J0) : J0 :=
  let f := { f with isActive := false, connectionState := f.connectionState.loadingFinished }
  if !f.listenerInstalled then { f with listenerInstalled := true } else f

/-- Method `flowInitUi()`: the stored initial response if there is one,
otherwise the outcome of the init request. -/
def flowInitUi (env : FlowEnv) (f : J0) : J0 × Except JsError FlowResponse :=
  match f.initial with
  | some t => ({ f with initial := none }, Except.ok t)
  | none => (f, env.initRequest)

/-- The tail of `flowInit`, run whether or not the client was loaded:
`this.container&&!this.container.isConnected&&(this.container.style.display="none",
document.body.appendChild(this.container)),this.response`. -/
def flowInitAttach (f : J0) : J0 × Except JsError (Option FlowResponse) :=
  match f.container with
  | some c =>
    if !c.isConnected then
      ({ f with container := some { c with display := some "none", isConnected := true } },
        Except.ok f.response)
    else (f, Except.ok f.response)
  | none => (f, Except.ok f.response)

/-- Method `flowInit()`, with the awaited steps answered by `env`.  A step
that throws leaves the bridge as it was at that point. -/
def flowInit (env : FlowEnv) (f : J0) : J0 × Except JsError (Option FlowResponse) :=
  let f := { f with flowInitCalls := f.flowInitCalls + 1 }
  if !f.isFlowClientLoaded then
    let f := f.loadingStarted
    match flowInitUi env f with
    | (f, Except.error e) => (f, Except.error e)
    | (f, Except.ok resp) =>
      let f := { f with response := some resp }
      match (if resp.pushScript.isSome then env.loadScript else Except.ok ()) with
      | Except.error e => (f, Except.error e)
      | Except.ok _ =>
        let o := "flow-container-" ++ resp.appId.toLower
        let c := match env.existing with
          | some i => i
          | none => { createElement o with id := resp.appId }
        let f := { f with container := some c, registered := f.registered ++ [resp.appId] }
        match env.bootstrap with
        | Except.error e => (f, Except.error e)
        | Except.ok _ =>
          match (match env.imports with
                 | some r => r
                 | none => Except.ok ()) with
          | Except.error e => (f, Except.error e)
          | Except.ok _ =>
            match env.client with
            | Except.error e => (f, Except.error e)
            | Except.ok _ => flowInitAttach f.loadingFinished
  else flowInitAttach f

/-- The element built by `offlineStubAction()`. -/
def offlineStub : Element :=
  { createElement "iframe" with
    attributes := [("src", "./offline-stub.html"),
      ("style", "width: 100%; height: 100%; border: 0")]
    onBeforeEnter := some Handler.stubBeforeEnter
    onBeforeLeave := some Handler.stubBeforeLeave }

/-- Method `offlineStubAction()`: builds the stub and sets
`this.response=void 0`. -/
def offlineStubAction (f : J0) : J0 × Except JsError Element :=
  ({ f with response := none }, Except.ok offlineStub)

/-- Getter `get action()`: the async function it returns, applied to the
context `t`.  Writing a property of an undefined `this.container` is a
`TypeError`. -/
def action (env : FlowEnv) (f : J0) (t : Ctx) : J0 × Except JsError Element :=
  let f := { f with pathname := t.pathname }
  if f.connectionState.online then
    match flowInit env f with
    | (f, Except.error (JsError.pd _)) =>
      offlineStubAction
        { f with connectionState := f.connectionState.setState Ee.CONNECTION_LOST }
    | (f, Except.error e) => (f, Except.error e)
    | (f, Except.ok _) =>
      match f.container with
      | none => (f, Except.error (JsError.other "TypeError"))
      | some c =>
        let c := { c with onBeforeEnter := some Handler.flowNavigate,
                          onBeforeLeave := some Handler.flowLeave }
        ({ f with container := some c }, Except.ok c)
  else offlineStubAction f

/-- What `flowLeave` returns: a promise already resolved with `{}`, or a
promise that stays pending until the server calls `serverConnected`. -/
inductive LeaveResult where
  | resolvedEmpty
  | pending
deriving DecidableEq, Repr

/-- Method `flowLeave(t,n)`.  In the second branch the promise executor runs
`this.loadingStarted()`, installs `this.container.serverConnected` and sends
`ui-leave-navigation`. -/
def flowLeave (f : J0) (t : Ctx) : J0 × Except JsError LeaveResult :=
  let r := f.connectionState
  if f.pathname = t.pathname || !f.isFlowClientLoaded || r.offline then
    (f, Except.ok LeaveResult.resolvedEmpty)
  else
    let f := f.loadingStarted
    match f.container with
    | none => (f, Except.error (JsError.other "TypeError"))
    | some c =>
      ({ f with
          container := some { c with serverConnected := some Handler.leaveServerConnected }
          sent := f.sent ++ [⟨"ui-leave-navigation", t⟩] },
        Except.ok LeaveResult.pending)

end J0

/-! ## The router (React Router, vendored)

Router strings are lists of characters. -/

/-- Call `e.split("/")`: the pieces of `e` between the separators `sep`. -/
def splitOn (sep : Char) : List Char → List (List Char)
  | [] => [[]]
  | c :: cs =>
    if c = sep then [] :: splitOn sep cs
    else
      match splitOn sep cs with
      | s :: rest => (c :: s) :: rest
      | [] => [[c]]

/-- The character class `[\w-]`: an ASCII letter, a digit, `_` or `-`. -/
def isNameChar (c : Char) : Bool :=
  ('a' ≤ c && c ≤ 'z') || ('A' ≤ c && c ≤ 'Z') || ('0' ≤ c && c ≤ '9') || c == '_' || c == '-'

/-- The test `og.test(s)` with `og=/^:[\w-]+$/`. -/
def ogTest : List Char → Bool
  | ':' :: rest => !rest.isEmpty && rest.all isNameChar
  | _ => false

/-- Constant `ig=3` (dynamic segment value). -/
def ig : Int := 3

/-- Constant `lg=2` (index route value). -/
def lg : Int := 2

/-- Constant `ag=1` (empty segment value). -/
def ag : Int := 1

/-- Constant `sg=10` (static segment value). -/
def sg : Int := 10

/-- Constant `ug=-2` (splat penalty). -/
def ug : Int := -2

/-- Function `Oc=e=>e==="*"`. -/
def Oc (e : List Char) : Bool := e == ['*']

/-- Function `cg(e,t)` (computeScore); `t` is the truthiness of the index
flag:
`let n=e.split("/"),r=n.length;return n.some(Oc)&&(r+=ug),t&&(r+=lg),
n.filter(o=>!Oc(o)).reduce((o,i)=>o+(og.test(i)?ig:i===""?ag:sg),r)`. -/
def cg (e : List Char) (t : Bool) : Int :=
  let n := splitOn '/' e
  let r : Int := n.length
  let r := if n.any Oc then r + ug else r
  let r := if t then r + lg else r
  (n.filter (fun o => !Oc o)).foldl
    (fun o i => o + (if ogTest i then ig else if i = [] then ag else sg)) r

/-- The value that `cg` adds for one segment that is not a splat. -/
def segmentValue (i : List Char) : Int :=
  if ogTest i then ig else if i = [] then ag else sg

/-- A parameter name: a non-empty string of ASCII letters, digits, `_`, `-`. -/
def isParamName (d : List Char) : Prop := d ≠ [] ∧ ∀ c ∈ d, isNameChar c = true

/-- One entry of a branch's `routesMeta`:
`{relativePath, caseSensitive, childrenIndex, route}`, for route objects of
type `ρ`. -/
structure RouteMeta (ρ : Type) where
  relativePath : List Char
  caseSensitive : Bool
  childrenIndex : Nat
  route : ρ

/-- A route branch `{path, score, routesMeta}` as pushed by `$p`. -/
structure Branch (ρ : Type) where
  path : List Char
  score : Int
  routesMeta : List (RouteMeta ρ)

/-- Function `dg(e,t)` (compareIndexes).  The result is a JavaScript number;
`none` is `NaN`, which arises as `undefined-undefined` for two empty arrays:
`e.length===t.length&&e.slice(0,-1).every((r,o)=>r===t[o])
?e[e.length-1]-t[t.length-1]:0`. -/
def dg (e t : List Nat) : Option Int :=
  if e.length = t.length && e.dropLast.enum.all (fun x => t.get? x.1 == some x.2) then
    match e.getLast?, t.getLast? with
    | some a, some b => some ((a : Int) - (b : Int))
    | _, _ => none
  else some 0

/-- The comparator that `rg` passes to `sort`:
`(t,n)=>t.score!==n.score?n.score-t.score:dg(t.routesMeta.map(r=>r.childrenIndex),
n.routesMeta.map(r=>r.childrenIndex))`. -/
def rgCompare {ρ : Type} (t n : Branch ρ) : Option Int :=
  if t.score ≠ n.score then some (n.score - t.score)
  else dg (t.routesMeta.map (fun r => r.childrenIndex))
    (n.routesMeta.map (fun r => r.childrenIndex))

/-- Whether a comparator result makes `sort` put the second argument first:
the result is greater than zero (`NaN` counts as `+0`). -/
def comparatorPositive : Option Int → Bool
  | some v => decide (0 < v)
  | none => false

/-- Insertion step of the sort: `x` goes in front of the first element that
the comparator does not order before it. -/
def sortInsert {α : Type} (cmp : α → α → Option Int) (x : α) : List α → List α
  | [] => [x]
  | y :: ys =>
    if comparatorPositive (cmp x y) then y :: sortInsert cmp x ys
    else x :: y :: ys

/-- Platform method `Array.prototype.sort(comparefn)`, modelled as a stable
insertion sort driven by the comparator. -/
def arraySort {α : Type} (cmp : α → α → Option Int) : List α → List α
  | [] => []
  | x :: xs => sortInsert cmp x (arraySort cmp xs)

/-- Function `rg(e)` (rankRouteBranches): sorts the branches in place; the
model returns the sorted array. -/
def rg {ρ : Type} (e : List (Branch ρ)) : List (Branch ρ) :=
  arraySort rgCompare e

/-- The loop of `Rn` (matchRoutes) over the ranked branches,
`for(let a=0;l==null&&a<i.length;++a){let s=hg(o);l=fg(i[a],s)}`, with the
attempt `b => fg(b, hg(o))` on one branch as a parameter. -/
def RnLoop {ρ M : Type} (attempt : Branch ρ → Option M) : List (Branch ρ) → Option M
  | [] => none
  | b :: bs =>
    match attempt b with
    | some m => some m
    | none => RnLoop attempt bs

/-! ### Path patterns: `mg` (compilePath) and `pg` (matchPath)

The regular expression object that `mg` builds is modelled by its syntax
tree: the tree to which the source string assembled by `mg` parses.  The
engine's case folding (the `Canonicalize` operation used under the `i` flag)
is the parameter `canon`. -/

/-- One entry of the parameter list `r` of `mg`: `{paramName, isOptional}`
(`isOptional` is absent, hence falsy, for the splat entry). -/
structure Param where
  paramName : List Char
  isOptional : Bool
deriving DecidableEq, Repr

/-- How often a regular-expression term may match: once, `?` or `??`. -/
inductive Quant where
  | once
  | optional
  | optionalLazy
deriving DecidableEq, Repr

/-- A term of the pattern body: a literal character (written plain or with a
backslash), or the capturing group `([^\/]+)`. -/
inductive Atom where
  | char (c : Char)
  | segment
deriving DecidableEq, Repr

/-- A quantified term. -/
structure Item where
  atom : Atom
  quant : Quant
deriving DecidableEq, Repr

/-- The end of the expression that `mg` appends. -/
inductive Tail where
  /-- Source `(.*)$`. -/
  | splatAll
  /-- Source `(?:\/(.+)|\/*)$`. -/
  | splatRest
  /-- Source `\/*$`. -/
  | slashesEnd
  /-- Source `(?:(?=\/|$))`. -/
  | boundary
  /-- Nothing appended. -/
  | nothing
deriving DecidableEq, Repr

/-- The value of `new RegExp("^"+body+tail, flags)`. -/
structure RegExp where
  items : List Item
  tail : Tail
  ignoreCase : Bool
deriving DecidableEq, Repr

/-- Drop the characters `c` at the end of a string. -/
def dropTrailing (c : Char) (s : List Char) : List Char :=
  (s.reverse.dropWhile (fun x => x == c)).reverse

/-- Step `e.replace(/\/*\*?$/,"")`: the leftmost match is the longest suffix
made of slashes followed by at most one star. -/
def stripSplat (e : List Char) : List Char :=
  dropTrailing '/' (if e.getLast? = some '*' then e.dropLast else e)

/-- Step `.replace(/^\/*/,"/")`. -/
def leadingSlash (e : List Char) : List Char :=
  '/' :: e.dropWhile (fun x => x == '/')

/-- The set escaped by `.replace(/[\\.*+^${}|()[\]]/g,"\\$&")`. -/
def isEscaped (c : Char) : Bool :=
  c ∈ ['\\', '.', '*', '+', '^', '$', '{', '}', '|', '(', ')', '[', ']']

/-- Whether `/:([\w-]+)(\?)?` matches right after a `/`: the name and whether
the `?` is present. -/
def paramAt : List Char → Option (List Char × Bool)
  | ':' :: r =>
    let name := r.takeWhile isNameChar
    if name.isEmpty then none
    else some (name, (r.dropWhile isNameChar).head? == some '?')
  | _ => none

/-- A `?` in the source applies to the term before it; a third `?` in a row
has nothing to repeat and makes `new RegExp` throw a SyntaxError.  `acc` holds
the terms read so far, last first. -/
def quantify : List Item → Except JsError (List Item)
  | ⟨a, Quant.once⟩ :: acc => Except.ok (⟨a, Quant.optional⟩ :: acc)
  | ⟨a, Quant.optional⟩ :: acc => Except.ok (⟨a, Quant.optionalLazy⟩ :: acc)
  | _ => Except.error (JsError.other "SyntaxError")

/-- The body of the expression: the escaping step, the replacement of
`/:name` and `/:name?` by `/([^\/]+)` and `/?([^\/]+)?`, and the reading of
the resulting source, in one pass.  A character of the escaped set
(`isEscaped`) is written with a backslash and so stands for itself, like every
other character but `?`, which the escaping step leaves as a quantifier.
`skip` counts characters already consumed as part of a parameter, `acc` holds
the terms so far, last first. -/
def compileBody : Nat → List Item → List Param → List Char →
    Except JsError (List Item × List Param)
  | _, acc, ps, [] => Except.ok (acc.reverse, ps)
  | skip + 1, acc, ps, _ :: rest => compileBody skip acc ps rest
  | 0, acc, ps, c :: rest =>
    if c = '/' then
      match paramAt rest with
      | some (name, true) =>
        compileBody (name.length + 2)
          (⟨Atom.segment, Quant.optional⟩ :: ⟨Atom.char '/', Quant.optional⟩ :: acc)
          (ps ++ [⟨name, true⟩]) rest
      | some (name, false) =>
        compileBody (name.length + 1)
          (⟨Atom.segment, Quant.once⟩ :: ⟨Atom.char '/', Quant.once⟩ :: acc)
          (ps ++ [⟨name, false⟩]) rest
      | none => compileBody 0 (⟨Atom.char '/', Quant.once⟩ :: acc) ps rest
    else if c = '?' then
      match quantify acc with
      | Except.ok acc1 => compileBody 0 acc1 ps rest
      | Except.error e => Except.error e
    else compileBody 0 (⟨Atom.char c, Quant.once⟩ :: acc) ps rest

/-- Function `mg(e,t,n)` (compilePath), with `t` and `n` already defaulted.
The console warning `br(...)` is left out. -/
def mg (e : List Char) (t : Bool) (n : Bool) : Except JsError (RegExp × List Param) :=
  match compileBody 0 [] [] (leadingSlash (stripSplat e)) with
  | Except.error err => Except.error err
  | Except.ok (items, r) =>
    if e.getLast? = some '*' then
      Except.ok (⟨items, if e = ['*'] ∨ e = ['/', '*'] then Tail.splatAll else Tail.splatRest, !t⟩,
        r ++ [⟨['*'], false⟩])
    else if n then Except.ok (⟨items, Tail.slashesEnd, !t⟩, r)
    else if e ≠ [] ∧ e ≠ ['/'] then Except.ok (⟨items, Tail.boundary, !t⟩, r)
    else Except.ok (⟨items, Tail.nothing, !t⟩, r)

/-- Whether the pattern character `a` matches the input character `b`. -/
def charEq (canon : Char → Char) (ignoreCase : Bool) (a b : Char) : Bool :=
  if ignoreCase then canon a == canon b else a == b

/-- The line terminators, which `.` does not match. -/
def isLineTerminator (c : Char) : Bool :=
  c == '\n' || c == '\r' || c == Char.ofNat 0x2028 || c == Char.ofNat 0x2029

/-- The result of a match: the matched text `o[0]` and the captures
`o.slice(1)` (`none` is `undefined`). -/
structure MatchResult where
  text : List Char
  groups : List (Option (List Char))
deriving DecidableEq, Repr

/-- Put a consumed character in front of the matched text. -/
def MatchResult.consume (x : Char) (m : MatchResult) : MatchResult :=
  { m with text := x :: m.text }

/-- Put the text of a capture in front of the matched text and the capture
in front of the captures. -/
def MatchResult.capture (g : Option (List Char)) (m : MatchResult) : MatchResult :=
  { text := (g.getD []) ++ m.text, groups := g :: m.groups }

/-- Matching of the end of the expression against the rest of the input. -/
def matchTail (canon : Char → Char) (ic : Bool) : Tail → List Char → Option MatchResult
  | Tail.splatAll, rest =>
    if rest.all (fun x => !isLineTerminator x) then some ⟨rest, [some rest]⟩ else none
  | Tail.splatRest, rest =>
    match rest with
    | x :: y :: ys =>
      if charEq canon ic '/' x && (y :: ys).all (fun z => !isLineTerminator z) then
        some ⟨rest, [some (y :: ys)]⟩
      else if rest.all (charEq canon ic '/') then some ⟨rest, [none]⟩
      else none
    | _ => if rest.all (charEq canon ic '/') then some ⟨rest, [none]⟩ else none
  | Tail.slashesEnd, rest =>
    if rest.all (charEq canon ic '/') then some ⟨rest, []⟩ else none
  | Tail.boundary, rest =>
    match rest with
    | [] => some ⟨[], []⟩
    | x :: _ => if charEq canon ic '/' x then some ⟨[], []⟩ else none
  | Tail.nothing, _ => some ⟨[], []⟩

/-- The greedy group `([^\/]+)`: at least one character other than `/`, the
longest run first, then shorter ones; `cont` matches what follows. -/
def matchSegment (canon : Char → Char) (ic : Bool) (cont : List Char → Option MatchResult) :
    List Char → List Char → Option MatchResult
  | _, [] => none
  | taken, x :: xs =>
    if charEq canon ic '/' x then none
    else
      match matchSegment canon ic cont (taken ++ [x]) xs with
      | some m => some m
      | none => (cont xs).map (MatchResult.capture (some (taken ++ [x])))

/-- Backtracking match of the terms, then the end, at the start of the input. -/
def matchItems (canon : Char → Char) (ic : Bool) (tail : Tail) :
    List Item → List Char → Option MatchResult
  | [], input => matchTail canon ic tail input
  | ⟨Atom.char c, q⟩ :: its, input =>
    let take : Option MatchResult :=
      match input with
      | x :: xs =>
        if charEq canon ic c x then
          (matchItems canon ic tail its xs).map (MatchResult.consume x)
        else none
      | [] => none
    match q with
    | Quant.once => take
    | Quant.optional => take.orElse (fun _ => matchItems canon ic tail its input)
    | Quant.optionalLazy => (matchItems canon ic tail its input).orElse (fun _ => take)
  | ⟨Atom.segment, q⟩ :: its, input =>
    let take := matchSegment canon ic (matchItems canon ic tail its) [] input
    let leave := (matchItems canon ic tail its input).map (MatchResult.capture none)
    match q with
    | Quant.once => take
    | Quant.optional => take.orElse (fun _ => leave)
    | Quant.optionalLazy => leave.orElse (fun _ => take)

/-- Platform method `t.match(n)` for an expression built by `mg`: it starts
with `^` and has no `g` or `m` flag, so only a match at index 0 counts. -/
def regexMatch (canon : Char → Char) (n : RegExp) (t : List Char) : Option MatchResult :=
  matchItems canon n.ignoreCase n.tail n.items t

/-- Step `.replace(/(.)\/+$/,"$1")`: at the leftmost character that is not a
line terminator and is followed by slashes up to the end, the slashes are cut. -/
def stripTrailingSlashes : List Char → List Char
  | [] => []
  | c :: cs =>
    if !isLineTerminator c && !cs.isEmpty && cs.all (fun x => x == '/') then [c]
    else c :: stripTrailingSlashes cs

/-- Step `.replace(/%2F/g,"/")`. -/
def decodeSlashes : List Char → List Char
  | '%' :: '2' :: 'F' :: rest => '/' :: decodeSlashes rest
  | c :: rest => c :: decodeSlashes rest
  | [] => []

/-- Assignment `u[c]=v` on the params object: an existing key keeps its
place, a new key goes last. -/
def setProp (u : List (List Char × Option (List Char))) (c : List Char)
    (v : Option (List Char)) : List (List Char × Option (List Char)) :=
  if u.any (fun p => p.1 == c) then u.map (fun p => if p.1 == c then (c, v) else p)
  else u ++ [(c, v)]

/-- A path pattern `{path, caseSensitive, end}`, with the defaults of `mg`
applied (`caseSensitive` false, `end` true). -/
structure PathPattern where
  path : List Char
  caseSensitive : Bool
  «end» : Bool
deriving DecidableEq, Repr

/-- The object returned by `pg`. -/
structure PathMatch where
  params : List (List Char × Option (List Char))
  pathname : List Char
  pathnameBase : List Char
  pattern : PathPattern
deriving DecidableEq, Repr

/-- The reducer of `pg` over the parameter list: `a[f]` is the capture that
belongs to the parameter, `l` the path base so far, `u` the params so far. -/
def pgParams (i : List Char) : List Param → List (Option (List Char)) →
    List Char → List (List Char × Option (List Char)) →
    List Char × List (List Char × Option (List Char))
  | [], _, l, u => (l, u)
  | d :: ds, a, l, u =>
    let w : Option (List Char) := a.head?.join
    let l1 :=
      if d.paramName = ['*'] then
        stripTrailingSlashes (i.take (i.length - (w.getD []).length))
      else l
    let u1 :=
      if d.isOptional && (w.getD []).isEmpty then setProp u d.paramName none
      else setProp u d.paramName (some (decodeSlashes (w.getD [])))
    pgParams i ds a.tail l1 u1

/-- Function `pg(e,t)` (matchPath) for a pattern object `e`. -/
def pg (canon : Char → Char) (e : PathPattern) (t : List Char) :
    Except JsError (Option PathMatch) :=
  match mg e.path e.caseSensitive e.«end» with
  | Except.error err => Except.error err
  | Except.ok (n, r) =>
    match regexMatch canon n t with
    | none => Except.ok none
    | some o =>
      let i := o.text
      let l := stripTrailingSlashes i
      let res := pgParams i r o.groups l []
      Except.ok (some { params := res.2, pathname := i, pathnameBase := res.1, pattern := e })

/-- Function `pg(e,t)` called with a string pattern:
`e={path:e,caseSensitive:!1,end:!0}`. -/
def pgString (canon : Char → Char) (e : List Char) (t : List Char) :
    Except JsError (Option PathMatch) :=
  pg canon ⟨e, false, true⟩ t

/-- The upper-case ASCII letters. -/
def upperLetters : List Char := "ABCDEFGHIJKLMNOPQRSTUVWXYZ".toList

/-- ASCII upper-casing, the restriction of the engine's case folding to
ASCII: a lower-case letter goes to its upper-case letter, any other
character to itself. -/
def asciiUpper (c : Char) : Char :=
  match ("abcdefghijklmnopqrstuvwxyz".toList.zip upperLetters).lookup c with
  | some u => u
  | none => c

/-- The pattern `/s1/.../sn` built from its segments. -/
def staticPattern (segs : List (List Char)) : List Char :=
  segs.flatMap (fun s => '/' :: s)

/-- A static segment in the sense of the specification: a non-empty string
of letters, digits, `_` or `-`. -/
def isStaticSegment (s : List Char) : Prop := s ≠ [] ∧ ∀ c ∈ s, isNameChar c = true

/-- Equality of two strings as the expression compares them: exact when
`caseSensitive`, up to the engine's case folding otherwise. -/
def sameText (canon : Char → Char) (caseSensitive : Bool) (a b : List Char) : Prop :=
  if caseSensitive then a = b else a.map canon = b.map canon

/-- What the model assumes of the engine's case folding: no other character
is folded together with `/` or with a line terminator. -/
def CanonOK (canon : Char → Char) : Prop :=
  ∀ x y : Char, (x = '/' ∨ isLineTerminator x = true) → canon y = canon x → y = x

/-! ## The link-click filter `ly` -/

/-- An event target or DOM node as far as `ly` reads it.  `nodeName` is
`undefined` (`none`) for a target that is not a node, such as `window`; the
other fields are the properties of an anchor element. -/
structure DomNode where
  nodeName : Option (List Char)
  target : List Char
  attributes : List (List Char)
  pathname : List Char
  hash : List Char
  origin : List Char
  protocol : List Char
  port : List Char
  hostname : List Char
  host : List Char
  href : List Char
  baseURI : List Char
deriving DecidableEq, Repr

/-- A click event.  `target` is `e.target` followed by its chain of
`parentNode`s (the empty list is a null target); `composedPath` is
`e.composedPath()` or `e.path||[]`. -/
structure ClickEvent where
  defaultPrevented : Bool
  button : Int
  shiftKey : Bool
  ctrlKey : Bool
  altKey : Bool
  metaKey : Bool
  target : List DomNode
  composedPath : List DomNode
deriving DecidableEq, Repr

/-- The object `window.location` and the string `document.baseURI`. -/
structure Page where
  pathname : List Char
  origin : List Char
  hash : List Char
  baseURI : List Char
deriving DecidableEq, Repr

/-- Method `toLowerCase()`, on the ASCII letters. -/
def toLowerCase (s : List Char) : List Char := s.map Char.toLower

/-- Function `iy(e)`. -/
def iy (e : DomNode) : List Char :=
  let i :=
    if (e.protocol = "http:".toList ∧ e.port = "80".toList) ∨
        (e.protocol = "https:".toList ∧ e.port = "443".toList) then e.hostname
    else e.host
  e.protocol ++ "//".toList ++ i

/-- Function `lm(e)` applied to an object whose `href` is `href`. -/
def lm (baseURI : List Char) (href : List Char) : Option (List Char) :=
  if baseURI.isPrefixOf href then some ('/' :: href.drop baseURI.length) else none

/-- The first loop of `ly`: the first entry of the path whose `nodeName` is
truthy and lower-cases to `a`. -/
def findAnchorInPath (n : List DomNode) : Option DomNode :=
  n.find? (fun l =>
    match l.nodeName with
    | some nm => !nm.isEmpty && toLowerCase nm == ['a']
    | none => false)

/-- The second loop of `ly`, `for(;t&&t.nodeName.toLowerCase()!=="a";)t=t.parentNode`:
calling `toLowerCase` on an undefined `nodeName` is a TypeError. -/
def walkToAnchor : List DomNode → Except JsError (Option DomNode)
  | [] => Except.ok none
  | t :: parents =>
    match t.nodeName with
    | none => Except.error (JsError.other "TypeError")
    | some nm =>
      if toLowerCase nm ≠ ['a'] then walkToAnchor parents
      else Except.ok (some t)

/-- Function `ly(e)`.  `newURL href base` is the `href` of the platform
object `new URL(href, base)`, or the TypeError it throws.  Returns the page
(whose `location.hash` the function may assign) and the returned value,
`none` being `undefined`. -/
def ly (newURL : List Char → List Char → Except JsError (List Char))
    (page : Page) (e : ClickEvent) : Page × Except JsError (Option (List Char)) :=
  if e.defaultPrevented || e.button ≠ 0 || e.shiftKey || e.ctrlKey || e.altKey || e.metaKey then
    (page, Except.ok none)
  else
    let t : List DomNode :=
      match findAnchorInPath e.composedPath with
      | some l => [l]
      | none => e.target
    match walkToAnchor t with
    | Except.error err => (page, Except.error err)
    | Except.ok none => (page, Except.ok none)
    | Except.ok (some r) =>
      if (!r.target.isEmpty && toLowerCase r.target ≠ "_self".toList) ||
          r.attributes.contains "download".toList ||
          r.attributes.contains "router-ignore".toList then
        (page, Except.ok none)
      else if r.pathname = page.pathname ∧ r.hash ≠ [] then
        ({ page with hash := r.hash }, Except.ok none)
      else if (if r.origin.isEmpty then iy r else r.origin) = page.origin then
        match newURL r.href r.baseURI with
        | Except.error err => (page, Except.error err)
        | Except.ok href => (page, Except.ok (lm page.baseURI href))
      else (page, Except.ok none)

/-- A node that is not an anchor and has no anchor properties. -/
def plainNode (nodeName : Option (List Char)) : DomNode :=
  { nodeName := nodeName, target := [], attributes := [], pathname := [], hash := [],
    origin := [], protocol := [], port := [], hostname := [], host := [], href := [],
    baseURI := [] }

/-- The object `window` as an event target: it has no `nodeName`. -/
def windowTarget : DomNode := plainNode none

/-- The event of `window.dispatchEvent(new MouseEvent("click"))`: primary
button, no modifier key, target `window`, path `[window]`. -/
def windowClick : ClickEvent :=
  { defaultPrevented := false, button := 0, shiftKey := false, ctrlKey := false,
    altKey := false, metaKey := false, target := [windowTarget],
    composedPath := [windowTarget] }

/-- A page at `https://app.example/ui/list`, base `https://app.example/ui/`. -/
def samplePage : Page :=
  { pathname := "/ui/list".toList, origin := "https://app.example".toList, hash := [],
    baseURI := "https://app.example/ui/".toList }

/-- The anchor `<a href="detail/7">` on the sample page. -/
def sampleAnchor : DomNode :=
  { nodeName := some "A".toList, target := [], attributes := ["href".toList],
    pathname := "/ui/detail/7".toList, hash := [], origin := "https://app.example".toList,
    protocol := "https:".toList, port := [], hostname := "app.example".toList,
    host := "app.example".toList, href := "https://app.example/ui/detail/7".toList,
    baseURI := "https://app.example/ui/".toList }

/-- A click on a `<span>` inside the sample anchor. -/
def sampleClick : ClickEvent :=
  { defaultPrevented := false, button := 0, shiftKey := false, ctrlKey := false,
    altKey := false, metaKey := false,
    target := [plainNode (some "SPAN".toList), sampleAnchor, plainNode (some "BODY".toList)],
    composedPath := [plainNode (some "SPAN".toList), sampleAnchor,
      plainNode (some "BODY".toList), windowTarget] }

/-- The platform constructor `new URL(href, base)` on an `href` that is
already an absolute serialised URL: its `href` is the same string. -/
def absoluteURL (href : List Char) (_base : List Char) : Except JsError (List Char) :=
  Except.ok href

/-- Whether a node is an `<a>` element: its `nodeName` lower-cases to `a`. -/
def isAnchor (n : DomNode) : Bool :=
  match n.nodeName with
  | some nm => toLowerCase nm == ['a']
  | none => false

/-- The `<a>` element of a click in the words of the specification: the
first one in the event path, or else the first one among the target and its
ancestors. -/
def anchorOf (e : ClickEvent) : Option DomNode :=
  match e.composedPath.find? isAnchor with
  | some l => some l
  | none => e.target.find? isAnchor

/-- The conditions of the specification under which a click on the anchor `r`
is a navigation. -/
def navigable (page : Page) (e : ClickEvent) (r : DomNode) : Prop :=
  e.defaultPrevented = false ∧ e.button = 0 ∧
  e.shiftKey = false ∧ e.ctrlKey = false ∧ e.altKey = false ∧ e.metaKey = false ∧
  (r.target = [] ∨ toLowerCase r.target = "_self".toList) ∧
  "download".toList ∉ r.attributes ∧ "router-ignore".toList ∉ r.attributes ∧
  ¬ (r.pathname = page.pathname ∧ r.hash ≠ []) ∧
  (if r.origin.isEmpty then iy r else r.origin) = page.origin

/-! ### Paths: `Vn` (stripBasename), `Io`/`Sn` (createPath/parsePath), `gg` (resolvePathname) -/

/-- The position at which `Vn` cuts the pathname:
`t.endsWith("/")?t.length-1:t.length`. -/
def basenameEnd (t : List Char) : Nat :=
  if t.getLast? = some '/' then t.length - 1 else t.length

/-- Function `Vn(e,t)` (stripBasename); `lower` is the platform method
`toLowerCase`; `none` is `null`:
`if(t==="/")return e;if(!e.toLowerCase().startsWith(t.toLowerCase()))return null;
let n=t.endsWith("/")?t.length-1:t.length,r=e.charAt(n);
return r&&r!=="/"?null:e.slice(n)||"/"`. -/
def Vn (lower : List Char → List Char) (e t : List Char) : Option (List Char) :=
  if t = ['/'] then some e
  else if !(lower t).isPrefixOf (lower e) then none
  else
    let n := basenameEnd t
    match e.get? n with
    | some r =>
      if r ≠ '/' then none
      else some (if (e.drop n).isEmpty then ['/'] else e.drop n)
    | none => some (if (e.drop n).isEmpty then ['/'] else e.drop n)

/-- A partial path object `{pathname?, search?, hash?}`; `none` is an absent
(undefined) field. -/
structure PartialPath where
  pathname : Option (List Char)
  search : Option (List Char)
  hash : Option (List Char)
deriving DecidableEq, Repr

/-- Function `Io(e)` (createPath):
`let{pathname:t="/",search:n="",hash:r=""}=e;
return n&&n!=="?"&&(t+=n.charAt(0)==="?"?n:"?"+n),
r&&r!=="#"&&(t+=r.charAt(0)==="#"?r:"#"+r),t`. -/
def Io (e : PartialPath) : List Char :=
  let t := e.pathname.getD ['/']
  let n := e.search.getD []
  let r := e.hash.getD []
  let t := if !n.isEmpty && n ≠ ['?'] then t ++ (if n.head? = some '?' then n else '?' :: n) else t
  let t := if !r.isEmpty && r ≠ ['#'] then t ++ (if r.head? = some '#' then r else '#' :: r) else t
  t

/-- Method `e.indexOf(c)` for a one-character string `c`; `none` is `-1`. -/
def indexOf (c : Char) : List Char → Option Nat
  | [] => none
  | x :: xs => if x = c then some 0 else (indexOf c xs).map (· + 1)

/-- Function `Sn(e)` (parsePath):
`let t={};if(e){let n=e.indexOf("#");n>=0&&(t.hash=e.substr(n),e=e.substr(0,n));
let r=e.indexOf("?");r>=0&&(t.search=e.substr(r),e=e.substr(0,r)),
e&&(t.pathname=e)}return t`. -/
def Sn (e : List Char) : PartialPath :=
  if e.isEmpty then { pathname := none, search := none, hash := none }
  else
    let h : Option (List Char) × List Char :=
      match indexOf '#' e with
      | some n => (some (e.drop n), e.take n)
      | none => (none, e)
    let e := h.2
    let s : Option (List Char) × List Char :=
      match indexOf '?' e with
      | some r => (some (e.drop r), e.take r)
      | none => (none, e)
    let e := s.2
    { pathname := if e.isEmpty then none else some e, search := s.1, hash := h.1 }

/-- Method `n.join(sep)` for a one-character separator. -/
def joinWith (sep : Char) : List (List Char) → List Char
  | [] => []
  | [a] => a
  | a :: b :: rest => a ++ sep :: joinWith sep (b :: rest)

/-- The callback of `forEach` in `gg`:
`o=>{o===".."?n.length>1&&n.pop():o!=="."&&n.push(o)}`. -/
def ggStep (n : List (List Char)) (o : List Char) : List (List Char) :=
  if o = ['.', '.'] then (if n.length > 1 then n.dropLast else n)
  else if o ≠ ['.'] then n ++ [o]
  else n

/-- Function `gg(e,t)` (resolvePathname):
`let n=t.replace(/\/+$/,"").split("/");return e.split("/").forEach(...),
n.length>1?n.join("/"):"/"`. -/
def gg (e t : List Char) : List Char :=
  let n := splitOn '/' (dropTrailing '/' t)
  let n := (splitOn '/' e).foldl ggStep n
  if n.length > 1 then joinWith '/' n else ['/']

/-- Function `xg` (normalizeSearch):
`e=>!e||e==="?"?"":e.startsWith("?")?e:"?"+e`. -/
def xg (e : List Char) : List Char :=
  if e.isEmpty ∨ e = ['?'] then [] else if e.head? = some '?' then e else '?' :: e

/-- Function `wg` (normalizeHash):
`e=>!e||e==="#"?"":e.startsWith("#")?e:"#"+e`. -/
def wg (e : List Char) : List Char :=
  if e.isEmpty ∨ e = ['#'] then [] else if e.head? = some '#' then e else '#' :: e

/-- Function `vg(e,t)` (resolvePath) for a path object `e`, with `t`
defaulted to `"/"` by the caller:
`{pathname:n?n.startsWith("/")?n:gg(n,t):t,search:xg(r),hash:wg(o)}`. -/
def vg (e : PartialPath) (t : List Char) : PartialPath :=
  let n := e.pathname.getD []
  { pathname := some (if !n.isEmpty then (if n.head? = some '/' then n else gg n t) else t),
    search := some (xg (e.search.getD [])),
    hash := some (wg (e.hash.getD [])) }

/-- The relative path made of `k` segments `..`: `../../..` for `k = 3`. -/
def upPath (k : Nat) : List Char := joinWith '/' (List.replicate k ['.', '.'])

/-! ### The blocker state machine: `jo` (updateBlocker) -/

/-- A blocker object `{state, proceed, reset, location}`; `payload` stands for
the three fields that `jo` does not read. -/
structure Blocker where
  state : String
  payload : Nat
deriving DecidableEq, Repr

/-- Constant `qn` (IDLE_BLOCKER): `{state:"unblocked",proceed:void 0,reset:void 0,
location:void 0}`. -/
def qn : Blocker := { state := "unblocked", payload := 0 }

/-- A JavaScript `Map` from blocker keys to blockers, in insertion order. -/
abbrev BlockerMap := List (String × Blocker)

/-- Method `Map.prototype.get`; `none` is `undefined`. -/
def mapGet (m : BlockerMap) (g : String) : Option Blocker :=
  match m with
  | [] => none
  | (k, v) :: rest => if k = g then some v else mapGet rest g

/-- Method `Map.prototype.set`: an existing key keeps its place, a new key
goes last. -/
def mapSet (m : BlockerMap) (g : String) (x : Blocker) : BlockerMap :=
  match m with
  | [] => [(g, x)]
  | (k, v) :: rest => if k = g then (k, x) :: rest else (k, v) :: mapSet rest g x

/-- The part of the router state `h` that `jo` touches: the blockers map, and
the states handed to the subscribers by `ne` (an observation). -/
structure RouterState where
  blockers : BlockerMap
  published : List BlockerMap
deriving DecidableEq, Repr

/-- The condition asserted by `jo` on the current state `k` and the next
state `x`. -/
def transitionAllowed (k x : String) : Bool :=
  (k == "unblocked" && x == "blocked") || (k == "blocked" && x == "blocked") ||
  (k == "blocked" && x == "proceeding") || (k == "blocked" && x == "unblocked") ||
  (k == "proceeding" && x == "unblocked")

/-- Function `jo(g,x)` (updateBlocker):
`let k=h.blockers.get(g)||qn;Y(...,"Invalid blocker state transition: "+k.state+
" -> "+x.state);let T=new Map(h.blockers);T.set(g,x),ne({blockers:T})`. -/
def jo (h : RouterState) (g : String) (x : Blocker) : Except JsError RouterState :=
  let k := (mapGet h.blockers g).getD qn
  if transitionAllowed k.state x.state then
    let T := mapSet h.blockers g x
    Except.ok { blockers := T, published := h.published ++ [T] }
  else
    Except.error
      (JsError.other ("Invalid blocker state transition: " ++ k.state ++ " -> " ++ x.state))

/-- The current state of a blocker key in the words of the specification:
'unblocked' when the key is absent. -/
def currentState (h : RouterState) (g : String) : String :=
  match mapGet h.blockers g with
  | some b => b.state
  | none => "unblocked"

/-- The five transitions that the specification lists. -/
def listedTransitions : List (String × String) :=
  [("unblocked", "blocked"), ("blocked", "blocked"), ("blocked", "proceeding"),
   ("blocked", "unblocked"), ("proceeding", "unblocked")]

/-! ## The scheduler (vendored)

Times and sort indices are numbers of milliseconds, modelled as integers. -/

/-- A task, the node type of the scheduler's heaps:
`{id, callback, priorityLevel, startTime, expirationTime, sortIndex}`.
`callback` names the callback function (`none` is `null`). -/
structure Task where
  id : Int
  callback : Option Nat
  priorityLevel : Int
  startTime : Int
  expirationTime : Int
  sortIndex : Int
deriving DecidableEq, Repr

/-- The value read from an array slot that holds no task; the code never
uses it. -/
def noTask : Task :=
  { id := 0, callback := none, priorityLevel := 0, startTime := 0, expirationTime := 0,
    sortIndex := 0 }

/-- Array read `P[i]`. -/
def nth (P : List Task) (i : Nat) : Task := P.getD i noTask

/-- Function `o(P,F)` (compare):
`var j=P.sortIndex-F.sortIndex;return j!==0?j:P.id-F.id`. -/
def o (P F : Task) : Int :=
  let j := P.sortIndex - F.sortIndex
  if j ≠ 0 then j else P.id - F.id

/-- The loop of `t` (siftUp), run for at most `fuel` rounds:
`for(;0<j;){var q=j-1>>>1,Z=P[q];if(0<o(Z,F))P[q]=F,P[j]=Z,j=q;else break}`. -/
def siftUp : Nat → List Task → Task → Nat → List Task
  | 0, P, _, _ => P
  | fuel + 1, P, F, j =>
    if 0 < j then
      let q := (j - 1) / 2
      let Z := nth P q
      if 0 < o Z F then siftUp fuel ((P.set q F).set j Z) F q
      else P
    else P

/-- Function `t(P,F)` (push): `var j=P.length;P.push(F);` and the loop, which
ends within `j` rounds. -/
def push (P : List Task) (F : Task) : List Task :=
  siftUp P.length (P ++ [F]) F P.length

/-- Function `n(P)` (peek): `P.length===0?null:P[0]`. -/
def peek (P : List Task) : Option Task := P.head?

/-- The loop of `r` (siftDown), run for at most `fuel` rounds; `j` is the
node being moved down and `q` its position. -/
def siftDown : Nat → List Task → Task → Nat → List Task
  | 0, P, _, _ => P
  | fuel + 1, P, j, q =>
    let Z := P.length
    let Qe := Z / 2
    if q < Qe then
      let Ue := 2 * (q + 1) - 1
      let je := nth P Ue
      let Le := Ue + 1
      let se := nth P Le
      if 0 > o je j then
        if Le < Z ∧ 0 > o se je then siftDown fuel ((P.set q se).set Le j) j Le
        else siftDown fuel ((P.set q je).set Ue j) j Ue
      else if Le < Z ∧ 0 > o se j then siftDown fuel ((P.set q se).set Le j) j Le
      else P
    else P

/-- Function `r(P)` (pop): the returned value (`none` is `null`) and the array
afterwards:
`if(P.length===0)return null;var F=P[0],j=P.pop();if(j!==F){P[0]=j; ...loop... }
return F`. -/
def pop (P : List Task) : Option Task × List Task :=
  match P with
  | [] => (none, [])
  | F :: rest =>
    let j := (F :: rest).getLast (List.cons_ne_nil F rest)
    let P1 := (F :: rest).dropLast
    if j ≠ F then (some F, siftDown P1.length (P1.set 0 j) j 0)
    else (some F, P1)

/-- The order of the specification: smaller sortIndex first, ties broken by
smaller id. -/
def taskLe (a b : Task) : Prop :=
  a.sortIndex < b.sortIndex ∨ (a.sortIndex = b.sortIndex ∧ a.id ≤ b.id)

instance (a b : Task) : Decidable (taskLe a b) := by
  unfold taskLe
  exact inferInstance

/-- The min-heap property of an array: every node is not before its parent,
the parent of position `i` being position `(i-1)/2`. -/
def isHeap (P : List Task) : Prop :=
  ∀ i, i < P.length → 0 < i → taskLe (nth P ((i - 1) / 2)) (nth P i)

instance (P : List Task) : Decidable (isHeap P) := by
  unfold isHeap
  exact inferInstance

/-- The loop invariant of `siftUp` with the moving node at position `j`:
every node but the one at `j` is not before its parent, and the children of
`j` are not before the parent of `j`. -/
def upInv (A : List Task) (j : Nat) : Prop :=
  (∀ i, i < A.length → 0 < i → i ≠ j → taskLe (nth A ((i - 1) / 2)) (nth A i)) ∧
  (0 < j → ∀ c, c < A.length → 0 < c → (c - 1) / 2 = j →
    taskLe (nth A ((j - 1) / 2)) (nth A c))

/-- The loop invariant of `siftDown` with the moving node at position `q`:
every node whose parent is not `q` is not before its parent, and the children
of `q` are not before the parent of `q`. -/
def downInv (A : List Task) (q : Nat) : Prop :=
  (∀ i, i < A.length → 0 < i → (i - 1) / 2 ≠ q → taskLe (nth A ((i - 1) / 2)) (nth A i)) ∧
  (0 < q → ∀ c, c < A.length → 0 < c → (c - 1) / 2 = q →
    taskLe (nth A ((q - 1) / 2)) (nth A c))

/-- A sample task with the given id and sortIndex. -/
def sampleTask (id s : Int) : Task := { noTask with id := id, sortIndex := s }

/-- A sample heap: sort indices 1, 3, 2, 5 with ids 4, 2, 3, 1. -/
def sampleHeap : List Task :=
  [sampleTask 4 1, sampleTask 2 3, sampleTask 3 2, sampleTask 1 5]

/-- The module state of the scheduler: the task queue `s`, the timer queue
`u`, the id counter `d`, the flags `y` (performing work), `w` (host callback
scheduled) and `S` (host timeout scheduled), the pending host timeout `L` (its
delay, `none` for `-1`), whether a host callback is stored (`h`), whether the
message loop runs (`D`), and the number of times the loop was kicked (`oe()`). -/
structure Scheduler where
  taskQueue : List Task
  timerQueue : List Task
  taskIdCounter : Int
  isPerformingWork : Bool
  isHostCallbackScheduled : Bool
  isHostTimeoutScheduled : Bool
  hostTimeout : Option Int
  hostCallbackStored : Bool
  isMessageLoopRunning : Bool
  kicks : Nat
deriving DecidableEq, Repr

/-- The third argument of `unstable_scheduleCallback`: not an object (or
`null`), or an object whose `delay` is a number (`some d`) or not. -/
inductive ScheduleOptions where
  | notObject
  | object (delay : Option Int)
deriving DecidableEq, Repr

/-- The `switch(P)` of `unstable_scheduleCallback`:
`case 1:Z=-1; case 2:Z=250; case 5:Z=1073741823; case 4:Z=1e4; default:Z=5e3`. -/
def priorityTimeout (P : Int) : Int :=
  if P = 1 then -1
  else if P = 2 then 250
  else if P = 5 then 1073741823
  else if P = 4 then 10000
  else 5000

/-- The start time computed by `unstable_scheduleCallback` at time `q`:
`typeof j=="object"&&j!==null?(j=j.delay,j=typeof j=="number"&&0<j?q+j:q):j=q`. -/
def scheduleStart (q : Int) (j : ScheduleOptions) : Int :=
  match j with
  | ScheduleOptions.object (some d) => if 0 < d then q + d else q
  | _ => q

/-- Function `St(P)` (requestHostCallback): `h=P,D||(D=!0,oe())`. -/
def St (st : Scheduler) : Scheduler :=
  let st := { st with hostCallbackStored := true }
  if st.isMessageLoopRunning then st
  else { st with isMessageLoopRunning := true, kicks := st.kicks + 1 }

/-- Function `dt(P,F)` (requestHostTimeout): `L=R(function(){...},F)`. -/
def dt (st : Scheduler) (F : Int) : Scheduler := { st with hostTimeout := some F }

/-- Function `unstable_scheduleCallback(P,F,j)` called when `unstable_now()`
is `q`; returns the new task and the module state. -/
def unstable_scheduleCallback (st : Scheduler) (q : Int) (P : Int) (F : Option Nat)
    (j : ScheduleOptions) : Task × Scheduler :=
  let j := scheduleStart q j
  let Z := priorityTimeout P
  let Z := j + Z
  let task : Task :=
    { id := st.taskIdCounter, callback := F, priorityLevel := P, startTime := j,
      expirationTime := Z, sortIndex := -1 }
  let st := { st with taskIdCounter := st.taskIdCounter + 1 }
  if j > q then
    let task := { task with sortIndex := j }
    let st := { st with timerQueue := push st.timerQueue task }
    if peek st.taskQueue = none ∧ peek st.timerQueue = some task then
      let st :=
        if st.isHostTimeoutScheduled then { st with hostTimeout := none }
        else { st with isHostTimeoutScheduled := true }
      (task, dt st (j - q))
    else (task, st)
  else
    let task := { task with sortIndex := Z }
    let st := { st with taskQueue := push st.taskQueue task }
    if st.isHostCallbackScheduled || st.isPerformingWork then (task, st)
    else (task, St { st with isHostCallbackScheduled := true })

/-- The module state right after the scheduler module is loaded. -/
def Scheduler.initial : Scheduler :=
  { taskQueue := [], timerQueue := [], taskIdCounter := 1, isPerformingWork := false,
    isHostCallbackScheduled := false, isHostTimeoutScheduled := false, hostTimeout := none,
    hostCallbackStored := false, isMessageLoopRunning := false, kicks := 0 }

/-! ## React `createElement` (function `Pd`)

Objects are modelled as finite maps from property names to values: the
enumerable string-keyed properties, own and inherited.  The object `props`
is created as `{}`, so it starts with the prototype `Object.prototype`, whose
accessor `__proto__` answers an assignment `o["__proto__"]=v` by replacing
the prototype of `o` when `v` is an object or `null`, and by doing nothing
otherwise.  The objects of the program that can become the prototype of
`props` in this way are ordinary objects with writable data properties, whose
prototype chain ends in `Object.prototype`. -/

/-- A JavaScript value as far as `Pd` tells values apart. -/
inductive JsVal where
  | undefined
  | null
  | bool (b : Bool)
  | num (n : Int)
  | str (s : String)
  | obj (ref : Nat)
deriving DecidableEq, Repr

/-- An object: its own enumerable properties and the enumerable properties it
inherits, each in enumeration order. -/
structure JsObj where
  own : List (String × JsVal)
  inherited : List (String × JsVal)
deriving DecidableEq, Repr

/-- The value of a property of `props`: a plain value, or the array of child
arguments built by `Pd`. -/
inductive PropVal where
  | val (v : JsVal)
  | children (items : List JsVal)
deriving DecidableEq, Repr

/-- The own properties of the `props` object, in creation order. -/
abbrev Props := List (String × PropVal)

/-- The prototype of the `props` object: `Object.prototype`, `null`, or an
object of the program. -/
inductive Proto where
  | objectPrototype
  | null
  | object (ref : Nat)
deriving DecidableEq, Repr

/-- The `props` object: its own properties and its prototype. -/
structure PropsObj where
  own : Props
  proto : Proto
deriving DecidableEq, Repr

/-- The object `{}`. -/
def PropsObj.empty : PropsObj := { own := [], proto := Proto.objectPrototype }

/-- The names of the members of `Object.prototype`, which every plain object
inherits (none of them is enumerable). -/
def objectPrototypeNames : List String :=
  ["constructor", "__defineGetter__", "__defineSetter__", "hasOwnProperty",
   "__lookupGetter__", "__lookupSetter__", "isPrototypeOf", "propertyIsEnumerable",
   "toString", "valueOf", "__proto__", "toLocaleString"]

/-- Own-property lookup in an association list. -/
def getOwn {β : Type} (l : List (String × β)) (k : String) : Option β :=
  match l with
  | [] => none
  | (k1, v) :: rest => if k1 = k then some v else getOwn rest k

/-- Property read `t[k]` on a config or defaultProps object: own, then
inherited, else `undefined`. -/
def JsObj.get (t : JsObj) (k : String) : JsVal :=
  match getOwn t.own k with
  | some v => v
  | none => (getOwn t.inherited k).getD JsVal.undefined

/-- The call `Object.prototype.hasOwnProperty.call(t,k)`. -/
def JsObj.hasOwn (t : JsObj) (k : String) : Bool := (getOwn t.own k).isSome

/-- The keys that `for(r in t)` visits: the own ones, then the inherited ones
that are not shadowed. -/
def JsObj.forInKeys (t : JsObj) : List String :=
  t.own.map Prod.fst ++ (t.inherited.map Prod.fst).filter (fun k => !t.hasOwn k)

/-- The write of the own data property `k` in the list of own properties: an
existing property keeps its place, a new one goes last.  It is the last step
of an assignment that is not answered by a setter. -/
def setOwn (o : Props) (k : String) (v : PropVal) : Props :=
  match o with
  | [] => [(k, v)]
  | (k1, v1) :: rest => if k1 = k then (k1, v) :: rest else (k1, v1) :: setOwn rest k v

/-- Whether the property `k`, not an own property, reads as `undefined`
through the prototype `p`.  `inherited r k` is the data property `k` that the
object `r` of the program has or inherits short of `Object.prototype`; the
members of `Object.prototype` are defined. -/
def inheritedUndefined (inherited : Nat → String → Option JsVal) (p : Proto) (k : String) :
    Bool :=
  match p with
  | Proto.objectPrototype => !objectPrototypeNames.contains k
  | Proto.null => true
  | Proto.object r =>
    match inherited r k with
    | some v => v == JsVal.undefined
    | none => !objectPrototypeNames.contains k

/-- Whether an assignment to the property `k`, not an own property, of an
object with the prototype `p` is answered by the accessor `__proto__` of
`Object.prototype`: the key is `__proto__` and no data property of that name
comes before `Object.prototype` in the prototype chain. -/
def reachesProtoSetter (inherited : Nat → String → Option JsVal) (p : Proto) (k : String) :
    Bool :=
  k == "__proto__" &&
    match p with
    | Proto.objectPrototype => true
    | Proto.null => false
    | Proto.object r => (inherited r k).isNone

/-- Assignment `o[k]=v` on `props`.  An own property is overwritten.
Otherwise, when the assignment reaches the accessor `__proto__`, the prototype
becomes `v` if `v` is an object or `null` and nothing happens for another `v`;
in every other case a new own property is created. -/
def assign (inherited : Nat → String → Option JsVal) (o : PropsObj) (k : String) (v : JsVal) :
    PropsObj :=
  if (getOwn o.own k).isSome then { o with own := setOwn o.own k (PropVal.val v) }
  else if reachesProtoSetter inherited o.proto k then
    match v with
    | JsVal.obj r => { o with proto := Proto.object r }
    | JsVal.null => { o with proto := Proto.null }
    | _ => o
  else { o with own := setOwn o.own k (PropVal.val v) }

/-- The test `o[k]===void 0` on `props`: an own property decides, then the
prototype chain. -/
def propsUndefined (inherited : Nat → String → Option JsVal) (o : PropsObj) (k : String) :
    Bool :=
  match getOwn o.own k with
  | some v => v == PropVal.val JsVal.undefined
  | none => inheritedUndefined inherited o.proto k

/-- Constant `bd` (RESERVED_PROPS): `{key:!0,ref:!0,__self:!0,__source:!0}`. -/
def bd : List String := ["key", "ref", "__self", "__source"]

/-- The first loop of `Pd`:
`for(r in t)_d.call(t,r)&&!bd.hasOwnProperty(r)&&(o[r]=t[r])`, starting from
`o={}`. -/
def copyConfig (inherited : Nat → String → Option JsVal) (t : JsObj) : PropsObj :=
  t.forInKeys.foldl
    (fun o r => if t.hasOwn r && !bd.contains r then assign inherited o r (t.get r) else o)
    PropsObj.empty

/-- The children step of `Pd`, for the child arguments `cs`
(`arguments.length-2` of them):
`if(a===1)o.children=n;else if(1<a){...o.children=s}`.  The key `children` is
not `__proto__`, so the assignment writes an own property. -/
def setChildren (o : PropsObj) (cs : List JsVal) : PropsObj :=
  match cs with
  | [] => o
  | [n] => { o with own := setOwn o.own "children" (PropVal.val n) }
  | _ => { o with own := setOwn o.own "children" (PropVal.children cs) }

/-- The last loop of `Pd`:
`for(r in a=e.defaultProps,a)o[r]===void 0&&(o[r]=a[r])`. -/
def applyDefaults (inherited : Nat → String → Option JsVal) (a : JsObj) (o : PropsObj) :
    PropsObj :=
  a.forInKeys.foldl
    (fun o r => if propsUndefined inherited o r then assign inherited o r (a.get r) else o) o

/-- An element type `e`: `defaultProps` is the object `e.defaultProps` when
`e&&e.defaultProps` is truthy, and `none` otherwise. -/
structure ElemType where
  name : String
  defaultProps : Option JsObj
deriving DecidableEq, Repr

/-- The element returned by `Pd` (without the constants `$$typeof` and
`_owner`); `key` is a string or `null` (`none`). -/
structure ReactElement where
  type : ElemType
  key : Option String
  ref : JsVal
  props : PropsObj
deriving DecidableEq, Repr

/-- Function `Pd(e,t,n,...)` (createElement).  `toStr v` is the string
`""+v`; `inherited` describes the objects of the program that can become the
prototype of `props`; `t` is `none` when the config is `null` or `undefined`;
`cs` are the child arguments. -/
def Pd (toStr : JsVal → String) (inherited : Nat → String → Option JsVal) (e : ElemType)
    (t : Option JsObj) (cs : List JsVal) : ReactElement :=
  let l : JsVal :=
    match t with
    | some t => if t.get "ref" ≠ JsVal.undefined then t.get "ref" else JsVal.null
    | none => JsVal.null
  let i : Option String :=
    match t with
    | some t => if t.get "key" ≠ JsVal.undefined then some (toStr (t.get "key")) else none
    | none => none
  let o : PropsObj :=
    match t with
    | some t => copyConfig inherited t
    | none => PropsObj.empty
  let o := setChildren o cs
  let o :=
    match e.defaultProps with
    | some a => applyDefaults inherited a o
    | none => o
  { type := e, key := i, ref := l, props := o }

/-- The props that `Pd` has built before the defaultProps loop. -/
def propsBeforeDefaults (inherited : Nat → String → Option JsVal) (t : Option JsObj)
    (cs : List JsVal) : PropsObj :=
  setChildren (match t with
    | some t => copyConfig inherited t
    | none => PropsObj.empty) cs

/-- A sample string conversion `""+v`. -/
def sampleToStr : JsVal → String
  | JsVal.str s => s
  | JsVal.num n => toString n
  | JsVal.bool true => "true"
  | JsVal.bool false => "false"
  | JsVal.null => "null"
  | JsVal.undefined => "undefined"
  | JsVal.obj _ => "[object Object]"

/-- A program in which no object is used as a prototype of `props` with data
properties of its own. -/
def noInherited : Nat → String → Option JsVal := fun _ _ => none

/-- A config as `JSON.parse` gives it, with the own properties `__proto__` and
`a`. -/
def protoConfig : JsObj := ⟨[("__proto__", JsVal.num 5), ("a", JsVal.num 2)], []⟩

/-! ### Route trees: `$p` (flattenRoutes) and `Ka` (convertRoutesToDataRoutes) -/

/-- The value of a route's `index` property: the value `true`, another truthy
value, or a falsy value (`undefined` included). -/
inductive IndexValue where
  | isTrue
  | truthy
  | falsy
deriving DecidableEq, Repr

/-- The properties of a route object that `$p` and `Ka` read, apart from
`children`: `id` (present when `typeof o.id=="string"`), `path` (`none` when
`null` or `undefined`), `index`, and whether `caseSensitive===true`. -/
structure RouteProps where
  id : Option (List Char)
  path : Option (List Char)
  index : IndexValue
  caseSensitive : Bool
deriving DecidableEq, Repr

/-- An array of route objects: empty, or a first route followed by the rest
of the array.  The first route is a `leaf` when its `children` is undefined
and a `node` when its `children` is an array (possibly empty). -/
inductive Routes where
  | nil
  | leaf (o : RouteProps) (rest : Routes)
  | node (o : RouteProps) (children : Routes) (rest : Routes)
deriving DecidableEq, Repr

/-- Whether an array of routes is empty (`length===0`). -/
def Routes.isEmpty : Routes → Bool
  | Routes.nil => true
  | _ => false

/-- Whether `index` is truthy. -/
def IndexValue.isTruthy : IndexValue → Bool
  | IndexValue.falsy => false
  | _ => true

/-- Step `.replace(/\/\/+/g,"/")`: every run of two or more slashes becomes
one slash. -/
def collapseSlashes : List Char → List Char
  | [] => []
  | c :: rest =>
    if c = '/' ∧ rest.head? = some '/' then collapseSlashes rest
    else c :: collapseSlashes rest

/-- Function `hn` (joinPaths): `e=>e.join("/").replace(/\/\/+/g,"/")`. -/
def hn (e : List (List Char)) : List Char := collapseSlashes (joinWith '/' e)

/-- Function `Np` on the list of segments `t=e.split("/")`.  The recursive
call `Np(r.join("/"))` splits again what it has just joined, so the recursion
runs over the list of segments:
`let[n,...r]=t,o=n.endsWith("?"),i=n.replace(/\?$/,"");
if(r.length===0)return o?[i,""]:[i];let l=Np(r.join("/")),a=[];
return a.push(...l.map(s=>s===""?i:[i,s].join("/"))),o&&a.push(...l),
a.map(s=>e.startsWith("/")&&s===""?"/":s)`. -/
def NpSegs : List (List Char) → List (List Char)
  | [] => []
  | [n] =>
    if n.getLast? = some '?' then [n.dropLast, []] else [n]
  | n :: m :: r =>
    let o := n.getLast? = some '?'
    let i := if o then n.dropLast else n
    let l := NpSegs (m :: r)
    let a := l.map (fun s => if s = [] then i else i ++ '/' :: s) ++ (if o then l else [])
    a.map (fun s =>
      if (joinWith '/' (n :: m :: r)).head? = some '/' ∧ s = [] then ['/'] else s)

/-- Function `Np(e)` (explodeOptionalSegments). -/
def Np (e : List Char) : List (List Char) := NpSegs (splitOn '/' e)

/-- The calls of the inner function `o` that `$p` makes for one route: one
call without third argument (`none`), or one call per exploded path:
`if(i.path===""||!((a=i.path)!=null&&a.includes("?")))o(i,l);
else for(let s of Np(i.path))o(i,l,s)`. -/
def variantsOf (i : RouteProps) : List (Option (List Char)) :=
  match i.path with
  | none => [none]
  | some p => if p = [] ∨ '?' ∉ p then [none] else (Np p).map some

/-- The initial `relativePath` of the meta object: `a===void 0?i.path||"":a`. -/
def relativePathOf (i : RouteProps) (a : Option (List Char)) : List Char :=
  match a with
  | some a => a
  | none => i.path.getD []

/-- Whether the assertion on an absolute child path fails: the relative path
starts with `/` but not with the parent path `r`. -/
def absoluteMismatch (r rel : List Char) : Bool :=
  rel.head? == some '/' && !r.isPrefixOf rel

/-- The `relativePath` after the absolute-path step:
`s.relativePath=s.relativePath.slice(r.length)` when it starts with `/`. -/
def strippedPath (r rel : List Char) : List Char :=
  if rel.head? = some '/' then rel.drop r.length else rel

/-- The meta object `s` of a route for one call of `o`. -/
def metaOf (i : RouteProps) (l : Nat) (r : List Char) (a : Option (List Char)) :
    RouteMeta RouteProps :=
  { relativePath := strippedPath r (relativePathOf i a), caseSensitive := i.caseSensitive,
    childrenIndex := l, route := i }

/-- The combined path `u=hn([r,s.relativePath])` of a route for one call of
`o`. -/
def combinedPath (i : RouteProps) (r : List Char) (a : Option (List Char)) : List Char :=
  hn [r, strippedPath r (relativePathOf i a)]

/-- The error of the assertion on an absolute child path in `$p`, for the
relative path `rel` under the parent path `r`. -/
def absolutePathError (rel r : List Char) : JsError :=
  JsError.other
    ("Absolute route path \"" ++ String.mk rel ++ "\" nested under path \""
      ++ String.mk r ++ "\" is not valid. An absolute child route path "
      ++ "must start with the combined path of all its parent routes.")

/-- The error of the assertion on an index route with children in `$p`, for
the combined path `u` of the route. -/
def indexChildrenError (u : List Char) : JsError :=
  JsError.other
    ("Index routes must not have child routes. Please remove "
      ++ "all child routes from route path \"" ++ String.mk u ++ "\".")

/-- The inner function `o(i,l,a)` of `$p`.  `kids` is the recursive call
`$p(i.children,t,d,u)` when `i.children&&i.children.length>0`, and `none`
otherwise. -/
def visitRoute (i : RouteProps) (l : Nat)
    (kids : Option (List (Branch RouteProps) → List (RouteMeta RouteProps) → List Char →
      Except JsError (List (Branch RouteProps))))
    (n : List (RouteMeta RouteProps)) (r : List Char)
    (t : List (Branch RouteProps)) (a : Option (List Char)) :
    Except JsError (List (Branch RouteProps)) :=
  if absoluteMismatch r (relativePathOf i a) then
    Except.error (absolutePathError (relativePathOf i a) r)
  else
    let u := combinedPath i r a
    let d := n ++ [metaOf i l r a]
    let t1 : Except JsError (List (Branch RouteProps)) :=
      match kids with
      | some k =>
        if i.index = IndexValue.isTrue then
          Except.error (indexChildrenError u)
        else k t d u
      | none => Except.ok t
    match t1 with
    | Except.error e => Except.error e
    | Except.ok t1 =>
      if !(i.path.isNone && !i.index.isTruthy) then
        Except.ok (t1 ++ [{ path := u, score := cg u i.index.isTruthy, routesMeta := d }])
      else Except.ok t1

/-- Sequential run of the calls of `o` for the variants of one route; a throw
ends the run. -/
def visitAll (f : List (Branch RouteProps) → Option (List Char) →
      Except JsError (List (Branch RouteProps))) :
    List (Option (List Char)) → List (Branch RouteProps) →
      Except JsError (List (Branch RouteProps))
  | [], t => Except.ok t
  | a :: rest, t =>
    match f t a with
    | Except.error e => Except.error e
    | Except.ok t1 => visitAll f rest t1

/-- Function `$p(e,t,n,r)` (flattenRoutes) on the routes from index `l` on;
returns the array `t` of branches. -/
def flattenRoutes (n : List (RouteMeta RouteProps)) (r : List Char) :
    Nat → Routes → List (Branch RouteProps) → Except JsError (List (Branch RouteProps))
  | _, Routes.nil, t => Except.ok t
  | l, Routes.leaf i rest, t =>
    match visitAll (visitRoute i l none n r) (variantsOf i) t with
    | Except.error e => Except.error e
    | Except.ok t1 => flattenRoutes n r (l + 1) rest t1
  | l, Routes.node i ch rest, t =>
    match visitAll
        (fun t a => visitRoute i l
          (if ch.isEmpty then none
           else some (fun t d u => flattenRoutes d u 0 ch t)) n r t a)
        (variantsOf i) t with
    | Except.error e => Except.error e
    | Except.ok t1 => flattenRoutes n r (l + 1) rest t1

/-- The two errors that `$p` throws. -/
def IsFlattenError (e : JsError) : Prop :=
  (∃ rel r, e = absolutePathError rel r) ∨ (∃ u, e = indexChildrenError u)

/-- A route without path and without index flag. -/
def sampleLayoutRoute : RouteProps :=
  { id := none, path := none, index := IndexValue.falsy, caseSensitive := false }

/-- The children of the sample layout route: one route with the path `a`. -/
def sampleLayoutChildren : Routes :=
  Routes.leaf { id := none, path := some ['a'], index := IndexValue.falsy,
                caseSensitive := false } Routes.nil

/-- The tree made of the sample layout route and its child. -/
def sampleLayoutTree : Routes :=
  Routes.node sampleLayoutRoute sampleLayoutChildren Routes.nil

/-- The condition of the specification under which `$p` throws, for routes
whose parents have the combined path `r`: some route, for one of its paths,
has a relative path that starts with '/' but not with `r`, or has index ===
true and a non-empty children list, or a route below it has such a defect. -/
def hasDefect : List Char → Routes → Bool
  | _, Routes.nil => false
  | r, Routes.leaf i rest =>
    (variantsOf i).any (fun a => absoluteMismatch r (relativePathOf i a)) || hasDefect r rest
  | r, Routes.node i ch rest =>
    (variantsOf i).any (fun a =>
      absoluteMismatch r (relativePathOf i a) ||
      (!ch.isEmpty && (i.index == IndexValue.isTrue || hasDefect (combinedPath i r a) ch)))
    || hasDefect r rest

/-! ### `Ka` (convertRoutesToDataRoutes) -/

/-- The character of a decimal digit. -/
def digitChar : Nat → Char
  | 0 => '0'
  | 1 => '1'
  | 2 => '2'
  | 3 => '3'
  | 4 => '4'
  | 5 => '5'
  | 6 => '6'
  | 7 => '7'
  | 8 => '8'
  | _ => '9'

/-- The decimal digits of `n` put in front of `acc`, most significant
first. -/
def decimalCore : Nat → Nat → List Char → List Char
  | 0, _, acc => acc
  | fuel + 1, n, acc =>
    if n / 10 = 0 then digitChar (n % 10) :: acc
    else decimalCore fuel (n / 10) (digitChar (n % 10) :: acc)

/-- The string of an array index, as `join` writes it: its decimal
numeral. -/
def decimal (n : Nat) : List Char := decimalCore (n + 1) n []

/-- The id that `Ka` gives to the route `o` at the position `l`:
`typeof o.id=="string"?o.id:l.join("-")`. -/
def routeId (o : RouteProps) (l : List Nat) : List Char :=
  match o.id with
  | some s => s
  | none => joinWith '-' (l.map decimal)

/-- The manifest of `Ka`: a plain object from route ids to the converted
routes, each route given by its position in the tree. -/
abbrev Manifest := List (List Char × List Nat)

/-- Whether `r[a]` is truthy.  The manifest is a plain object, so the lookup
also finds the members of `Object.prototype`; the stored routes are objects,
hence truthy. -/
def manifestTruthy (r : Manifest) (a : List Char) : Bool :=
  r.any (fun e => e.1 = a) || objectPrototypeNames.contains (String.mk a)

/-- Assignment `r[a]=s`. -/
def manifestSet (r : Manifest) (a : List Char) (l : List Nat) : Manifest :=
  if r.any (fun e => e.1 = a) then r.map (fun e => if e.1 = a then (a, l) else e)
  else r ++ [(a, l)]

/-- The tree that `Ka` returns: every route with the id it received; a
`node` has a `children` array, a `leaf` has none. -/
inductive DataRoutes where
  | nil
  | leaf (o : RouteProps) (id : List Char) (rest : DataRoutes)
  | node (o : RouteProps) (id : List Char) (children : DataRoutes) (rest : DataRoutes)
deriving DecidableEq, Repr

/-- The error of the first assertion of `Ka`. -/
def indexRouteError : JsError :=
  JsError.other "Cannot specify children on an index route"

/-- The error of the second assertion of `Ka` for the id `a`. -/
def collisionError (a : List Char) : JsError :=
  JsError.other ("Found a route id collision on id \"" ++ String.mk a
    ++ "\".  Route id\x27s must be globally unique within Data Router usages")

/-- Function `Ka(e,t,n,r)` on the routes of `e` from index `i` on, with the
position `n` of the parent and the manifest `r`; returns the converted routes
and the manifest after the call.  The callback `t` (mapRouteProperties) adds
properties to a route and touches neither `id` nor `children`. -/
def Ka : List Nat → Nat → Routes → Manifest → Except JsError (DataRoutes × Manifest)
  | _, _, Routes.nil, r => Except.ok (DataRoutes.nil, r)
  | n, i, Routes.leaf o rest, r =>
    let l := n ++ [i]
    let a := routeId o l
    if manifestTruthy r a then Except.error (collisionError a)
    else
      match Ka n (i + 1) rest (manifestSet r a l) with
      | Except.error e => Except.error e
      | Except.ok (d, r2) => Except.ok (DataRoutes.leaf o a d, r2)
  | n, i, Routes.node o ch rest, r =>
    let l := n ++ [i]
    let a := routeId o l
    if o.index = IndexValue.isTrue then Except.error indexRouteError
    else if manifestTruthy r a then Except.error (collisionError a)
    else
      match Ka l 0 ch (manifestSet r a l) with
      | Except.error e => Except.error e
      | Except.ok (dc, r2) =>
        match Ka n (i + 1) rest r2 with
        | Except.error e => Except.error e
        | Except.ok (d, r3) => Except.ok (DataRoutes.node o a dc d, r3)

/-- The routes of a tree in the order in which `Ka` visits them, each with
the id it would receive and its position. -/
def treeEntries : List Nat → Nat → Routes → Manifest
  | _, _, Routes.nil => []
  | n, i, Routes.leaf o rest =>
    (routeId o (n ++ [i]), n ++ [i]) :: treeEntries n (i + 1) rest
  | n, i, Routes.node o ch rest =>
    (routeId o (n ++ [i]), n ++ [i]) ::
      (treeEntries (n ++ [i]) 0 ch ++ treeEntries n (i + 1) rest)

/-- The ids that the routes of a tree would receive. -/
def treeIds (n : List Nat) (i : Nat) (routes : Routes) : List (List Char) :=
  (treeEntries n i routes).map Prod.fst

/-- Whether some route of the tree has `index===true` and a `children`
array. -/
def indexWithChildren : Routes → Bool
  | Routes.nil => false
  | Routes.leaf _ rest => indexWithChildren rest
  | Routes.node o ch rest =>
    o.index == IndexValue.isTrue || indexWithChildren ch || indexWithChildren rest

/-- Whether no route of the tree has a string `id`. -/
def noExplicitIds : Routes → Bool
  | Routes.nil => true
  | Routes.leaf o rest => o.id.isNone && noExplicitIds rest
  | Routes.node o ch rest => o.id.isNone && noExplicitIds ch && noExplicitIds rest

/-- The tree of routes under a converted tree. -/
def DataRoutes.shape : DataRoutes → Routes
  | DataRoutes.nil => Routes.nil
  | DataRoutes.leaf o _ rest => Routes.leaf o rest.shape
  | DataRoutes.node o _ ch rest => Routes.node o ch.shape rest.shape

/-- The routes of a converted tree in order, each with its id and its
position. -/
def DataRoutes.entries : List Nat → Nat → DataRoutes → Manifest
  | _, _, DataRoutes.nil => []
  | n, i, DataRoutes.leaf _ a rest => (a, n ++ [i]) :: DataRoutes.entries n (i + 1) rest
  | n, i, DataRoutes.node _ a ch rest =>
    (a, n ++ [i]) :: (DataRoutes.entries (n ++ [i]) 0 ch ++ DataRoutes.entries n (i + 1) rest)

/-- What holds of a result of `Ka n i routes r`: a returned tree has the
shape of `routes` with the ids of `treeIds`, all ids are new and distinct,
and the manifest has one more entry per route; a thrown error is one of the
two assertion errors, with its cause. -/
def KaPost (n : List Nat) (i : Nat) (routes : Routes) (r : Manifest) :
    Except JsError (DataRoutes × Manifest) → Prop
  | Except.ok (d, r2) =>
    indexWithChildren routes = false ∧ (r.map Prod.fst ++ treeIds n i routes).Nodup ∧
    r2 = r ++ treeEntries n i routes ∧ d.shape = routes ∧
    d.entries n i = treeEntries n i routes
  | Except.error e =>
    (e = indexRouteError ∧ indexWithChildren routes = true) ∨
    (∃ a, e = collisionError a ∧ ¬ (r.map Prod.fst ++ treeIds n i routes).Nodup)

/-- An index route with an empty `children` array, followed by two routes
with the same id `a`. -/
def sampleCollisionTree : Routes :=
  Routes.node { id := none, path := none, index := IndexValue.isTrue, caseSensitive := false }
    Routes.nil
    (Routes.leaf { id := some ['a'], path := none, index := IndexValue.falsy,
                   caseSensitive := false }
      (Routes.leaf { id := some ['a'], path := none, index := IndexValue.falsy,
                     caseSensitive := false } Routes.nil))

/-- A tree of three routes without ids: a route with one child, followed by
an index route. -/
def sampleIdTree : Routes :=
  Routes.node { id := none, path := some ['a'], index := IndexValue.falsy,
                caseSensitive := false }
    (Routes.leaf { id := none, path := some ['b'], index := IndexValue.falsy,
                   caseSensitive := false } Routes.nil)
    (Routes.leaf { id := none, path := none, index := IndexValue.isTrue,
                   caseSensitive := false } Routes.nil)

/-- The ten digit characters. -/
def digitChars : List Char := ['0', '1', '2', '3', '4', '5', '6', '7', '8', '9']

/-- Whether a string starts with a digit. -/
def startsWithDigit (s : String) : Bool :=
  match s.data with
  | c :: _ => decide (c ∈ digitChars)
  | [] => false

/-- The string ids that the routes of a tree carry. -/
def explicitIds : Routes → List (List Char)
  | Routes.nil => []
  | Routes.leaf o rest => o.id.toList ++ explicitIds rest
  | Routes.node o ch rest => o.id.toList ++ (explicitIds ch ++ explicitIds rest)

/-! ### `Ig` (isHashChangeOnly) and the error boundary `Jg` -/

/-- The three fields of a location object that `Ig` reads. -/
structure Location where
  pathname : List Char
  search : List Char
  hash : List Char
deriving DecidableEq, Repr

/-- Function `Ig(e,t)` (isHashChangeOnly):
`e.pathname!==t.pathname||e.search!==t.search?!1:e.hash===""?t.hash!=="":
e.hash===t.hash?!0:t.hash!==""`. -/
def Ig (e t : Location) : Bool :=
  if e.pathname ≠ t.pathname ∨ e.search ≠ t.search then false
  else if e.hash = [] then decide (t.hash ≠ [])
  else if e.hash = t.hash then true
  else decide (t.hash ≠ [])

/-- The single condition of the specification for a hash-only change: same
pathname, same search, and a non-empty new hash. -/
def IgSpec (a b : Location) : Prop :=
  a.pathname = b.pathname ∧ a.search = b.search ∧ b.hash ≠ []

/-- The props of the error boundary `Jg` that `getDerivedStateFromProps`
reads, which are also the fields of its state.  `error` is `none` when it is
`undefined`; a location is an object, compared by identity; `revalidation` is
`none` when it is `undefined`. -/
structure BoundaryFields (L E : Type) where
  error : Option E
  location : L
  revalidation : Option String

/-- Whether a `revalidation` value is truthy: a non-empty string. -/
def revalidationTruthy : Option String → Bool
  | some s => s != ""
  | none => false

/-- Static method `Jg.getDerivedStateFromProps(t,n)`:
`n.location!==t.location||n.revalidation!=="idle"&&t.revalidation==="idle"
?{error:t.error,location:t.location,revalidation:t.revalidation}
:{error:t.error!==void 0?t.error:n.error,location:n.location,
revalidation:t.revalidation||n.revalidation}`. -/
def Jg.getDerivedStateFromProps {L E : Type} [DecidableEq L]
    (t n : BoundaryFields L E) : BoundaryFields L E :=
  if n.location ≠ t.location ∨ (n.revalidation ≠ some "idle" ∧ t.revalidation = some "idle") then
    { error := t.error, location := t.location, revalidation := t.revalidation }
  else
    { error := if t.error.isSome then t.error else n.error,
      location := n.location,
      revalidation := if revalidationTruthy t.revalidation then t.revalidation
                      else n.revalidation }

/-! ### Reachable states of the store `k0` -/

/-- A call on the store: one of the three loading-counter methods, an
assignment to `state`, or the registration or removal of a listener. -/
inductive StoreOp where
  | loadingStarted
  | loadingFinished
  | loadingFailed
  | assign (t : String)
  | addStateChangeListener (t : Nat)
  | removeStateChangeListener (t : Nat)
deriving DecidableEq, Repr

/-- Perform one call on the store. -/
def StoreOp.run : StoreOp → k0 → k0
  | .loadingStarted, s => s.loadingStarted
  | .loadingFinished, s => s.loadingFinished
  | .loadingFailed, s => s.loadingFailed
  | .assign t, s => s.setState t
  | .addStateChangeListener t, s => s.addStateChangeListener t
  | .removeStateChangeListener t, s => s.removeStateChangeListener t

/-- Perform a sequence of calls on the store, first to last. -/
def runStoreOps (ops : List StoreOp) (s : k0) : k0 :=
  ops.foldl (fun acc op => op.run acc) s

/-- Whether a call is a completion of a load: `loadingFinished()` or
`loadingFailed()`. -/
def StoreOp.isCompletion : StoreOp → Bool
  | .loadingFinished => true
  | .loadingFailed => true
  | _ => false

/-! ### The theme hash `gd` and the key `Ky` -/

/-- Conversion `ToInt32` of a number that is an integer: the value modulo
`2^32` in the range `-2^31 .. 2^31-1`. -/
def toInt32 (x : Int) : Int := (x + 2147483648) % 4294967296 - 2147483648

/-- Conversion `ToUint32` of a number that is an integer, as in `r>>>0`. -/
def toUint32 (x : Int) : Nat := (x % 4294967296).toNat

/-- Operator `a^b` on numbers that are integers: the exclusive or of the two
32-bit patterns, read as a signed 32-bit integer. -/
def xor32 (a b : Int) : Int := toInt32 ((toUint32 a ^^^ toUint32 b : Nat) : Int)

/-- Operator `a<<k` for `k < 32` on a number that is an integer. -/
def shl32 (a : Int) (k : Nat) : Int := toInt32 (toInt32 a * 2 ^ k)

/-- The body of the loop of `gd` for the code unit `c`:
`r^=e.charCodeAt(t),r+=(r<<1)+(r<<4)+(r<<7)+(r<<8)+(r<<24)`.  The sum is a
JavaScript number; all the values are integers below `2^53` in absolute value,
so the additions are exact. -/
def gdStep (r : Int) (c : Nat) : Int :=
  let r1 := xor32 r (c : Int)
  r1 + (shl32 r1 1 + shl32 r1 4 + shl32 r1 7 + shl32 r1 8 + shl32 r1 24)

/-- The character of a hexadecimal digit, in lower case. -/
def hexDigit : Nat → Char
  | 0 => '0'
  | 1 => '1'
  | 2 => '2'
  | 3 => '3'
  | 4 => '4'
  | 5 => '5'
  | 6 => '6'
  | 7 => '7'
  | 8 => '8'
  | 9 => '9'
  | 10 => 'a'
  | 11 => 'b'
  | 12 => 'c'
  | 13 => 'd'
  | 14 => 'e'
  | _ => 'f'

/-- The hexadecimal digits of `n` put in front of `acc`, most significant
first. -/
def toString16Core : Nat → Nat → List Char → List Char
  | 0, _, acc => acc
  | fuel + 1, n, acc =>
    if n / 16 = 0 then hexDigit (n % 16) :: acc
    else toString16Core fuel (n / 16) (hexDigit (n % 16) :: acc)

/-- Call `n.toString(16)` for a non-negative integer `n`. -/
def toString16 (n : Nat) : List Char := toString16Core (n + 1) n []

/-- Call `s.substr(-8)`: the last eight characters of `s`, or all of `s`
when it is shorter. -/
def substrLast8 (s : List Char) : List Char := s.drop (s.length - 8)

/-- Function `gd(e)` on the list `e` of the UTF-16 code units of the string:
`let t,n,r=2166136261;for(t=0,n=e.length;t<n;t++)r^=e.charCodeAt(t),
r+=(r<<1)+(r<<4)+(r<<7)+(r<<8)+(r<<24);
return("0000000"+(r>>>0).toString(16)).substr(-8)`. -/
def gd (e : List Nat) : List Char :=
  let r := e.foldl gdStep 2166136261
  substrLast8 ("0000000".toList ++ toString16 (toUint32 r))

/-- The UTF-16 code units of a string of characters of the Basic Multilingual
Plane. -/
def codeUnits (s : List Char) : List Nat := s.map Char.toNat

/-- Function `Ky(e)`: `let t=gd(e);return t+gd(t+e)`. -/
def Ky (e : List Nat) : List Char :=
  let t := gd e
  t ++ gd (codeUnits t ++ e)

/-- The 32-bit FNV-1a hash of a list of code units, as the specification
states it: `h` starts at 2166136261 and becomes `((h xor c) * 16777619) mod
2^32` for each code unit `c`. -/
def fnv1a (e : List Nat) : Nat :=
  e.foldl (fun h c => ((h ^^^ c) * 16777619) % 4294967296) 2166136261

/-- The sixteen lower-case hexadecimal digit characters. -/
def hexChars : List Char := "0123456789abcdef".toList

/-- The value of a hexadecimal digit character. -/
def hexVal : Char → Nat
  | '0' => 0
  | '1' => 1
  | '2' => 2
  | '3' => 3
  | '4' => 4
  | '5' => 5
  | '6' => 6
  | '7' => 7
  | '8' => 8
  | '9' => 9
  | 'a' => 10
  | 'b' => 11
  | 'c' => 12
  | 'd' => 13
  | 'e' => 14
  | _ => 15

/-- The number that a string of hexadecimal digits denotes. -/
def ofHex (s : List Char) : Nat := s.foldl (fun a c => 16 * a + hexVal c) 0

/-! ### Global theme CSS injection `Zn` -/

/-- The third argument of `Zn`: the document, or another target (a shadow
root), identified by a number. -/
inductive ThemeTarget where
  | document
  | shadowRoot (k : Nat)
deriving DecidableEq, Repr

/-- An element that the theme code creates: a `link` for an `@import` rule,
with its `href` and `media`, or a `style` with its text. -/
inductive ThemeNode where
  | link (href : List Nat) (media : Option (List Nat))
  | style (text : List Nat)
deriving DecidableEq, Repr

/-- The part of the page that `Zn` reads and writes: the array
`window.Vaadin.theme.injectedGlobalCss`, the elements appended to
`document.head`, and for every other target the elements appended to it and
the texts of its adopted style sheets. -/
structure ThemeDom where
  injectedGlobalCss : List (List Char)
  head : List ThemeNode
  children : Nat → List ThemeNode
  adoptedStyleSheets : Nat → List (List Nat)

/-- What `Zn` returns: `undefined`, or the function that undoes the
injection. -/
inductive ZnResult where
  | undefined
  | cleanup
deriving DecidableEq, Repr

/-- Function `By(e,t)`.  `parseImports` stands for the part of `By` that works
on the text alone: it strips the comments, finds the `@import` rules with the
regular expression and returns the remaining text together with the `href`
and `media` of every rule, in order.  For every rule a `link` element is
appended to `document.head` or to the target. -/
def By (parseImports : List Nat → List Nat × List (List Nat × Option (List Nat)))
    (e : List Nat) (t : ThemeTarget) (d : ThemeDom) : List Nat × ThemeDom :=
  let p := parseImports e
  let links := p.2.map (fun x => ThemeNode.link x.1 x.2)
  match t with
  | ThemeTarget.document => (p.1, { d with head := d.head ++ links })
  | ThemeTarget.shadowRoot k =>
    (p.1, { d with children := fun j => if j = k then d.children j ++ links else d.children j })

/-- Function `Qy(e)`: a `style` element with the text `e` is put at the end
of `document.head` (`insertBefore(n,void 0)`). -/
def Qy (e : List Nat) (d : ThemeDom) : ZnResult × ThemeDom :=
  (ZnResult.cleanup, { d with head := d.head ++ [ThemeNode.style e] })

/-- Function `Wy(e,t,n)`: a constructed style sheet with the text `e` is put
first (`n` truthy) or last in `t.adoptedStyleSheets`. -/
def Wy (e : List Nat) (k : Nat) (n : Bool) (d : ThemeDom) : ZnResult × ThemeDom :=
  (ZnResult.cleanup,
    { d with adoptedStyleSheets := fun j =>
        if j = k then (if n then e :: d.adoptedStyleSheets j else d.adoptedStyleSheets j ++ [e])
        else d.adoptedStyleSheets j })

/-- Function `Zn(e,t,n,r)`:
`if(n===document){const i=Ky(e);
if(window.Vaadin.theme.injectedGlobalCss.indexOf(i)!==-1)return;
window.Vaadin.theme.injectedGlobalCss.push(i)}
const o=By(e,n);return n===document?Qy(o):Wy(o,n,r)`. -/
def Zn (parseImports : List Nat → List Nat × List (List Nat × Option (List Nat)))
    (e : List Nat) (n : ThemeTarget) (r : Bool) (d : ThemeDom) : ZnResult × ThemeDom :=
  match n with
  | ThemeTarget.document =>
    let i := Ky e
    if i ∈ d.injectedGlobalCss then (ZnResult.undefined, d)
    else
      let d1 := { d with injectedGlobalCss := d.injectedGlobalCss ++ [i] }
      let o := By parseImports e ThemeTarget.document d1
      Qy o.1 o.2
  | ThemeTarget.shadowRoot k =>
    let o := By parseImports e (ThemeTarget.shadowRoot k) d
    Wy o.1 k r o.2

/-- One call of `Zn`: the text, the target and the flag `r`. -/
structure ZnCall where
  css : List Nat
  target : ThemeTarget
  first : Bool

/-- A sequence of calls of `Zn`, first to last. -/
def runZn (parseImports : List Nat → List Nat × List (List Nat × Option (List Nat)))
    (calls : List ZnCall) (d : ThemeDom) : ThemeDom :=
  calls.foldl (fun acc c => (Zn parseImports c.css c.target c.first acc).2) d

/-- A parser for the sample calls: no `@import` rule is found. -/
def noImports (e : List Nat) : List Nat × List (List Nat × Option (List Nat)) := (e, [])

/-- An empty page. -/
def emptyThemeDom : ThemeDom :=
  { injectedGlobalCss := [], head := [], children := fun _ => [],
    adoptedStyleSheets := fun _ => [] }

/-! ### The `css` tag `ye` and the class `iu` (CSSResult) -/

/-- The third argument of the constructor of `iu`: the module-private symbol
`ou`, or anything else (`undefined` included). -/
inductive CssToken where
  | ou
  | other
deriving DecidableEq, Repr

/-- An instance of `iu`: the fields `cssText` and `t` (the array of template
strings, `none` when it is `undefined`). -/
structure CSSResult where
  cssText : String
  t : Option (List String)
deriving DecidableEq, Repr

/-- The error of the constructor of `iu`. -/
def notConstructableError : JsError :=
  JsError.other "CSSResult is not constructable. Use `unsafeCSS` or `css` instead."

/-- Constructor `new iu(t,n,r)`:
`if(this._$cssResult$=!0,r!==ou)throw Error(...);this.cssText=t,this.t=n`. -/
def iu.new (t : String) (n : Option (List String)) (r : CssToken) : Except JsError CSSResult :=
  if r ≠ CssToken.ou then Except.error notConstructableError
  else Except.ok { cssText := t, t := n }

/-- A value interpolated into the `css` template: an object whose property
`_$cssResult$` is `true` (a result of `css` or `unsafeCSS`), with its
`cssText`, or any other value; among the objects only those without that
property are `plain`. -/
inductive CssValue where
  | cssResult (cssText : String)
  | plain (v : JsVal)
deriving DecidableEq, Repr

/-- The `TypeError` of the engine for reading a property of `undefined` or
`null`; its message is the engine's own. -/
def nullishReadError : JsError :=
  JsError.other "TypeError: cannot read the property _$cssResult$ of undefined or null"

/-- The error of the `css` tag for the value `l`. -/
def cssValueError (toStr : JsVal → String) (l : JsVal) : JsError :=
  JsError.other ("Value passed to \x27css\x27 function must be a \x27css\x27 function result: "
    ++ toStr l ++ ". Use \x27unsafeCSS\x27 to pass non-literal values, but take care "
    ++ "to ensure page security.")

/-- The inner function of `ye` followed by the conversion to a string that
`r+...` makes:
`l=>{if(l._$cssResult$===!0)return l.cssText;if(typeof l=="number")return l;
throw Error(...)}`.  Reading the property of `undefined` or `null` throws a
`TypeError`. -/
def cssValueText (toStr : JsVal → String) : CssValue → Except JsError String
  | CssValue.cssResult t => Except.ok t
  | CssValue.plain JsVal.undefined => Except.error nullishReadError
  | CssValue.plain JsVal.null => Except.error nullishReadError
  | CssValue.plain (JsVal.num n) => Except.ok (toStr (JsVal.num n))
  | CssValue.plain v => Except.error (cssValueError toStr v)

/-- The reducer of `ye` from index `i` on:
`t.reduce((r,o,i)=>r+(...)(o)+e[i+1],e[0])`, where `es` holds `e[1]`,
`e[2]`, ...; a missing `e[i+1]` is `undefined`. -/
def yeReduce (toStr : JsVal → String) (es : List String) :
    Nat → List CssValue → String → Except JsError String
  | _, [], r => Except.ok r
  | i, o :: rest, r =>
    match cssValueText toStr o with
    | Except.error err => Except.error err
    | Except.ok x => yeReduce toStr es (i + 1) rest (r ++ x ++ (es.get? i).getD "undefined")

/-- Function `ye(e,...t)` (the `css` tag) for the array of strings
`e = [e0, ...es]`:
`const n=e.length===1?e[0]:t.reduce(...);return new iu(n,e,ou)`. -/
def ye (toStr : JsVal → String) (e0 : String) (es : List String) (t : List CssValue) :
    Except JsError CSSResult :=
  let n : Except JsError String :=
    if (e0 :: es).length = 1 then Except.ok e0 else yeReduce toStr es 0 t e0
  match n with
  | Except.error err => Except.error err
  | Except.ok n => iu.new n (some (e0 :: es)) CssToken.ou

/-- Function `Yp(e)` (unsafeCSS): `new iu(typeof e=="string"?e:e+"",void 0,ou)`. -/
def Yp (toStr : JsVal → String) (e : JsVal) : Except JsError CSSResult :=
  iu.new (match e with
    | JsVal.str s => s
    | v => toStr v) none CssToken.ou

/-- Whether the `css` tag accepts a value: it is a CSS result or a number. -/
def CssValue.accepted : CssValue → Bool
  | CssValue.cssResult _ => true
  | CssValue.plain (JsVal.num _) => true
  | _ => false

/-- The text that an accepted value contributes: its `cssText`, or the number
as a string. -/
def CssValue.text (toStr : JsVal → String) : CssValue → String
  | CssValue.cssResult t => t
  | CssValue.plain v => toStr v

/-- The text of the specification: the texts of the values, each followed by
the next template string. -/
def interleave (toStr : JsVal → String) : List CssValue → List String → String
  | o :: rest, s :: es => o.text toStr ++ s ++ interleave toStr rest es
  | _, _ => ""

/-! ### CSS comment stripping `jy` -/

/-- The option `preserve` of `jy`: a function or a regular expression, given
by the test `i` it yields, or any other value, given by its truthiness. -/
inductive Preserve where
  | value (truthy : Bool)
  | filter (f : List Char → Bool)

/-- The options of `jy`: `preserve` (default `true`), `whitespace` (default
`true`) and whether `all` is truthy. -/
structure JyOptions where
  preserve : Preserve
  whitespace : Bool
  all : Bool

/-- The options of a call `jy(e)`. -/
def JyOptions.default : JyOptions :=
  { preserve := Preserve.value true, whitespace := true, all := false }

/-- The error of `jy` for the option `all`. -/
def allOptionError : JsError :=
  JsError.other "The `all` option is no longer supported. Use the `preserve` option instead."

/-- The single quote character. -/
def singleQuote : Char := Char.ofNat 39

/-- The double quote character. -/
def doubleQuote : Char := Char.ofNat 34

/-- The update of the quote state `l` (`none` is `false`) at the character
`a` that follows `prev`:
`e[d-1]!=="\\"&&(a==='"'||a==="'")&&(l===a?l=!1:l||(l=a))`. -/
def quoteStep (prev : Option Char) (l : Option Char) (a : Char) : Option Char :=
  if prev ≠ some '\\' ∧ (a = doubleQuote ∨ a = singleQuote) then
    (if l = some a then none else if l.isSome then l else some a)
  else l

/-- The inner loop of `jy` from index `c` on, with the text `s` read so far:
it stops at the first `*` that is followed by `/` and yields `s` and what
follows the `*/`; `none` when the input ends first. -/
def scanComment : List Char → List Char → Option (List Char × List Char)
  | [], _ => none
  | c :: cs, s =>
    if c = '*' ∧ cs.head? = some '/' then some (s, cs.tail)
    else scanComment cs (s ++ [c])

/-- The outer loop of `jy` on the rest of the input from index `d` on, with
the character `prev` before it, the quote state `l` and the output `u`; `o`,
`i` and `n` are the variables of the code.  The first argument bounds the
number of rounds. -/
def jyLoop (o : Bool) (i : Option (List Char → Bool)) (n : Bool) :
    Nat → Option Char → Option Char → List Char → List Char → List Char
  | 0, _, _, _, u => u
  | _ + 1, _, _, [], u => u
  | fuel + 1, prev, l, a :: rest, u =>
    let l1 := quoteStep prev l a
    if l1 = none ∧ a = '/' ∧ rest.head? = some '*' then
      let f := decide (rest.tail.head? = some '!')
      match scanComment rest.tail [] with
      | none => u
      | some (s, after) =>
        if (o && f) || (match i with
            | some g => g s
            | none => false) then
          jyLoop o i n fuel (some '/') l1 after (u ++ ['/', '*'] ++ s ++ ['*', '/'])
        else if n then jyLoop o i n fuel (some '/') l1 after u
        else if after.head? = some '\n' then jyLoop o i n fuel (some '\n') l1 after.tail u
        else if after.head? = some '\r' ∧ after.tail.head? = some '\n' then
          jyLoop o i n fuel (some '\n') l1 (after.drop 2) u
        else jyLoop o i n fuel (some '/') l1 after u
    else jyLoop o i n fuel (some a) l1 rest (u ++ [a])

/-- Function `jy(e,{preserve:t=!0,whitespace:n=!0,all:r}={})`. -/
def jy (e : List Char) (opts : JyOptions) : Except JsError (List Char) :=
  if opts.all then Except.error allOptionError
  else
    match opts.preserve with
    | Preserve.value b => Except.ok (jyLoop b none opts.whitespace e.length none none e [])
    | Preserve.filter g =>
      Except.ok (jyLoop false (some g) opts.whitespace e.length none none e [])

/-- Whether a string contains no quote character. -/
def noQuote (x : List Char) : Prop := doubleQuote ∉ x ∧ singleQuote ∉ x

/-! ### React lanes: `Jr` (getHighestPriorityLanes) -/

/-- Operator `a&b` on numbers that are integers: the conjunction of the two
32-bit patterns, read as a signed 32-bit integer. -/
def and32 (a b : Int) : Int := toInt32 ((toUint32 a &&& toUint32 b : Nat) : Int)

/-- Function `Jr(e)`:
`switch(e&-e){case 1:return 1;case 2:return 2;case 4:return 4;case 8:return 8;
case 16:return 16;case 32:return 32;case 64:...case 2097152:return e&4194240;
case 4194304:...case 67108864:return e&130023424;case 134217728:return 134217728;
case 268435456:return 268435456;case 536870912:return 536870912;
case 1073741824:return 1073741824;default:return e}`. -/
def Jr (e : Int) : Int :=
  let b := and32 e (-e)
  if b = 1 then 1
  else if b = 2 then 2
  else if b = 4 then 4
  else if b = 8 then 8
  else if b = 16 then 16
  else if b = 32 then 32
  else if b = 64 ∨ b = 128 ∨ b = 256 ∨ b = 512 ∨ b = 1024 ∨ b = 2048 ∨ b = 4096 ∨ b = 8192
      ∨ b = 16384 ∨ b = 32768 ∨ b = 65536 ∨ b = 131072 ∨ b = 262144 ∨ b = 524288
      ∨ b = 1048576 ∨ b = 2097152 then and32 e 4194240
  else if b = 4194304 ∨ b = 8388608 ∨ b = 16777216 ∨ b = 33554432 ∨ b = 67108864 then
    and32 e 130023424
  else if b = 134217728 then 134217728
  else if b = 268435456 then 268435456
  else if b = 536870912 then 536870912
  else if b = 1073741824 then 1073741824
  else e

/-- Whether a segment of a path is optional: it ends in the marker `?`. -/
def isOptionalSegment (seg : List Char) : Bool := decide (seg.getLast? = some '?')

/-- A segment without its marker `?`: `n.replace(/\?$/,"")`. -/
def stripMarker (seg : List Char) : List Char :=
  if seg.getLast? = some '?' then seg.dropLast else seg

/-! ### Sample bridge states -/

/-- A freshly constructed bridge on a page whose store is in state `st`. -/
def sampleBridge (st : String) : J0 :=
  { response := none, pathname := "", isActive := false, navigation := "", container := none,
    connectionState := k0.new st, initial := none, listenerInstalled := false, sent := [],
    registered := [], flowInitCalls := 0 }

/-- An environment in which every awaited step answers with `r` for the init
request and succeeds otherwise. -/
def sampleEnv (r : Except JsError FlowResponse) : FlowEnv :=
  { initRequest := r, loadScript := Except.ok (), existing := none, bootstrap := Except.ok (),
    imports := none, client := Except.ok () }

/-- A bridge whose Flow client is loaded, showing `/a`, store connected. -/
def loadedBridge : J0 :=
  { sampleBridge "connected" with
    response := some ⟨"app", none⟩
    pathname := "/a"
    container := some (createElement "flow-container-app") }

/-! ## Theorems -/

/-! ### The connection-state store -/

theorem k0_new_nodup (t : String) : (k0.new t).stateChangeListeners.Nodup := by
  simp [k0.new]

theorem k0_addStateChangeListener_nodup (s : k0) (t : Nat)
    (h : s.stateChangeListeners.Nodup) :
    (s.addStateChangeListener t).stateChangeListeners.Nodup := by
  unfold k0.addStateChangeListener
  split
  · exact h
  · rename_i hnot
    simp only
    rw [List.nodup_append]
    refine ⟨h, List.nodup_singleton t, ?_⟩
    intro a ha hb
    simp only [List.mem_singleton] at hb
    subst hb
    exact hnot ha

theorem k0_removeStateChangeListener_nodup (s : k0) (t : Nat)
    (h : s.stateChangeListeners.Nodup) :
    (s.removeStateChangeListener t).stateChangeListeners.Nodup := by
  unfold k0.removeStateChangeListener
  exact h.erase t

theorem k0_setState_same (s : k0) : s.setState s.connectionState = s := by
  simp [k0.setState]

theorem k0_setState_ne (s : k0) (t : String) (h : t ≠ s.connectionState) :
    s.setState t =
      { s with
        connectionState := t
        loadingCount := 0
        calls := s.calls ++
          s.stateChangeListeners.map (fun r => ⟨r, s.connectionState, t⟩) } := by
  simp [k0.setState, h]

theorem k0_setState_connectionState (s : k0) (t : String) :
    (s.setState t).connectionState = t := by
  by_cases h : t = s.connectionState
  · subst h; rw [k0_setState_same]
  · rw [k0_setState_ne s t h]

/-- C1: for every connection state the getter `online` is true exactly when
the state is 'connected' or 'loading', `offline` is the negation of `online`,
and a store whose state is 'reconnecting' or 'connection-lost' is offline. -/
theorem k0_online_offline (s : k0) :
    (s.online = true ↔
      (s.connectionState = "connected" ∨ s.connectionState = "loading")) ∧
    s.offline = !s.online ∧
    k0.offline { s with connectionState := "reconnecting" } = true ∧
    k0.offline { s with connectionState := "connection-lost" } = true := by
  refine ⟨?_, rfl, ?_, ?_⟩
  · simp [k0.online, Ee.CONNECTED, Ee.LOADING]
  · simp [k0.offline, k0.online, Ee.CONNECTED, Ee.LOADING]
  · simp [k0.offline, k0.online, Ee.CONNECTED, Ee.LOADING]

/-- C2: assigning to `state` a value equal to the current state changes
nothing (no listener call, loadingCount kept); assigning a different value
stores it, resets loadingCount to 0, keeps the listener set and calls every
registered listener exactly once, in registration order, with the arguments
(previous state, new state), and calls nothing else. -/
theorem k0_setState_effect (s : k0) (t : String)
    (hs : s.stateChangeListeners.Nodup) :
    (t = s.connectionState → s.setState t = s) ∧
    (t ≠ s.connectionState →
      (s.setState t).connectionState = t ∧
      (s.setState t).loadingCount = 0 ∧
      (s.setState t).stateChangeListeners = s.stateChangeListeners ∧
      (s.setState t).calls = s.calls ++
        s.stateChangeListeners.map (fun r => ⟨r, s.connectionState, t⟩) ∧
      (∀ r ∈ s.stateChangeListeners,
        (((s.setState t).calls.drop s.calls.length).filter
          (fun c => c.listener = r)) = [⟨r, s.connectionState, t⟩]) ∧
      (∀ c ∈ (s.setState t).calls.drop s.calls.length,
        c.listener ∈ s.stateChangeListeners)) := by
  refine ⟨fun h => by subst h; exact k0_setState_same s, fun h => ?_⟩
  rw [k0_setState_ne s t h]
  refine ⟨rfl, rfl, rfl, rfl, ?_, ?_⟩
  · intro r hr
    simp only [List.drop_left]
    have key : ∀ (l : List Nat), l.Nodup → r ∈ l →
        (l.map (fun r => (⟨r, s.connectionState, t⟩ : ListenerCall))).filter
          (fun c => c.listener = r) = [⟨r, s.connectionState, t⟩] := by
      intro l
      induction l with
      | nil => intro _ hmem; simp at hmem
      | cons a l ih =>
        intro hnd hmem
        rw [List.nodup_cons] at hnd
        by_cases har : a = r
        · subst har
          have hnone : (l.map (fun r => (⟨r, s.connectionState, t⟩ : ListenerCall))).filter
              (fun c => c.listener = a) = [] := by
            rw [List.filter_eq_nil_iff]
            intro c hc
            simp only [List.mem_map] at hc
            obtain ⟨b, hb, rfl⟩ := hc
            simp only [decide_eq_true_eq]
            intro hba
            exact hnd.1 (hba ▸ hb)
          simp [List.filter_cons, hnone]
        · have hmem2 : r ∈ l := by
            rcases List.mem_cons.mp hmem with h1 | h1
            · exact absurd h1.symm har
            · exact h1
          simp [List.filter_cons, har, ih hnd.2 hmem2]
    exact key _ hs hr
  · intro c hc
    simp only [List.drop_left, List.mem_map] at hc
    obtain ⟨b, hb, rfl⟩ := hc
    exact hb

/-- Witness for C2: a store in state 'connected' with listeners 1 and 2 and
loadingCount 3, assigned 'reconnecting'. -/
theorem k0_setState_effect_witness :
    [1, 2].Nodup ∧
    (k0.setState ⟨[1, 2], 3, "connected", []⟩ "reconnecting").calls =
      [⟨1, "connected", "reconnecting"⟩, ⟨2, "connected", "reconnecting"⟩] ∧
    (k0.setState ⟨[1, 2], 3, "connected", []⟩ "reconnecting").loadingCount = 0 :=
  have h := (k0_setState_effect ⟨[1, 2], 3, "connected", []⟩ "reconnecting"
    (by decide)).2 (by decide)
  ⟨by decide, h.2.2.2.1, h.2.1⟩

theorem k0_loadingStarted_spec (s : k0) :
    s.loadingStarted.connectionState = "loading" ∧
    (s.connectionState = "loading" → s.loadingStarted.loadingCount = s.loadingCount + 1) ∧
    (s.connectionState ≠ "loading" → s.loadingStarted.loadingCount = 1) := by
  refine ⟨?_, ?_, ?_⟩
  · simp [k0.loadingStarted, k0_setState_connectionState, Ee.LOADING]
  · intro h
    have : s.setState Ee.LOADING = s := by
      rw [show Ee.LOADING = s.connectionState from h.symm]; exact k0_setState_same s
    simp [k0.loadingStarted, this]
  · intro h
    have hne : Ee.LOADING ≠ s.connectionState := fun e => h e.symm
    simp [k0.loadingStarted, k0_setState_ne s _ hne]

theorem runOps_append (a b : List LoadingOp) (s : k0) :
    runOps (a ++ b) s = runOps b (runOps a s) := by
  simp [runOps, List.foldl_append]

theorem runOps_started (j : Nat) (s : k0) (h0 : s.loadingCount = 0) :
    (runOps (List.replicate (j + 1) LoadingOp.started) s).connectionState = "loading" ∧
    (runOps (List.replicate (j + 1) LoadingOp.started) s).loadingCount = j + 1 := by
  induction j with
  | zero =>
    have h := k0_loadingStarted_spec s
    refine ⟨h.1, ?_⟩
    show s.loadingStarted.loadingCount = 1
    by_cases hl : s.connectionState = "loading"
    · rw [h.2.1 hl, h0]
    · exact h.2.2 hl
  | succ j ih =>
    rw [List.replicate_succ', runOps_append]
    have h := k0_loadingStarted_spec (runOps (List.replicate (j + 1) LoadingOp.started) s)
    refine ⟨h.1, ?_⟩
    show (k0.loadingStarted _).loadingCount = j + 1 + 1
    rw [h.2.1 ih.1, ih.2]

theorem k0_decrease_many (s : k0) (t : String) (h : 2 ≤ s.loadingCount) :
    (s.decreaseLoadingCount t).connectionState = s.connectionState ∧
    (s.decreaseLoadingCount t).loadingCount = s.loadingCount - 1 := by
  have h1 : s.loadingCount > 0 := by omega
  have h2 : ¬ (s.loadingCount - 1 = 0) := by omega
  simp [k0.decreaseLoadingCount, h1, h2]

theorem k0_decrease_last (s : k0) (t : String) (h : s.loadingCount = 1) :
    (s.decreaseLoadingCount t).connectionState = t ∧
    (s.decreaseLoadingCount t).loadingCount = 0 := by
  simp only [k0.decreaseLoadingCount, h]
  simp only [gt_iff_lt, Nat.lt_one_iff, Nat.sub_self, if_true, Nat.zero_lt_one]
  refine ⟨k0_setState_connectionState _ _, ?_⟩
  by_cases hs : t = s.connectionState
  · simp [k0.setState, hs]
  · simp [k0.setState, hs]

theorem runOps_ending (es : List LoadingOp)
    (hes : ∀ op ∈ es, op = LoadingOp.finished ∨ op = LoadingOp.failed) (s : k0)
    (hlen : es.length < s.loadingCount) :
    (runOps es s).connectionState = s.connectionState ∧
    (runOps es s).loadingCount = s.loadingCount - es.length := by
  induction es generalizing s with
  | nil => simp [runOps]
  | cons e es ih =>
    simp only [List.length_cons] at hlen
    have hstep : (e.run s).connectionState = s.connectionState ∧
        (e.run s).loadingCount = s.loadingCount - 1 := by
      rcases hes e (List.mem_cons_self _ _) with rfl | rfl
      · exact k0_decrease_many s _ (by omega)
      · exact k0_decrease_many s _ (by omega)
    have ih2 := ih (fun op hop => hes op (List.mem_cons_of_mem _ hop)) (e.run s)
      (by rw [hstep.2]; omega)
    show (runOps es (e.run s)).connectionState = _ ∧ (runOps es (e.run s)).loadingCount = _
    rw [ih2.1, ih2.2, hstep.1, hstep.2]
    simp only [List.length_cons]
    exact ⟨trivial, by omega⟩

/-- C3: from a store with loadingCount 0, n >= 1 calls of loadingStarted()
followed by n calls that are each loadingFinished() or loadingFailed() leave
the state 'loading' after every call but the last; after the last call
loadingCount is 0 and the state is 'connected' if the last call was
loadingFinished() and 'connection-lost' if it was loadingFailed(). -/
theorem k0_loading_counter (s : k0) (h0 : s.loadingCount = 0) (n : Nat) (hn : 1 ≤ n)
    (ends : List LoadingOp) (hlen : ends.length = n)
    (hends : ∀ op ∈ ends, op = LoadingOp.finished ∨ op = LoadingOp.failed) :
    (∀ k, 1 ≤ k → k < 2 * n →
      (runOps ((List.replicate n LoadingOp.started ++ ends).take k) s).connectionState
        = "loading") ∧
    (runOps (List.replicate n LoadingOp.started ++ ends) s).loadingCount = 0 ∧
    (ends.getLast? = some LoadingOp.finished →
      (runOps (List.replicate n LoadingOp.started ++ ends) s).connectionState
        = "connected") ∧
    (ends.getLast? = some LoadingOp.failed →
      (runOps (List.replicate n LoadingOp.started ++ ends) s).connectionState
        = "connection-lost") := by
  obtain ⟨m, rfl⟩ : ∃ m, n = m + 1 := ⟨n - 1, by omega⟩
  have hstart := runOps_started m s h0
  -- split the ending calls into all but the last, and the last
  have hne : ends ≠ [] := by
    intro h; rw [h] at hlen; simp at hlen
  obtain ⟨front, last, rfl⟩ : ∃ front last, ends = front ++ [last] :=
    ⟨ends.dropLast, ends.getLast hne, (List.dropLast_append_getLast hne).symm⟩
  have hfl : front.length = m := by simpa using hlen
  have hfront : ∀ op ∈ front, op = LoadingOp.finished ∨ op = LoadingOp.failed :=
    fun op hop => hends op (List.mem_append_left _ hop)
  have hlast : last = LoadingOp.finished ∨ last = LoadingOp.failed :=
    hends last (List.mem_append_right _ (List.mem_singleton_self _))
  set s1 := runOps (List.replicate (m + 1) LoadingOp.started) s with hs1
  have hmid := runOps_ending front hfront s1 (by rw [hstart.2]; omega)
  have hcount1 : (runOps front s1).loadingCount = 1 := by
    rw [hmid.2, hstart.2]; omega
  have hfull : runOps (List.replicate (m + 1) LoadingOp.started ++ (front ++ [last])) s
      = last.run (runOps front s1) := by
    rw [runOps_append, runOps_append]; rfl
  refine ⟨?_, ?_, ?_, ?_⟩
  · intro k hk1 hk2
    by_cases hk : k ≤ m + 1
    · obtain ⟨j, rfl⟩ : ∃ j, k = j + 1 := ⟨k - 1, by omega⟩
      rw [List.take_append_of_le_length (by simpa using hk), List.take_replicate,
        Nat.min_eq_left hk]
      exact (runOps_started j s h0).1
    · have hk3 : (List.replicate (m + 1) LoadingOp.started).length ≤ k := by
        simp; omega
      rw [List.take_append_eq_append_take, List.take_of_length_le hk3, runOps_append]
      simp only [List.length_replicate]
      have hk4 : k - (m + 1) ≤ front.length := by omega
      rw [List.take_append_of_le_length hk4]
      have hpre := runOps_ending (front.take (k - (m + 1)))
        (fun op hop => hfront op (List.mem_of_mem_take hop)) s1
        (by rw [hstart.2, List.length_take]; omega)
      rw [hpre.1]; exact hstart.1
  · rw [hfull]
    rcases hlast with rfl | rfl
    · exact (k0_decrease_last _ _ hcount1).2
    · exact (k0_decrease_last _ _ hcount1).2
  · intro hl
    simp at hl
    subst hl
    rw [hfull]
    exact (k0_decrease_last _ _ hcount1).1
  · intro hl
    simp at hl
    subst hl
    rw [hfull]
    exact (k0_decrease_last _ _ hcount1).1

/-- Witness for C3: two loadingStarted() calls, then loadingFinished() and
loadingFailed(), from a 'reconnecting' store. -/
theorem k0_loading_counter_witness :
    (runOps [LoadingOp.started, LoadingOp.started, LoadingOp.finished, LoadingOp.failed]
      ⟨[7], 0, "reconnecting", []⟩).connectionState = "connection-lost" :=
  (k0_loading_counter ⟨[7], 0, "reconnecting", []⟩ rfl 2 (by decide)
    [LoadingOp.finished, LoadingOp.failed] rfl (by decide)).2.2.2 rfl

/-! ### The connection indicator -/

theorem Re_updateLoading_fields (e : Re) (w : Timers) (t : Bool) :
    (e.updateLoading w t).1.loading = t ∧
    (e.updateLoading w t).1.offline = e.offline ∧
    (e.updateLoading w t).1.reconnecting = e.reconnecting ∧
    (e.updateLoading w t).1.lastMessageState = e.lastMessageState :=
  ⟨rfl, rfl, rfl, rfl⟩

theorem Re_updateConnectionState_cases (e : Re) (store : Option k0) (w : Timers) :
    (e.updateConnectionState store w).2.1.offline
      = (store.map k0.state == some Ee.CONNECTION_LOST) ∧
    (e.updateConnectionState store w).2.1.reconnecting
      = (store.map k0.state == some Ee.RECONNECTING) ∧
    (e.updateConnectionState store w).2.1.loading
      = (store.map k0.state == some Ee.LOADING) ∧
    (e.updateConnectionState store w).1
      = (!(store.map k0.state == some Ee.LOADING) &&
          decide (store.map k0.state ≠ e.lastMessageState)) ∧
    (e.updateConnectionState store w).2.1.lastMessageState
      = (if (!(store.map k0.state == some Ee.LOADING) &&
            decide (store.map k0.state ≠ e.lastMessageState))
          then store.map k0.state else e.lastMessageState) := by
  unfold Re.updateConnectionState
  simp only []
  by_cases hl : (store.map k0.state == some Ee.LOADING) = true
  · simp [Re_updateLoading_fields, hl]
  · by_cases hm : store.map k0.state = e.lastMessageState
    · simp [Re_updateLoading_fields, hl, hm]
    · simp [Re_updateLoading_fields, hl, hm]

/-- C4: with a store attached, after updateConnectionState() the element has
offline = (state is 'connection-lost'), reconnecting = (state is
'reconnecting'), loading = (state is 'loading'), never offline and
reconnecting together; the call returns true (which the state listener assigns
to `expanded`) iff the state is not 'loading' and differs from
lastMessageState, and lastMessageState becomes the store state exactly then
and is kept otherwise. -/
theorem Re_updateConnectionState_spec (e : Re) (store : k0) (w : Timers) :
    (e.updateConnectionState (some store) w).2.1.offline
      = decide (store.state = "connection-lost") ∧
    (e.updateConnectionState (some store) w).2.1.reconnecting
      = decide (store.state = "reconnecting") ∧
    (e.updateConnectionState (some store) w).2.1.loading
      = decide (store.state = "loading") ∧
    ¬ ((e.updateConnectionState (some store) w).2.1.offline = true ∧
       (e.updateConnectionState (some store) w).2.1.reconnecting = true) ∧
    ((e.updateConnectionState (some store) w).1 = true ↔
      (store.state ≠ "loading" ∧ some store.state ≠ e.lastMessageState)) ∧
    (e.updateConnectionState (some store) w).2.1.lastMessageState
      = (if (e.updateConnectionState (some store) w).1 then some store.state
         else e.lastMessageState) ∧
    (e.connectionStateListener (some store) w).1.expanded
      = (e.updateConnectionState (some store) w).1 := by
  have hb : ∀ a : String, (some store.state == some a) = decide (store.state = a) := by
    intro a
    by_cases h : store.state = a <;> simp [h]
  obtain ⟨h1, h2, h3, h4⟩ := Re_updateConnectionState_cases e (some store) w
  simp only [Option.map_some', hb, Ee.CONNECTION_LOST, Ee.RECONNECTING, Ee.LOADING] at h1 h2 h3 h4
  refine ⟨h1, h2, h3, ?_, ?_, ?_, rfl⟩
  · rw [h1, h2]
    simp only [decide_eq_true_eq]
    rintro ⟨ha, hb2⟩
    rw [ha] at hb2
    exact absurd hb2 (by decide)
  · rw [h4.1]
    simp only [Bool.and_eq_true, Bool.not_eq_true', decide_eq_false_iff_not, decide_eq_true_eq]
  · rw [h4.2, h4.1]

/-! ### The Flow bridge -/

theorem J0_flowInitAttach_fields (f : J0) :
    (J0.flowInitAttach f).1.pathname = f.pathname ∧
    (J0.flowInitAttach f).1.flowInitCalls = f.flowInitCalls := by
  unfold J0.flowInitAttach
  split
  · split <;> exact ⟨rfl, rfl⟩
  · exact ⟨rfl, rfl⟩

theorem J0_loadingFinished_fields (f : J0) :
    (J0.loadingFinished f).pathname = f.pathname ∧
    (J0.loadingFinished f).flowInitCalls = f.flowInitCalls := by
  unfold J0.loadingFinished
  simp only []
  split <;> exact ⟨rfl, rfl⟩

theorem J0_flowInitUi_fields (env : FlowEnv) (f : J0) :
    (J0.flowInitUi env f).1.pathname = f.pathname ∧
    (J0.flowInitUi env f).1.flowInitCalls = f.flowInitCalls := by
  unfold J0.flowInitUi
  split <;> exact ⟨rfl, rfl⟩

theorem J0_flowInit_fields (env : FlowEnv) (f : J0) :
    (J0.flowInit env f).1.pathname = f.pathname ∧
    (J0.flowInit env f).1.flowInitCalls = f.flowInitCalls + 1 := by
  unfold J0.flowInit
  simp only []
  split
  · have hu := J0_flowInitUi_fields env
      (J0.loadingStarted { f with flowInitCalls := f.flowInitCalls + 1 })
    split
    · rename_i f1 e heq
      rw [heq] at hu
      exact hu
    · rename_i f1 resp heq
      rw [heq] at hu
      simp only at hu
      split
      · exact hu
      · split
        · exact hu
        · split
          · exact hu
          · split
            · exact hu
            · have h1 := J0_flowInitAttach_fields (J0.loadingFinished
                { f1 with response := some resp
                          container := some (match env.existing with
                            | some i => i
                            | none => { createElement
                                ("flow-container-" ++ resp.appId.toLower) with id := resp.appId })
                          registered := f1.registered ++ [resp.appId] })
              have h2 := J0_loadingFinished_fields
                { f1 with response := some resp
                          container := some (match env.existing with
                            | some i => i
                            | none => { createElement
                                ("flow-container-" ++ resp.appId.toLower) with id := resp.appId })
                          registered := f1.registered ++ [resp.appId] }
              rw [h1.1, h1.2, h2.1, h2.2]
              exact hu
  · exact J0_flowInitAttach_fields _

/-- C5: the route action first records the target pathname; with the store
offline it returns the offline stub, `response` becomes undefined and flowInit
is not called; with the store online and flowInit failing with the error class
`pd` it sets the state 'connection-lost' and returns the offline stub; any
other error of flowInit is rethrown; and it returns the Flow container, with
onBeforeEnter and onBeforeLeave installed, only when the store was online and
flowInit succeeded. -/
theorem J0_action_cases (env : FlowEnv) (f : J0) (t : Ctx) :
    (J0.action env f t).1.pathname = t.pathname ∧
    (f.connectionState.offline = true →
      J0.action env f t
        = ({ f with pathname := t.pathname, response := none }, Except.ok J0.offlineStub) ∧
      (J0.action env f t).1.flowInitCalls = f.flowInitCalls) ∧
    (f.connectionState.online = true →
      ∀ m, (J0.flowInit env { f with pathname := t.pathname }).2
          = Except.error (JsError.pd m) →
        (J0.action env f t).2 = Except.ok J0.offlineStub ∧
        (J0.action env f t).1.response = none ∧
        (J0.action env f t).1.connectionState.connectionState = "connection-lost") ∧
    (f.connectionState.online = true →
      ∀ m, (J0.flowInit env { f with pathname := t.pathname }).2
          = Except.error (JsError.other m) →
        (J0.action env f t).2 = Except.error (JsError.other m)) ∧
    (∀ c, (J0.action env f t).2 = Except.ok c → c ≠ J0.offlineStub →
      f.connectionState.online = true ∧
      (∃ r, (J0.flowInit env { f with pathname := t.pathname }).2 = Except.ok r) ∧
      (J0.action env f t).1.container = some c ∧
      c.onBeforeEnter = some Handler.flowNavigate ∧
      c.onBeforeLeave = some Handler.flowLeave) := by
  have hfi := J0_flowInit_fields env { f with pathname := t.pathname }
  refine ⟨?_, ?_, ?_, ?_, ?_⟩
  · unfold J0.action
    simp only []
    split
    · split
      · rename_i f1 m heq
        rw [heq] at hfi
        exact hfi.1
      · rename_i f1 e _ heq
        rw [heq] at hfi
        exact hfi.1
      · rename_i f1 r heq
        rw [heq] at hfi
        split
        · exact hfi.1
        · exact hfi.1
    · rfl
  · intro hoff
    have hon : f.connectionState.online = false := by
      simpa [k0.offline] using hoff
    simp [J0.action, hon, J0.offlineStubAction]
  · intro hon m hm
    unfold J0.action
    simp only [hon, if_true]
    split
    · exact ⟨rfl, rfl, k0_setState_connectionState _ _⟩
    · rename_i f1 e hne heq
      rw [heq] at hm
      exact absurd (Except.error.inj hm) (hne m)
    · rename_i f1 r heq
      rw [heq] at hm
      exact absurd hm (by simp)
  · intro hon m hm
    unfold J0.action
    simp only [hon, if_true]
    split
    · rename_i f1 m2 heq
      rw [heq] at hm
      exact absurd (Except.error.inj hm) (by simp)
    · rename_i f1 e hne heq
      rw [heq] at hm
      have he : e = JsError.other m := Except.error.inj hm
      subst he
      rfl
    · rename_i f1 r heq
      rw [heq] at hm
      exact absurd hm (by simp)
  · intro c hc hstub
    unfold J0.action at hc ⊢
    simp only [] at hc ⊢
    by_cases hon : f.connectionState.online = true
    · simp only [hon, if_true] at hc ⊢
      refine ⟨trivial, ?_⟩
      split at hc
      · have hc2 : J0.offlineStub = c := Except.ok.inj hc
        exact absurd hc2.symm hstub
      · exact absurd hc (by simp)
      · rename_i f1 r heq
        rw [heq]
        refine ⟨⟨r, rfl⟩, ?_⟩
        split at hc
        · exact absurd hc (by simp)
        · rename_i c0 hc0
          have hc2 := Except.ok.inj hc
          subst hc2
          exact ⟨rfl, rfl, rfl⟩
    · simp only [hon, J0.offlineStubAction, Except.ok.injEq] at hc
      simp at hc
      exact absurd hc.symm hstub

/-- Witness for C5: online with the init request failing with `pd`, online
with another error, online with success, and offline. -/
theorem J0_action_cases_witness :
    ((J0.action (sampleEnv (Except.error (JsError.pd "x"))) (sampleBridge "connected")
        ⟨"/a", ""⟩).2 = Except.ok J0.offlineStub ∧
      (J0.action (sampleEnv (Except.error (JsError.pd "x"))) (sampleBridge "connected")
        ⟨"/a", ""⟩).1.response = none ∧
      (J0.action (sampleEnv (Except.error (JsError.pd "x"))) (sampleBridge "connected")
        ⟨"/a", ""⟩).1.connectionState.connectionState = "connection-lost") ∧
    (J0.action (sampleEnv (Except.error (JsError.other "y"))) (sampleBridge "connected")
        ⟨"/a", ""⟩).2 = Except.error (JsError.other "y") ∧
    (J0.action (sampleEnv (Except.ok ⟨"app", none⟩)) (sampleBridge "connection-lost")
        ⟨"/a", ""⟩).1.flowInitCalls = 0 :=
  ⟨(J0_action_cases (sampleEnv (Except.error (JsError.pd "x"))) (sampleBridge "connected")
      ⟨"/a", ""⟩).2.2.1 (by decide) "x" rfl,
   (J0_action_cases (sampleEnv (Except.error (JsError.other "y"))) (sampleBridge "connected")
      ⟨"/a", ""⟩).2.2.2.1 (by decide) "y" rfl,
   ((J0_action_cases (sampleEnv (Except.ok ⟨"app", none⟩)) (sampleBridge "connection-lost")
      ⟨"/a", ""⟩).2.1 (by decide)).2⟩

/-- C6: flowLeave resolves at once with an empty object and changes nothing
(no loadingStarted(), no message to the server, isActive and the connection
state as before) whenever the target pathname equals the recorded pathname,
or the Flow client is not loaded, or the store is offline. -/
theorem J0_flowLeave_noop (f : J0) (t : Ctx)
    (h : f.pathname = t.pathname ∨ f.isFlowClientLoaded = false ∨
      f.connectionState.offline = true) :
    J0.flowLeave f t = (f, Except.ok J0.LeaveResult.resolvedEmpty) := by
  unfold J0.flowLeave
  simp only []
  rw [if_pos]
  rcases h with h | h | h
  · simp [h]
  · simp [h]
  · simp [h]

/-- Witness for C6: a loaded, connected bridge showing `/a` asked to leave
towards `/a`; and, for contrast, towards `/b`, where a message is sent. -/
theorem J0_flowLeave_noop_witness :
    J0.flowLeave loadedBridge ⟨"/a", ""⟩
      = (loadedBridge, Except.ok J0.LeaveResult.resolvedEmpty) ∧
    (J0.flowLeave loadedBridge ⟨"/b", ""⟩).1.sent = [⟨"ui-leave-navigation", ⟨"/b", ""⟩⟩] ∧
    (J0.flowLeave loadedBridge ⟨"/b", ""⟩).1.isActive = true :=
  ⟨J0_flowLeave_noop loadedBridge ⟨"/a", ""⟩ (Or.inl rfl), by decide, by decide⟩

/-! ### The router: scores -/

theorem splitOn_ne_nil (sep : Char) (l : List Char) : splitOn sep l ≠ [] := by
  induction l with
  | nil => simp [splitOn]
  | cons c cs ih =>
    unfold splitOn
    split
    · simp
    · split <;> simp

theorem splitOn_append_sep (sep : Char) (p s : List Char) (hs : sep ∉ s) :
    splitOn sep (p ++ sep :: s) = splitOn sep p ++ [s] := by
  have hS : ∀ s : List Char, sep ∉ s → splitOn sep s = [s] := by
    intro s
    induction s with
    | nil => intro _; rfl
    | cons c cs ih =>
      intro h
      have hc : c ≠ sep := fun e => h (by simp [e])
      have hcs : sep ∉ cs := fun e => h (List.mem_cons_of_mem _ e)
      simp [splitOn, hc, ih hcs]
  induction p with
  | nil => simp [splitOn, hS s hs]
  | cons c cs ih =>
    by_cases hc : c = sep
    · simp [splitOn, hc, ih]
    · have h1 : splitOn sep (c :: (cs ++ sep :: s)) =
          (match splitOn sep (cs ++ sep :: s) with
            | s :: rest => (c :: s) :: rest
            | [] => [[c]]) := by
        simp [splitOn, hc]
      have h2 : splitOn sep (c :: cs) =
          (match splitOn sep cs with
            | s :: rest => (c :: s) :: rest
            | [] => [[c]]) := by
        simp [splitOn, hc]
      rw [List.cons_append, h1, h2, ih]
      cases hsp : splitOn sep cs with
      | nil => exact absurd hsp (splitOn_ne_nil sep cs)
      | cons a rest => rfl

theorem foldl_segmentValue (l : List (List Char)) (r : Int) :
    l.foldl (fun o i => o + (if ogTest i then ig else if i = [] then ag else sg)) r
      = r + (l.map segmentValue).sum := by
  induction l generalizing r with
  | nil => simp
  | cons a l ih =>
    simp only [List.foldl_cons, List.map_cons, List.sum_cons, ih, segmentValue]
    ring

theorem cg_eq (e : List Char) (t : Bool) :
    cg e t = ((splitOn '/' e).length : Int)
      + (if (splitOn '/' e).any Oc then ug else 0) + (if t then lg else 0)
      + (((splitOn '/' e).filter (fun o => !Oc o)).map segmentValue).sum := by
  unfold cg
  simp only [foldl_segmentValue]
  by_cases h1 : (splitOn '/' e).any Oc = true <;> by_cases h2 : t = true <;>
    simp [h1, h2]

theorem cg_snoc (p s : List Char) (t : Bool) (hs : '/' ∉ s) :
    cg (p ++ '/' :: s) t = ((splitOn '/' p).length : Int) + 1
      + (if ((splitOn '/' p).any Oc || Oc s) then ug else 0) + (if t then lg else 0)
      + (((splitOn '/' p).filter (fun o => !Oc o)).map segmentValue).sum
      + (if Oc s then 0 else segmentValue s) := by
  rw [cg_eq, splitOn_append_sep '/' p s hs]
  simp only [List.length_append, List.length_singleton, List.any_append, List.any_cons,
    List.any_nil, Bool.or_false, List.filter_append, List.map_append, List.sum_append,
    Nat.cast_add, Nat.cast_one]
  by_cases h : Oc s = true
  · simp [List.filter, h]
  · simp [List.filter, h]
    ring

theorem ogTest_iff (s : List Char) :
    ogTest s = true ↔ ∃ d, isParamName d ∧ s = ':' :: d := by
  constructor
  · intro h
    unfold ogTest at h
    split at h
    · rename_i rest
      simp only [Bool.and_eq_true, Bool.not_eq_true', List.all_eq_true] at h
      refine ⟨rest, ⟨?_, h.2⟩, rfl⟩
      intro e
      rw [e] at h
      simp at h
    · exact absurd h (by simp)
  · rintro ⟨d, ⟨hne, hall⟩, rfl⟩
    simp only [ogTest, Bool.and_eq_true, Bool.not_eq_true', List.all_eq_true]
    refine ⟨?_, hall⟩
    cases d with
    | nil => exact absurd rfl hne
    | cons a l => rfl

/-- C9: for every path prefix p, every static segment s (non-empty, not '*',
not of the form ':name', without '/') and every parameter name d, with the
same index flag score(p/s) > score(p/:d) > score(p/*); and for every path the
score with a truthy index flag is exactly 2 more than with a falsy one. -/
theorem cg_static_dynamic_splat (p s d : List Char) (t : Bool)
    (hs1 : s ≠ []) (hs2 : s ≠ ['*']) (hs3 : '/' ∉ s)
    (hs4 : ¬ ∃ n, isParamName n ∧ s = ':' :: n) (hd : isParamName d) :
    cg (p ++ '/' :: s) t > cg (p ++ '/' :: ':' :: d) t ∧
    cg (p ++ '/' :: ':' :: d) t > cg (p ++ ['/', '*']) t ∧
    (∀ e, cg e true = cg e false + 2) := by
  have hd3 : '/' ∉ ':' :: d := by
    intro h
    rcases List.mem_cons.mp h with h | h
    · exact absurd h (by decide)
    · exact absurd (hd.2 _ h) (by decide)
  have hstar : '/' ∉ ['*'] := by decide
  have hOs : Oc s = false := by
    simpa [Oc] using hs2
  have hOd : Oc (':' :: d) = false := by
    simp [Oc]
  have hvs : segmentValue s = 10 := by
    have h1 : ogTest s = false := by
      cases h : ogTest s with
      | false => rfl
      | true => exact absurd ((ogTest_iff s).mp h) hs4
    simp [segmentValue, h1, hs1, sg]
  have hvd : segmentValue (':' :: d) = 3 := by
    have h1 : ogTest (':' :: d) = true := (ogTest_iff _).mpr ⟨d, hd, rfl⟩
    simp [segmentValue, h1, ig]
  refine ⟨?_, ?_, ?_⟩
  · rw [cg_snoc p s t hs3, cg_snoc p (':' :: d) t hd3, hOs, hOd, hvs, hvd]
    simp only [Bool.or_false, Bool.false_eq_true, if_false]
    omega
  · rw [cg_snoc p (':' :: d) t hd3, cg_snoc p ['*'] t hstar, hOd, hvd]
    have hO : Oc ['*'] = true := by decide
    simp only [hO, Bool.or_false, Bool.or_true, Bool.false_eq_true, if_false, if_true, ug]
    by_cases h : (splitOn '/' p).any Oc = true
    · simp only [h, if_true]; omega
    · simp only [h, if_false]; omega
  · intro e
    rw [cg_eq, cg_eq]
    simp only [if_true, Bool.false_eq_true, if_false, lg]
    omega

/-- Witness for C9: prefix `/users`, static segment `new`, parameter `id`. -/
theorem cg_static_dynamic_splat_witness :
    cg "/users/new".toList false > cg "/users/:id".toList false ∧
    cg "/users/:id".toList false > cg "/users/*".toList false :=
  have h := cg_static_dynamic_splat "/users".toList "new".toList "id".toList false
    (by decide) (by decide) (by decide)
    (by rintro ⟨n, _, hn⟩; exact absurd (List.cons.inj hn).1 (by decide))
    ⟨by decide, by decide⟩
  ⟨h.1, h.2.1⟩

/-! ### The router: ranking -/

theorem sortInsert_perm {α : Type} (cmp : α → α → Option Int) (x : α) (l : List α) :
    (sortInsert cmp x l).Perm (x :: l) := by
  induction l with
  | nil => exact List.Perm.refl _
  | cons y ys ih =>
    unfold sortInsert
    split
    · exact (List.Perm.cons y ih).trans (List.Perm.swap x y ys)
    · exact List.Perm.refl _

theorem arraySort_perm {α : Type} (cmp : α → α → Option Int) (l : List α) :
    (arraySort cmp l).Perm l := by
  induction l with
  | nil => exact List.Perm.refl _
  | cons x xs ih =>
    exact (sortInsert_perm cmp x _).trans (List.Perm.cons x ih)

theorem rgCompare_positive {ρ : Type} (x y : Branch ρ)
    (h : comparatorPositive (rgCompare x y) = true) : x.score ≤ y.score := by
  unfold rgCompare at h
  split at h
  · simp only [comparatorPositive, decide_eq_true_eq] at h
    omega
  · rename_i hs
    simp only [ne_eq, not_not] at hs
    omega

theorem rgCompare_not_positive {ρ : Type} (x y : Branch ρ)
    (h : ¬ comparatorPositive (rgCompare x y) = true) : y.score ≤ x.score := by
  unfold rgCompare at h
  split at h
  · simp only [comparatorPositive, decide_eq_true_eq] at h
    omega
  · rename_i hs
    simp only [ne_eq, not_not] at hs
    omega

theorem sortInsert_sorted {ρ : Type} (x : Branch ρ) (l : List (Branch ρ))
    (hl : l.Pairwise (fun a b => b.score ≤ a.score)) :
    (sortInsert rgCompare x l).Pairwise (fun a b => b.score ≤ a.score) := by
  induction l with
  | nil => simp [sortInsert]
  | cons y ys ih =>
    rw [List.pairwise_cons] at hl
    unfold sortInsert
    split
    · rename_i hpos
      have hxy := rgCompare_positive x y hpos
      rw [List.pairwise_cons]
      refine ⟨?_, ih hl.2⟩
      intro b hb
      rcases List.mem_cons.mp ((sortInsert_perm rgCompare x ys).mem_iff.mp hb) with h | h
      · rw [h]; exact hxy
      · exact hl.1 b h
    · rename_i hneg
      have hyx := rgCompare_not_positive x y hneg
      rw [List.pairwise_cons]
      refine ⟨?_, List.pairwise_cons.mpr hl⟩
      intro b hb
      rcases List.mem_cons.mp hb with h | h
      · rw [h]; exact hyx
      · exact le_trans (hl.1 b h) hyx

theorem rg_sorted {ρ : Type} (l : List (Branch ρ)) :
    (rg l).Pairwise (fun a b => b.score ≤ a.score) := by
  induction l with
  | nil => exact List.Pairwise.nil
  | cons x xs ih => exact sortInsert_sorted x _ ih

theorem RnLoop_first {ρ M : Type} (attempt : Branch ρ → Option M) (l : List (Branch ρ))
    (m : M) (h : RnLoop attempt l = some m) :
    ∃ pre b post, l = pre ++ b :: post ∧ attempt b = some m ∧
      ∀ a ∈ pre, attempt a = none := by
  induction l with
  | nil => simp [RnLoop] at h
  | cons y ys ih =>
    unfold RnLoop at h
    split at h
    · rename_i m2 hm2
      refine ⟨[], y, ys, rfl, ?_, ?_⟩
      · rw [hm2, h]
      · intro a ha; simp at ha
    · rename_i hnone
      obtain ⟨pre, b, post, hl, hb, hpre⟩ := ih h
      refine ⟨y :: pre, b, post, by rw [hl]; rfl, hb, ?_⟩
      intro a ha
      rcases List.mem_cons.mp ha with h1 | h1
      · rw [h1]; exact hnone
      · exact hpre a h1

/-- C10: for every list of branches the ranked list is a permutation of the
input in which the scores are non-increasing from first to last; so the loop
of matchRoutes tries a branch of higher score before one of lower score: when
it returns the match of a branch, every branch of strictly higher score has
been tried and did not match. -/
theorem rg_sorted_perm {ρ : Type} (bs : List (Branch ρ)) :
    (rg bs).Perm bs ∧
    (rg bs).Pairwise (fun a b => b.score ≤ a.score) ∧
    (∀ (i j : Nat) (hi : i < j) (hj : j < (rg bs).length),
      ((rg bs).get ⟨j, hj⟩).score ≤ ((rg bs).get ⟨i, lt_trans hi hj⟩).score) ∧
    (∀ (M : Type) (attempt : Branch ρ → Option M) (m : M),
      RnLoop attempt (rg bs) = some m →
      ∃ b ∈ bs, attempt b = some m ∧
        ∀ c ∈ bs, b.score < c.score → attempt c = none) := by
  have hperm : (rg bs).Perm bs := arraySort_perm rgCompare bs
  have hsorted := rg_sorted bs
  refine ⟨hperm, hsorted, ?_, ?_⟩
  · intro i j hi hj
    exact List.pairwise_iff_get.mp hsorted ⟨i, lt_trans hi hj⟩ ⟨j, hj⟩ hi
  · intro M attempt m hm
    obtain ⟨pre, b, post, hl, hb, hpre⟩ := RnLoop_first attempt (rg bs) m hm
    have hbmem : b ∈ rg bs := by rw [hl]; simp
    refine ⟨b, hperm.mem_iff.mp hbmem, hb, ?_⟩
    intro c hc hlt
    have hc2 : c ∈ pre ++ b :: post := by rw [← hl]; exact hperm.mem_iff.mpr hc
    rw [hl, List.pairwise_append] at hsorted
    rcases List.mem_append.mp hc2 with h | h
    · exact hpre c h
    · exfalso
      rcases List.mem_cons.mp h with h1 | h1
      · rw [h1] at hlt; exact lt_irrefl _ hlt
      · have := (List.pairwise_cons.mp hsorted.2.1).1 c h1
        omega

/-! ### The router: matchPath -/

theorem isNameChar_ne (c : Char) (h : isNameChar c = true) :
    c ≠ '/' ∧ c ≠ ':' ∧ c ≠ '?' ∧ c ≠ '*' ∧ isLineTerminator c = false := by
  refine ⟨?_, ?_, ?_, ?_, ?_⟩
  · rintro rfl; exact absurd h (by decide)
  · rintro rfl; exact absurd h (by decide)
  · rintro rfl; exact absurd h (by decide)
  · rintro rfl; exact absurd h (by decide)
  · cases hl : isLineTerminator c with
    | false => rfl
    | true =>
      exfalso
      simp only [isLineTerminator, Bool.or_eq_true, beq_iff_eq] at hl
      rcases hl with ((hl | hl) | hl) | hl <;> (rw [hl] at h; exact absurd h (by decide))

theorem paramAt_plain (rest : List Char)
    (h : ∀ c ∈ rest, c = '/' ∨ isNameChar c = true) : paramAt rest = none := by
  unfold paramAt
  split
  · rename_i r
    rcases h ':' (List.mem_cons_self _ _) with h1 | h1
    · exact absurd h1 (by decide)
    · exact absurd h1 (by decide)
  · rfl

theorem compileBody_plain (l : List Char)
    (h : ∀ c ∈ l, c = '/' ∨ isNameChar c = true) (acc : List Item) (ps : List Param) :
    compileBody 0 acc ps l
      = Except.ok (acc.reverse ++ l.map (fun c => ⟨Atom.char c, Quant.once⟩), ps) := by
  induction l generalizing acc with
  | nil => simp [compileBody]
  | cons c rest ih =>
    have hrest : ∀ c ∈ rest, c = '/' ∨ isNameChar c = true :=
      fun x hx => h x (List.mem_cons_of_mem _ hx)
    by_cases hc : c = '/'
    · simp only [compileBody, hc, if_true, paramAt_plain rest hrest]
      rw [ih hrest]
      simp
    · have hn : isNameChar c = true := (h c (List.mem_cons_self _ _)).resolve_left hc
      have hq : c ≠ '?' := (isNameChar_ne c hn).2.2.1
      simp only [compileBody, hc, hq, if_false]
      rw [ih hrest]
      simp

theorem staticPattern_plain (segs : List (List Char))
    (hsegs : ∀ s ∈ segs, isStaticSegment s) :
    ∀ c ∈ staticPattern segs, c = '/' ∨ isNameChar c = true := by
  intro c hc
  simp only [staticPattern, List.mem_flatMap] at hc
  obtain ⟨s, hs, hcs⟩ := hc
  rcases List.mem_cons.mp hcs with h | h
  · exact Or.inl h
  · exact Or.inr ((hsegs s hs).2 c h)

theorem staticPattern_head (segs : List (List Char)) (hne : segs ≠ [])
    (hsegs : ∀ s ∈ segs, isStaticSegment s) :
    ∃ c rest, staticPattern segs = '/' :: c :: rest ∧ isNameChar c = true := by
  cases segs with
  | nil => exact absurd rfl hne
  | cons s tl =>
    have hs := hsegs s (List.mem_cons_self _ _)
    cases s with
    | nil => exact absurd rfl hs.1
    | cons c r =>
      exact ⟨c, r ++ staticPattern tl, by simp [staticPattern], hs.2 c (List.mem_cons_self _ _)⟩

theorem staticPattern_last (segs : List (List Char)) (hne : segs ≠ [])
    (hsegs : ∀ s ∈ segs, isStaticSegment s) :
    ∃ q c, staticPattern segs = q ++ [c] ∧ isNameChar c = true := by
  have hsl := List.dropLast_append_getLast hne
  have hmem : segs.getLast hne ∈ segs := List.getLast_mem hne
  have hs := hsegs _ hmem
  have hsl2 := List.dropLast_append_getLast hs.1
  refine ⟨staticPattern segs.dropLast ++ '/' :: (segs.getLast hne).dropLast,
    (segs.getLast hne).getLast hs.1, ?_, hs.2 _ (List.getLast_mem hs.1)⟩
  conv_lhs => rw [← hsl]
  simp only [staticPattern, List.flatMap_append, List.flatMap_cons, List.flatMap_nil,
    List.append_nil, List.append_assoc, List.cons_append]
  rw [hsl2]

theorem stripSplat_static (q : List Char) (c : Char) (h1 : c ≠ '*') (h2 : c ≠ '/') :
    stripSplat (q ++ [c]) = q ++ [c] := by
  have hl : (q ++ [c]).getLast? = some c := by simp
  have hne : ¬ (some c = some '*') := by simpa using h1
  simp only [stripSplat, hl, hne, if_false, dropTrailing, List.reverse_append,
    List.reverse_singleton, List.singleton_append]
  have : (c == '/') = false := by simpa using h2
  simp [List.dropWhile, this]

theorem leadingSlash_static (c : Char) (rest : List Char) (h : c ≠ '/') :
    leadingSlash ('/' :: c :: rest) = '/' :: c :: rest := by
  have : (c == '/') = false := by simpa using h
  simp [leadingSlash, List.dropWhile, this]

theorem mg_static (segs : List (List Char)) (hne : segs ≠ [])
    (hsegs : ∀ s ∈ segs, isStaticSegment s) (caseSensitive : Bool) :
    mg (staticPattern segs) caseSensitive true
      = Except.ok (⟨(staticPattern segs).map (fun c => ⟨Atom.char c, Quant.once⟩),
          Tail.slashesEnd, !caseSensitive⟩, []) := by
  obtain ⟨q, c, hq, hc⟩ := staticPattern_last segs hne hsegs
  obtain ⟨c1, rest, hh, hc1⟩ := staticPattern_head segs hne hsegs
  have hcn := isNameChar_ne c hc
  have h1 : stripSplat (staticPattern segs) = staticPattern segs := by
    rw [hq]; exact stripSplat_static q c hcn.2.2.2.1 hcn.1
  have h2 : leadingSlash (staticPattern segs) = staticPattern segs := by
    rw [hh]; exact leadingSlash_static c1 rest (isNameChar_ne c1 hc1).1
  have h3 : (staticPattern segs).getLast? ≠ some '*' := by
    rw [hq]; simpa using hcn.2.2.2.1
  unfold mg
  rw [h1, h2, compileBody_plain _ (staticPattern_plain segs hsegs)]
  simp [h3]

theorem matchItems_lits_some (canon : Char → Char) (ic : Bool) (p : List Char) :
    ∀ (input : List Char) (m : MatchResult),
      matchItems canon ic Tail.slashesEnd
        (p.map (fun c => ⟨Atom.char c, Quant.once⟩)) input = some m →
      m = ⟨input, []⟩ ∧ ∃ pre rest, input = pre ++ rest ∧
        List.Forall₂ (fun a b => charEq canon ic a b = true) p pre ∧
        ∀ x ∈ rest, charEq canon ic '/' x = true := by
  induction p with
  | nil =>
    intro input m h
    simp only [List.map_nil, matchItems, matchTail] at h
    split at h
    · rename_i hall
      refine ⟨(Option.some.inj h).symm, [], input, rfl, List.Forall₂.nil, ?_⟩
      exact List.all_eq_true.mp hall
    · exact absurd h (by simp)
  | cons c p ih =>
    intro input m h
    simp only [List.map_cons, matchItems] at h
    cases input with
    | nil => exact absurd h (by simp)
    | cons x xs =>
      simp only at h
      split at h
      · rename_i hcx
        rw [Option.map_eq_some'] at h
        obtain ⟨m1, hm1, hm⟩ := h
        obtain ⟨hm1e, pre, rest, hin, hf, hr⟩ := ih xs m1 hm1
        refine ⟨?_, x :: pre, rest, by rw [hin]; rfl, List.Forall₂.cons hcx hf, hr⟩
        rw [← hm, hm1e]; rfl
      · exact absurd h (by simp)

theorem matchItems_lits_of (canon : Char → Char) (ic : Bool) (p : List Char) :
    ∀ (pre rest : List Char),
      List.Forall₂ (fun a b => charEq canon ic a b = true) p pre →
      (∀ x ∈ rest, charEq canon ic '/' x = true) →
      matchItems canon ic Tail.slashesEnd
        (p.map (fun c => ⟨Atom.char c, Quant.once⟩)) (pre ++ rest) = some ⟨pre ++ rest, []⟩ := by
  induction p with
  | nil =>
    intro pre rest hf hr
    cases hf
    have : rest.all (charEq canon ic '/') = true := List.all_eq_true.mpr hr
    simp [matchItems, matchTail, this]
  | cons c p ih =>
    intro pre rest hf hr
    cases hf with
    | cons hcx hf2 =>
      rename_i x pre2
      simp only [List.map_cons, matchItems, List.cons_append, hcx, if_true]
      rw [ih pre2 rest hf2 hr]
      rfl

theorem stripTrailingSlashes_static (q : List Char) (x : Char) (k : Nat)
    (h1 : x ≠ '/') (h2 : isLineTerminator x = false) :
    stripTrailingSlashes (q ++ [x] ++ List.replicate k '/') = q ++ [x] := by
  induction q with
  | nil =>
    cases k with
    | zero => simp [stripTrailingSlashes]
    | succ k =>
      simp [stripTrailingSlashes, h2]
  | cons c q ih =>
    have hall : (q ++ [x] ++ List.replicate k '/').all (fun y => y == '/') = false := by
      rw [Bool.eq_false_iff]
      intro hall
      have := List.all_eq_true.mp hall x (by simp)
      simp only [beq_iff_eq] at this
      exact h1 this
    simp only [List.cons_append, List.append_assoc, List.singleton_append] at hall ih ⊢
    simp only [stripTrailingSlashes, hall, Bool.and_false, Bool.false_eq_true, if_false, ih]

theorem dropTrailing_static (q : List Char) (x : Char) (k : Nat) (h1 : x ≠ '/') :
    dropTrailing '/' (q ++ [x] ++ List.replicate k '/') = q ++ [x] := by
  have hx : (x == '/') = false := by simpa using h1
  have hrep : ∀ (k : Nat) (l : List Char),
      (List.replicate k '/' ++ x :: l).dropWhile (fun y => y == '/') = x :: l := by
    intro k l
    induction k with
    | zero => simp [List.dropWhile, hx]
    | succ k ih => simp [List.replicate_succ, List.dropWhile, ih]
  simp only [dropTrailing, List.reverse_append, List.reverse_replicate, List.reverse_singleton,
    List.singleton_append, List.append_assoc, hrep, List.reverse_cons, List.reverse_reverse]

theorem charEq_slash (canon : Char → Char) (hcanon : CanonOK canon) (ic : Bool) (x : Char)
    (h : charEq canon ic '/' x = true) : x = '/' := by
  unfold charEq at h
  split at h
  · simp only [beq_iff_eq] at h
    exact hcanon '/' x (Or.inl rfl) h.symm
  · simp only [beq_iff_eq] at h
    exact h.symm

theorem charEq_name (canon : Char → Char) (hcanon : CanonOK canon) (ic : Bool) (c x : Char)
    (hc : isNameChar c = true) (h : charEq canon ic c x = true) :
    x ≠ '/' ∧ isLineTerminator x = false := by
  have hcn := isNameChar_ne c hc
  unfold charEq at h
  split at h
  · simp only [beq_iff_eq] at h
    constructor
    · intro hx
      exact hcn.1 ((hcanon x c (Or.inl hx) h).trans hx)
    · cases hl : isLineTerminator x with
      | false => rfl
      | true =>
        have := hcanon x c (Or.inr hl) h
        rw [this, hl] at hcn
        exact absurd hcn.2.2.2.2 (by simp)
  · simp only [beq_iff_eq] at h
    rw [← h]
    exact ⟨hcn.1, hcn.2.2.2.2⟩

theorem forall2_charEq_iff (canon : Char → Char) (caseSensitive : Bool) (p pre : List Char) :
    List.Forall₂ (fun a b => charEq canon (!caseSensitive) a b = true) p pre ↔
      sameText canon caseSensitive pre p := by
  cases caseSensitive with
  | true =>
    simp only [sameText, if_true, charEq, Bool.not_true, Bool.false_eq_true, if_false,
      beq_iff_eq]
    rw [List.forall₂_eq_eq_eq]
    exact eq_comm
  | false =>
    simp only [sameText, Bool.false_eq_true, if_false, charEq, Bool.not_false, if_true,
      beq_iff_eq]
    constructor
    · intro h
      induction h with
      | nil => rfl
      | cons hab _ ih => simp [hab, ih]
    · intro h
      induction p generalizing pre with
      | nil =>
        cases pre with
        | nil => exact List.Forall₂.nil
        | cons a l => simp at h
      | cons c p ih =>
        cases pre with
        | nil => simp at h
        | cons a l =>
          simp only [List.map_cons, List.cons.injEq] at h
          exact List.Forall₂.cons h.1.symm (ih l h.2)

theorem forall2_snoc (R : Char → Char → Prop) (q : List Char) (c : Char) (pre : List Char)
    (h : List.Forall₂ R (q ++ [c]) pre) : ∃ q2 x, pre = q2 ++ [x] ∧ R c x := by
  induction q generalizing pre with
  | nil =>
    cases h with
    | cons hcx hnil =>
      cases hnil
      exact ⟨[], _, rfl, hcx⟩
  | cons a q ih =>
    cases h with
    | cons _ htl =>
      obtain ⟨q2, x, hq2, hx⟩ := ih _ htl
      exact ⟨_ :: q2, x, by rw [hq2]; rfl, hx⟩

theorem static_match_iff (canon : Char → Char) (hcanon : CanonOK canon)
    (caseSensitive : Bool) (p pathname : List Char) :
    (∃ pre rest, pathname = pre ++ rest ∧
        List.Forall₂ (fun a b => charEq canon (!caseSensitive) a b = true) p pre ∧
        ∀ x ∈ rest, charEq canon (!caseSensitive) '/' x = true) ↔
      ∃ k, sameText canon caseSensitive pathname (p ++ List.replicate k '/') := by
  constructor
  · rintro ⟨pre, rest, hin, hf, hr⟩
    have hrest : rest = List.replicate rest.length '/' := by
      rw [List.eq_replicate_iff]
      exact ⟨rfl, fun x hx => charEq_slash canon hcanon _ x (hr x hx)⟩
    have hpre := (forall2_charEq_iff canon caseSensitive p pre).mp hf
    refine ⟨rest.length, ?_⟩
    rw [hin]
    unfold sameText at hpre ⊢
    split
    · rename_i hcs
      rw [if_pos hcs] at hpre
      rw [hpre, ← hrest]
    · rename_i hcs
      rw [if_neg hcs] at hpre
      rw [List.map_append, List.map_append, hpre, ← hrest]
  · rintro ⟨k, hk⟩
    cases caseSensitive with
    | true =>
      simp only [sameText, if_true] at hk
      refine ⟨p, List.replicate k '/', hk, ?_, ?_⟩
      · exact (forall2_charEq_iff canon true p p).mpr (by simp [sameText])
      · intro x hx
        rw [List.eq_of_mem_replicate hx]
        simp [charEq]
    | false =>
      simp only [sameText, Bool.false_eq_true, if_false] at hk
      refine ⟨pathname.take p.length, pathname.drop p.length,
        (List.take_append_drop _ _).symm, ?_, ?_⟩
      · apply (forall2_charEq_iff canon false p _).mpr
        simp only [sameText, Bool.false_eq_true, if_false]
        rw [List.map_take, hk, List.map_append, List.take_left']
        simp
      · intro x hx
        have hd : (pathname.drop p.length).map canon = List.replicate k (canon '/') := by
          rw [List.map_drop, hk, List.map_append, List.drop_left']
          · simp
          · simp
        have hx2 : canon x ∈ List.replicate k (canon '/') := by
          rw [← hd]; exact List.mem_map_of_mem canon hx
        simp [charEq, List.eq_of_mem_replicate hx2]

/-- C8: for a static pattern '/s1/.../sn' (n >= 1, segments non-empty strings
of letters, digits, '_' or '-') and end = true, matchPath is non-null iff the
pathname equals the pattern followed by zero or more '/', compared
case-insensitively unless caseSensitive is true, and is null otherwise; a
match has empty params, the whole input as pathname, and the input without
its trailing slashes as pathnameBase. -/
theorem pg_static (canon : Char → Char) (hcanon : CanonOK canon)
    (segs : List (List Char)) (hne : segs ≠ []) (hsegs : ∀ s ∈ segs, isStaticSegment s)
    (caseSensitive : Bool) (pathname : List Char) :
    ((∃ m, pg canon ⟨staticPattern segs, caseSensitive, true⟩ pathname = Except.ok (some m)) ↔
      ∃ k, sameText canon caseSensitive pathname
        (staticPattern segs ++ List.replicate k '/')) ∧
    ((¬ ∃ k, sameText canon caseSensitive pathname
        (staticPattern segs ++ List.replicate k '/')) →
      pg canon ⟨staticPattern segs, caseSensitive, true⟩ pathname = Except.ok none) ∧
    (∀ m, pg canon ⟨staticPattern segs, caseSensitive, true⟩ pathname = Except.ok (some m) →
      m.params = [] ∧ m.pathname = pathname ∧
      m.pathnameBase = dropTrailing '/' pathname) := by
  have hpg : pg canon ⟨staticPattern segs, caseSensitive, true⟩ pathname =
      match matchItems canon (!caseSensitive) Tail.slashesEnd
          ((staticPattern segs).map (fun c => ⟨Atom.char c, Quant.once⟩)) pathname with
      | none => Except.ok none
      | some o => Except.ok (some (PathMatch.mk [] o.text (stripTrailingSlashes o.text)
          ⟨staticPattern segs, caseSensitive, true⟩)) := by
    unfold pg
    simp only [mg_static segs hne hsegs caseSensitive, regexMatch]
    cases matchItems canon (!caseSensitive) Tail.slashesEnd
        ((staticPattern segs).map (fun c => ⟨Atom.char c, Quant.once⟩)) pathname with
    | none => rfl
    | some o => rfl
  have hiff := static_match_iff canon hcanon caseSensitive (staticPattern segs) pathname
  have hsome : ∀ m, pg canon ⟨staticPattern segs, caseSensitive, true⟩ pathname
      = Except.ok (some m) →
      matchItems canon (!caseSensitive) Tail.slashesEnd
          ((staticPattern segs).map (fun c => ⟨Atom.char c, Quant.once⟩)) pathname
        = some ⟨pathname, []⟩ ∧
      m = PathMatch.mk [] pathname (stripTrailingSlashes pathname)
            ⟨staticPattern segs, caseSensitive, true⟩ := by
    intro m hm
    rw [hpg] at hm
    cases hM : matchItems canon (!caseSensitive) Tail.slashesEnd
        ((staticPattern segs).map (fun c => ⟨Atom.char c, Quant.once⟩)) pathname with
    | none => rw [hM] at hm; exact absurd hm (by simp)
    | some o =>
      rw [hM] at hm
      have ho := (matchItems_lits_some canon _ _ pathname o hM).1
      subst ho
      exact ⟨rfl, (Option.some.inj (Except.ok.inj hm)).symm⟩
  refine ⟨⟨?_, ?_⟩, ?_, ?_⟩
  · rintro ⟨m, hm⟩
    exact hiff.mp (matchItems_lits_some canon _ _ pathname _ (hsome m hm).1).2
  · intro hk
    obtain ⟨pre, rest, hin, hf, hr⟩ := hiff.mpr hk
    rw [hpg, hin, matchItems_lits_of canon _ _ pre rest hf hr]
    exact ⟨_, rfl⟩
  · intro hk
    rw [hpg]
    cases hM : matchItems canon (!caseSensitive) Tail.slashesEnd
        ((staticPattern segs).map (fun c => ⟨Atom.char c, Quant.once⟩)) pathname with
    | none => rfl
    | some o => exact absurd (hiff.mp (matchItems_lits_some canon _ _ pathname o hM).2) hk
  · intro m hm
    obtain ⟨hM, rfl⟩ := hsome m hm
    refine ⟨rfl, rfl, ?_⟩
    obtain ⟨pre, rest, hin, hf, hr⟩ := (matchItems_lits_some canon _ _ pathname _ hM).2
    obtain ⟨q, c, hq, hc⟩ := staticPattern_last segs hne hsegs
    rw [hq] at hf
    obtain ⟨q2, x, rfl, hcx⟩ := forall2_snoc _ q c pre hf
    have hx := charEq_name canon hcanon _ c x hc hcx
    have hrest : rest = List.replicate rest.length '/' := by
      rw [List.eq_replicate_iff]
      exact ⟨rfl, fun y hy => charEq_slash canon hcanon _ y (hr y hy)⟩
    show stripTrailingSlashes pathname = dropTrailing '/' pathname
    rw [hin, hrest, stripTrailingSlashes_static q2 x _ hx.1 hx.2,
      dropTrailing_static q2 x _ hx.1]

theorem lookup_mem_snd {α β : Type} [BEq α] (l : List (α × β)) (a : α) (b : β)
    (h : l.lookup a = some b) : b ∈ l.map Prod.snd := by
  induction l with
  | nil => simp [List.lookup] at h
  | cons p l ih =>
    obtain ⟨k, v⟩ := p
    simp only [List.lookup] at h
    split at h
    · simp only [Option.some.injEq] at h
      simp [h]
    · simp only [List.map_cons, List.mem_cons]
      exact Or.inr (ih h)

theorem asciiUpper_canonOK : CanonOK asciiUpper := by
  intro x y hx hxy
  have hfix : asciiUpper x = x := by
    rcases hx with rfl | hx
    · decide
    · simp only [isLineTerminator, Bool.or_eq_true, beq_iff_eq] at hx
      rcases hx with ((rfl | rfl) | rfl) | rfl <;> decide
  rw [hfix] at hxy
  unfold asciiUpper at hxy
  split at hxy
  · rename_i u hu
    have hmem := lookup_mem_snd _ y u hu
    have hup : u ∈ upperLetters := by
      have hz : ("abcdefghijklmnopqrstuvwxyz".toList.zip upperLetters).map Prod.snd
          = upperLetters := by decide
      rw [hz] at hmem
      exact hmem
    rw [hxy] at hup
    exfalso
    rcases hx with rfl | hx
    · exact absurd hup (by decide)
    · simp only [isLineTerminator, Bool.or_eq_true, beq_iff_eq] at hx
      rcases hx with ((rfl | rfl) | rfl) | rfl <;> exact absurd hup (by decide)
  · exact hxy

/-- Witness for C8: the pattern `/users/new` against `/Users/NEW//`, with
ASCII case folding. -/
theorem pg_static_witness :
    CanonOK asciiUpper ∧
    (∀ m, pg asciiUpper ⟨"/users/new".toList, false, true⟩ "/Users/NEW//".toList
        = Except.ok (some m) →
      m.params = [] ∧ m.pathname = "/Users/NEW//".toList ∧
      m.pathnameBase = dropTrailing '/' "/Users/NEW//".toList) ∧
    pg asciiUpper ⟨"/users/new".toList, false, true⟩ "/Users/NEW//".toList
      = Except.ok (some ⟨[], "/Users/NEW//".toList, "/Users/NEW".toList,
          ⟨"/users/new".toList, false, true⟩⟩) :=
  ⟨asciiUpper_canonOK,
   (pg_static asciiUpper asciiUpper_canonOK ["users".toList, "new".toList] (by decide)
      (by
        intro s hs
        simp only [List.mem_cons, List.mem_singleton, List.not_mem_nil, or_false] at hs
        rcases hs with rfl | rfl
        · exact ⟨by decide, by decide⟩
        · exact ⟨by decide, by decide⟩)
      false "/Users/NEW//".toList).2.2,
   by rfl⟩

/-! ### The link-click filter -/

theorem findAnchorInPath_eq (n : List DomNode) : findAnchorInPath n = n.find? isAnchor := by
  unfold findAnchorInPath
  congr 1
  funext l
  unfold isAnchor
  cases l.nodeName with
  | none => rfl
  | some nm =>
    cases nm with
    | nil => rfl
    | cons a as => simp

theorem walkToAnchor_nodes (t : List DomNode) (h : ∀ n ∈ t, n.nodeName ≠ none) :
    walkToAnchor t = Except.ok (t.find? isAnchor) := by
  induction t with
  | nil => rfl
  | cons n rest ih =>
    have hn := h n (List.mem_cons_self _ _)
    have hrest := ih (fun m hm => h m (List.mem_cons_of_mem _ hm))
    cases hnm : n.nodeName with
    | none => exact absurd hnm hn
    | some nm =>
      by_cases ha : toLowerCase nm = ['a']
      · simp [walkToAnchor, hnm, ha, List.find?, isAnchor]
      · have hb : (toLowerCase nm == ['a']) = false := by simpa using ha
        simp [walkToAnchor, hnm, ha, List.find?, isAnchor, hrest, hb]

theorem walkToAnchor_anchor (l : DomNode) (h : isAnchor l = true) :
    walkToAnchor [l] = Except.ok (some l) := by
  unfold isAnchor at h
  cases hnm : l.nodeName with
  | none => rw [hnm] at h; exact absurd h (by simp)
  | some nm =>
    rw [hnm] at h
    simp only [beq_iff_eq] at h
    simp [walkToAnchor, hnm, h]

theorem ly_anchor (e : ClickEvent) (h : ∀ n ∈ e.target, n.nodeName ≠ none) :
    walkToAnchor (match findAnchorInPath e.composedPath with
      | some l => [l]
      | none => e.target) = Except.ok (anchorOf e) := by
  rw [findAnchorInPath_eq]
  unfold anchorOf
  cases hf : e.composedPath.find? isAnchor with
  | none => exact walkToAnchor_nodes _ h
  | some l => exact walkToAnchor_anchor l (List.find?_some hf)

theorem contains_iff_mem_str (l : List (List Char)) (a : List Char) :
    l.contains a = true ↔ a ∈ l := List.elem_iff

theorem ly_eq (newURL : List Char → List Char → Except JsError (List Char))
    (page : Page) (e : ClickEvent) (h : ∀ n ∈ e.target, n.nodeName ≠ none) :
    (ly newURL page e).2 =
      if e.defaultPrevented || e.button ≠ 0 || e.shiftKey || e.ctrlKey || e.altKey
          || e.metaKey then Except.ok none
      else
        match anchorOf e with
        | none => Except.ok none
        | some r =>
          if (!r.target.isEmpty && toLowerCase r.target ≠ "_self".toList) ||
              r.attributes.contains "download".toList ||
              r.attributes.contains "router-ignore".toList then Except.ok none
          else if r.pathname = page.pathname ∧ r.hash ≠ [] then Except.ok none
          else if (if r.origin.isEmpty then iy r else r.origin) = page.origin then
            match newURL r.href r.baseURI with
            | Except.error err => Except.error err
            | Except.ok href => Except.ok (lm page.baseURI href)
          else Except.ok none := by
  unfold ly
  split
  · rfl
  · simp only [ly_anchor e h]
    cases anchorOf e with
    | none => rfl
    | some r =>
      simp only
      by_cases h1 : ((!r.target.isEmpty && toLowerCase r.target ≠ "_self".toList) ||
          r.attributes.contains "download".toList ||
          r.attributes.contains "router-ignore".toList) = true
      · rw [if_pos h1, if_pos h1]
      · rw [if_neg h1, if_neg h1]
        by_cases h2 : r.pathname = page.pathname ∧ r.hash ≠ []
        · rw [if_pos h2, if_pos h2]
        · rw [if_neg h2, if_neg h2]
          by_cases h3 : (if r.origin.isEmpty then iy r else r.origin) = page.origin
          · rw [if_pos h3, if_pos h3]
            cases newURL r.href r.baseURI <;> rfl
          · rw [if_neg h3, if_neg h3]

/-- The part of C7 that holds: for a click whose target and ancestors are DOM
nodes (each has a nodeName) and whose anchor has an absolute serialised href,
`ly` returns a path exactly when the click is navigable and the href starts
with document.baseURI, the path is then '/' followed by the rest of the href,
and in every other case it returns undefined. -/
theorem ly_on_nodes (newURL : List Char → List Char → Except JsError (List Char))
    (page : Page) (e : ClickEvent) (hnodes : ∀ n ∈ e.target, n.nodeName ≠ none)
    (hurl : ∀ r, anchorOf e = some r → newURL r.href r.baseURI = Except.ok r.href) :
    (∀ p, (ly newURL page e).2 = Except.ok (some p) ↔
      ∃ r, anchorOf e = some r ∧ navigable page e r ∧
        page.baseURI.isPrefixOf r.href = true ∧
        p = '/' :: r.href.drop page.baseURI.length) ∧
    ((¬ ∃ r, anchorOf e = some r ∧ navigable page e r ∧
        page.baseURI.isPrefixOf r.href = true) →
      (ly newURL page e).2 = Except.ok none) := by
  rw [ly_eq newURL page e hnodes]
  by_cases hg : (e.defaultPrevented || e.button ≠ 0 || e.shiftKey || e.ctrlKey || e.altKey
      || e.metaKey) = true
  · rw [if_pos hg]
    refine ⟨fun p => ⟨fun h => absurd h (by simp), ?_⟩, fun _ => rfl⟩
    rintro ⟨r, _, hnav, _⟩
    exfalso
    obtain ⟨h1, h2, h3, h4, h5, h6, _⟩ := hnav
    simp [h1, h2, h3, h4, h5, h6] at hg
  · rw [if_neg hg]
    have hguard : e.defaultPrevented = false ∧ e.button = 0 ∧ e.shiftKey = false ∧
        e.ctrlKey = false ∧ e.altKey = false ∧ e.metaKey = false := by
      simp only [Bool.or_eq_true, decide_eq_true_eq, not_or, Bool.not_eq_true, ne_eq,
        not_not] at hg
      obtain ⟨⟨⟨⟨⟨a, b⟩, c⟩, d⟩, f⟩, g⟩ := hg
      exact ⟨a, b, c, d, f, g⟩
    cases ha : anchorOf e with
    | none =>
      refine ⟨fun p => ⟨fun h => absurd h (by simp), ?_⟩, fun _ => rfl⟩
      rintro ⟨r, hr, _⟩
      exact absurd hr (by simp)
    | some r =>
      simp only [hurl r ha]
      by_cases hbad : ((!r.target.isEmpty && toLowerCase r.target ≠ "_self".toList) ||
          r.attributes.contains "download".toList ||
          r.attributes.contains "router-ignore".toList) = true
      · rw [if_pos hbad]
        refine ⟨fun p => ⟨fun h => absurd h (by simp), ?_⟩, fun _ => rfl⟩
        rintro ⟨r2, hr2, hnav, _⟩
        have hrr : r2 = r := (Option.some.inj hr2).symm
        subst hrr
        obtain ⟨_, _, _, _, _, _, h7, h8, h9, _⟩ := hnav
        exfalso
        simp only [Bool.or_eq_true, Bool.and_eq_true, Bool.not_eq_true', decide_eq_true_eq,
          contains_iff_mem_str, List.isEmpty_eq_false_iff_exists_mem] at hbad
        rcases hbad with (⟨hb1, hb2⟩ | hb) | hb
        · rcases h7 with h7 | h7
          · rw [h7] at hb1
            obtain ⟨x, hx⟩ := hb1
            simp at hx
          · exact hb2 h7
        · exact h8 hb
        · exact h9 hb
      · rw [if_neg hbad]
        have hgood : (r.target = [] ∨ toLowerCase r.target = "_self".toList) ∧
            "download".toList ∉ r.attributes ∧ "router-ignore".toList ∉ r.attributes := by
          simp only [Bool.or_eq_true, Bool.and_eq_true, Bool.not_eq_true', decide_eq_true_eq,
            contains_iff_mem_str, not_or, not_and, List.isEmpty_eq_false] at hbad
          obtain ⟨⟨h1, h2⟩, h3⟩ := hbad
          refine ⟨?_, h2, h3⟩
          by_cases ht : r.target = []
          · exact Or.inl ht
          · exact Or.inr (not_not.mp (h1 ht))
        by_cases hsame : r.pathname = page.pathname ∧ r.hash ≠ []
        · rw [if_pos hsame]
          refine ⟨fun p => ⟨fun h => absurd h (by simp), ?_⟩, fun _ => rfl⟩
          rintro ⟨r2, hr2, hnav, _⟩
          have hrr : r2 = r := (Option.some.inj hr2).symm
          subst hrr
          exact absurd hsame hnav.2.2.2.2.2.2.2.2.2.1
        · rw [if_neg hsame]
          by_cases horigin : (if r.origin.isEmpty then iy r else r.origin) = page.origin
          · rw [if_pos horigin]
            have hnav : navigable page e r :=
              ⟨hguard.1, hguard.2.1, hguard.2.2.1, hguard.2.2.2.1, hguard.2.2.2.2.1,
                hguard.2.2.2.2.2, hgood.1, hgood.2.1, hgood.2.2, hsame, horigin⟩
            by_cases hpre : page.baseURI.isPrefixOf r.href = true
            · simp only [lm, hpre, if_true]
              refine ⟨fun p => ⟨fun h => ?_, ?_⟩, fun hno => ?_⟩
              · exact ⟨r, rfl, hnav, hpre, (Option.some.inj (Except.ok.inj h)).symm⟩
              · rintro ⟨r2, hr2, _, _, hp⟩
                have hrr : r2 = r := (Option.some.inj hr2).symm
                subst hrr
                rw [hp]
              · exact absurd ⟨r, rfl, hnav, hpre⟩ hno
            · simp only [lm, hpre, if_false]
              refine ⟨fun p => ⟨fun h => absurd h (by simp), ?_⟩, fun _ => rfl⟩
              rintro ⟨r2, hr2, _, hp2, _⟩
              have hrr : r2 = r := (Option.some.inj hr2).symm
              subst hrr
              exact absurd hp2 hpre
          · rw [if_neg horigin]
            refine ⟨fun p => ⟨fun h => absurd h (by simp), ?_⟩, fun _ => rfl⟩
            rintro ⟨r2, hr2, hnav, _⟩
            have hrr : r2 = r := (Option.some.inj hr2).symm
            subst hrr
            exact absurd hnav.2.2.2.2.2.2.2.2.2.2 horigin

/-- C7 (failing input): for the click event that
`window.dispatchEvent(new MouseEvent("click"))` delivers (primary button, no
modifier, target `window`, path `[window]`), `ly` does not return undefined:
the second loop reads `t.nodeName.toLowerCase()` on a target without
`nodeName` and throws a TypeError, whereas the first loop guards the same read
with `l.nodeName&&`. -/
theorem ly_window_click_throws (newURL : List Char → List Char → Except JsError (List Char))
    (page : Page) :
    (ly newURL page windowClick).2 = Except.error (JsError.other "TypeError") ∧
    anchorOf windowClick = none := by
  exact ⟨rfl, rfl⟩

/-- Witness for `ly_on_nodes`: a click on a `<span>` inside
`<a href="detail/7">` on the sample page navigates to `/detail/7`. -/
theorem ly_on_nodes_witness :
    (ly absoluteURL samplePage sampleClick).2 = Except.ok (some "/detail/7".toList) :=
  ((ly_on_nodes absoluteURL samplePage sampleClick (by decide) (fun _ _ => rfl)).1
    "/detail/7".toList).mpr
    ⟨sampleAnchor, rfl,
      ⟨rfl, rfl, rfl, rfl, rfl, rfl, Or.inl rfl, by decide, by decide, by decide, by decide⟩,
      by decide, by decide⟩

/-! ### The router: stripBasename, createPath/parsePath, resolvePathname -/

theorem drop_of_get? (e : List Char) (n : Nat) (r : Char) (h : e.get? n = some r) :
    e.drop n = r :: e.drop (n + 1) := by
  induction e generalizing n with
  | nil => simp at h
  | cons x xs ih =>
    cases n with
    | zero =>
      simp only [List.get?_cons_zero, Option.some.injEq] at h
      simp [h]
    | succ n =>
      simp only [List.get?_cons_succ] at h
      simpa using ih n h

theorem drop_of_get?_none (e : List Char) (n : Nat) (h : e.get? n = none) :
    e.drop n = [] ∧ e.length ≤ n := by
  have hl : e.length ≤ n := by
    rw [List.get?_eq_none] at h
    exact h
  exact ⟨List.drop_of_length_le hl, hl⟩

/-- C11: for basename '/' stripBasename returns the pathname unchanged; for
any other basename it is non-null exactly when the lower-cased pathname starts
with the lower-cased basename and the character right after the basename (not
counting one trailing '/' of the basename) is '/' or the end of the pathname;
the result is then the rest of the pathname from that position, or '/' when
that rest is empty, and so starts with '/'.  With basename '/app': '/app/x'
gives '/x', '/app' gives '/', '/application' gives null. -/
theorem Vn_spec (lower : List Char → List Char) (e t : List Char) :
    Vn lower e ['/'] = some e ∧
    (t ≠ ['/'] →
      (Vn lower e t ≠ none ↔
        ((lower t).isPrefixOf (lower e) = true ∧
          (e.get? (basenameEnd t) = some '/' ∨ e.length ≤ basenameEnd t))) ∧
      (∀ res, Vn lower e t = some res →
        res = (if e.drop (basenameEnd t) = [] then ['/'] else e.drop (basenameEnd t)) ∧
        res.head? = some '/')) ∧
    Vn toLowerCase "/app/x".toList "/app".toList = some "/x".toList ∧
    Vn toLowerCase "/app".toList "/app".toList = some "/".toList ∧
    Vn toLowerCase "/application".toList "/app".toList = none := by
  refine ⟨by simp [Vn], ?_, by decide, by decide, by decide⟩
  intro ht
  unfold Vn
  rw [if_neg ht]
  by_cases hp : (lower t).isPrefixOf (lower e) = true
  · simp only [hp, Bool.not_true, Bool.false_eq_true, if_false, true_and]
    cases hg : e.get? (basenameEnd t) with
    | none =>
      obtain ⟨hd, hl⟩ := drop_of_get?_none e _ hg
      simp only [hd, List.isEmpty_nil, if_true]
      refine ⟨⟨fun _ => Or.inr hl, fun _ => by simp⟩, ?_⟩
      intro res hres
      have := Option.some.inj hres
      subst this
      exact ⟨rfl, rfl⟩
    | some r =>
      have hd := drop_of_get? e _ r hg
      by_cases hr : r = '/'
      · subst hr
        simp only [hd, ne_eq, not_true_eq_false, if_false, List.isEmpty_cons, Bool.false_eq_true]
        refine ⟨⟨fun _ => Or.inl trivial, fun _ => by simp⟩, ?_⟩
        intro res hres
        have := Option.some.inj hres
        subst this
        simp
      · simp only [ne_eq, hr, not_false_eq_true, if_true]
        refine ⟨⟨fun h => absurd trivial h, ?_⟩, fun res hres => absurd hres (by simp)⟩
        rintro (h | h)
        · exact absurd (Option.some.inj h) hr
        · have : e.get? (basenameEnd t) = none := List.get?_eq_none.mpr h
          rw [this] at hg
          exact absurd hg (by simp)
  · simp only [hp, Bool.not_false, if_true]
    refine ⟨⟨fun h => absurd rfl h, fun h => absurd h.1 (by simp)⟩,
      fun res hres => absurd hres (by simp)⟩

theorem indexOf_not_mem (c : Char) (a : List Char) (h : c ∉ a) : indexOf c a = none := by
  induction a with
  | nil => rfl
  | cons x xs ih =>
    have hx : x ≠ c := fun e => h (by simp [e])
    have hxs : c ∉ xs := fun e => h (List.mem_cons_of_mem _ e)
    simp [indexOf, hx, ih hxs]

theorem indexOf_append (c : Char) (a b : List Char) (h : c ∉ a) :
    indexOf c (a ++ c :: b) = some a.length := by
  induction a with
  | nil => simp [indexOf]
  | cons x xs ih =>
    have hx : x ≠ c := fun e => h (by simp [e])
    have hxs : c ∉ xs := fun e => h (List.mem_cons_of_mem _ e)
    simp [indexOf, hx, ih hxs]

theorem Sn_of_parts (p s h : List Char) (hp : p ≠ []) (hp1 : '?' ∉ p) (hp2 : '#' ∉ p)
    (hs : s = [] ∨ ∃ s', '#' ∉ s' ∧ s = '?' :: s')
    (hh : h = [] ∨ ∃ h', h = '#' :: h') :
    Sn (p ++ s ++ h) = ⟨some p, if s = [] then none else some s,
      if h = [] then none else some h⟩ := by
  have hne : (p ++ s ++ h).isEmpty = false := by
    cases p with
    | nil => exact absurd rfl hp
    | cons a l => rfl
  have hps : '#' ∉ p ++ s := by
    intro hm
    rcases List.mem_append.mp hm with h1 | h1
    · exact hp2 h1
    · rcases hs with rfl | ⟨s', hs', rfl⟩
      · simp at h1
      · rcases List.mem_cons.mp h1 with h2 | h2
        · exact absurd h2 (by decide)
        · exact hs' h2
  have hsearch : ∀ (hash : Option (List Char)),
      (let s1 : Option (List Char) × List Char :=
        match indexOf '?' (p ++ s) with
        | some r => (some ((p ++ s).drop r), (p ++ s).take r)
        | none => (none, p ++ s)
       ({ pathname := if s1.2.isEmpty then none else some s1.2, search := s1.1,
          hash := hash } : PartialPath))
      = ⟨some p, if s = [] then none else some s, hash⟩ := by
    intro hash
    have hpe : p.isEmpty = false := by
      cases p with
      | nil => exact absurd rfl hp
      | cons a l => rfl
    rcases hs with rfl | ⟨s', _, rfl⟩
    · simp [indexOf_not_mem '?' p hp1, hpe]
    · simp [indexOf_append '?' p s' hp1, hpe]
  unfold Sn
  rw [hne]
  simp only [Bool.false_eq_true, if_false]
  rcases hh with rfl | ⟨h', rfl⟩
  · simp only [List.append_nil, indexOf_not_mem '#' _ hps, if_true]
    exact hsearch none
  · rw [indexOf_append '#' (p ++ s) h' hps]
    simp only [List.drop_left, List.take_left]
    have := hsearch (some ('#' :: h'))
    simpa using this

/-- C12: for every non-empty pathname p without '?' and '#', every search s
that is '' or '?' followed by a non-empty string without '#', and every hash h
that is '' or '#' followed by a non-empty string, parsePath(createPath({pathname:
p, search: s, hash: h})) has pathname p, has search s when s is non-empty and
no search field otherwise, and has hash h when h is non-empty and no hash field
otherwise. -/
theorem Sn_Io_roundtrip (p s h : List Char) (hp : p ≠ []) (hp1 : '?' ∉ p) (hp2 : '#' ∉ p)
    (hs : s = [] ∨ ∃ s', s' ≠ [] ∧ '#' ∉ s' ∧ s = '?' :: s')
    (hh : h = [] ∨ ∃ h', h' ≠ [] ∧ h = '#' :: h') :
    Sn (Io ⟨some p, some s, some h⟩) =
      ⟨some p, if s = [] then none else some s, if h = [] then none else some h⟩ := by
  have hIo : Io ⟨some p, some s, some h⟩ = p ++ s ++ h := by
    unfold Io
    simp only [Option.getD_some]
    rcases hs with rfl | ⟨s', hs', _, rfl⟩ <;> rcases hh with rfl | ⟨h', hh', rfl⟩
    · simp
    · have : ('#' :: h') ≠ ['#'] := by simpa using hh'
      simp [this]
    · have : ('?' :: s') ≠ ['?'] := by simpa using hs'
      simp [this]
    · have h1 : ('?' :: s') ≠ ['?'] := by simpa using hs'
      have h2 : ('#' :: h') ≠ ['#'] := by simpa using hh'
      simp [h1, h2]
  rw [hIo]
  apply Sn_of_parts p s h hp hp1 hp2
  · rcases hs with h1 | ⟨s', _, h2, h3⟩
    · exact Or.inl h1
    · exact Or.inr ⟨s', h2, h3⟩
  · rcases hh with h1 | ⟨h', _, h3⟩
    · exact Or.inl h1
    · exact Or.inr ⟨h', h3⟩

/-- Witness for C12: pathname `/a/b`, search `?x=1`, hash `#top`. -/
theorem Sn_Io_roundtrip_witness :
    Sn (Io ⟨some "/a/b".toList, some "?x=1".toList, some "#top".toList⟩) =
      ⟨some "/a/b".toList, some "?x=1".toList, some "#top".toList⟩ :=
  Sn_Io_roundtrip "/a/b".toList "?x=1".toList "#top".toList (by decide) (by decide) (by decide)
    (Or.inr ⟨"x=1".toList, by decide, by decide, rfl⟩)
    (Or.inr ⟨"top".toList, by decide, rfl⟩)

theorem splitOn_no_sep (sep : Char) (s : List Char) (h : sep ∉ s) : splitOn sep s = [s] := by
  induction s with
  | nil => rfl
  | cons c cs ih =>
    have hc : c ≠ sep := fun e => h (by simp [e])
    have hcs : sep ∉ cs := fun e => h (List.mem_cons_of_mem _ e)
    simp [splitOn, hc, ih hcs]

theorem splitOn_prefix_sep (sep : Char) (a x : List Char) (h : sep ∉ a) :
    splitOn sep (a ++ sep :: x) = a :: splitOn sep x := by
  induction a with
  | nil => simp [splitOn]
  | cons c cs ih =>
    have hc : c ≠ sep := fun e => h (by simp [e])
    have hcs : sep ∉ cs := fun e => h (List.mem_cons_of_mem _ e)
    simp [splitOn, hc, ih hcs]

theorem splitOn_joinWith (sep : Char) (segs : List (List Char)) (hne : segs ≠ [])
    (h : ∀ s ∈ segs, sep ∉ s) : splitOn sep (joinWith sep segs) = segs := by
  induction segs with
  | nil => exact absurd rfl hne
  | cons a rest ih =>
    cases rest with
    | nil => exact splitOn_no_sep sep a (h a (List.mem_cons_self _ _))
    | cons b rest =>
      show splitOn sep (a ++ sep :: joinWith sep (b :: rest)) = _
      rw [splitOn_prefix_sep sep a _ (h a (List.mem_cons_self _ _)),
        ih (by simp) (fun s hs => h s (List.mem_cons_of_mem _ hs))]

theorem joinWith_last (segs : List (List Char)) (hne : segs ≠ [])
    (h : ∀ s ∈ segs, s ≠ [] ∧ '/' ∉ s) :
    ∃ q x, joinWith '/' segs = q ++ [x] ∧ x ≠ '/' := by
  induction segs with
  | nil => exact absurd rfl hne
  | cons a rest ih =>
    cases rest with
    | nil =>
      have ha := h a (List.mem_cons_self _ _)
      refine ⟨a.dropLast, a.getLast ha.1, (List.dropLast_append_getLast ha.1).symm, ?_⟩
      intro hx
      exact ha.2 (hx ▸ List.getLast_mem ha.1)
    | cons b rest =>
      obtain ⟨q, x, hq, hx⟩ := ih (by simp) (fun s hs => h s (List.mem_cons_of_mem _ hs))
      refine ⟨a ++ '/' :: q, x, ?_, hx⟩
      show a ++ '/' :: joinWith '/' (b :: rest) = _
      rw [hq]
      simp

theorem dropTrailing_prefix (c : Char) (t : List Char) : dropTrailing c t <+: t := by
  unfold dropTrailing
  have h := List.dropWhile_suffix (fun x => x == c) (l := t.reverse)
  have h2 := List.reverse_prefix.mpr h
  rwa [List.reverse_reverse] at h2

theorem gg_start (t : List Char) (ht : t.head? = some '/') :
    (splitOn '/' (dropTrailing '/' t)).head? = some [] := by
  obtain ⟨r, hr⟩ := dropTrailing_prefix '/' t
  cases hd : dropTrailing '/' t with
  | nil => rfl
  | cons x xs =>
    rw [hd] at hr
    have hx : x = '/' := by
      rw [← hr] at ht
      simpa using ht
    subst hx
    simp [splitOn]

theorem ggStep_head (n : List (List Char)) (o : List Char) (a : List Char)
    (h : n.head? = some a) : (ggStep n o).head? = some a := by
  cases n with
  | nil => simp at h
  | cons x rest =>
    simp only [List.head?_cons, Option.some.injEq] at h
    subst h
    unfold ggStep
    split
    · split
      · rename_i hlen
        cases rest with
        | nil => simp at hlen
        | cons y ys => simp [List.dropLast]
      · rfl
    · split <;> rfl

theorem foldl_ggStep_head (l : List (List Char)) (n : List (List Char)) (a : List Char)
    (h : n.head? = some a) : (l.foldl ggStep n).head? = some a := by
  induction l generalizing n with
  | nil => exact h
  | cons o os ih => exact ih _ (ggStep_head n o a h)

theorem gg_relative (e t : List Char) :
    gg e t = (let n := (splitOn '/' e).foldl ggStep (splitOn '/' (dropTrailing '/' t))
      if n.length > 1 then joinWith '/' n else ['/']) := rfl

theorem ggStep_up (l : List (List Char)) :
    ggStep ([] :: l) ['.', '.'] = [] :: l.dropLast := by
  cases l with
  | nil => simp [ggStep]
  | cons a rest => simp [ggStep, List.dropLast]

theorem foldl_ggStep_up (k : Nat) (l : List (List Char)) :
    (List.replicate k ['.', '.']).foldl ggStep ([] :: l) = [] :: l.take (l.length - k) := by
  induction k generalizing l with
  | zero => simp
  | succ k ih =>
    rw [List.replicate_succ, List.foldl_cons, ggStep_up, ih, List.dropLast_eq_take,
      List.take_take, List.length_take]
    congr 2
    omega

/-- C13: for every `from` pathname that starts with '/' and every relative
pathname the result of resolvePathname starts with '/'; a '.' segment is
skipped; a '..' segment removes the last segment accumulated so far, and never
the root; so k >= 1 segments '..' resolved against the normalised `from`
'/s1/.../sm' give the first m - k segments of `from` when k < m and '/' when
k >= m; for example '../../..' against '/a' gives '/'. -/
theorem gg_spec (e t : List Char) :
    (t.head? = some '/' → (gg e t).head? = some '/') ∧
    gg ('.' :: '/' :: e) t = gg e t ∧
    (∀ n, ggStep n ['.'] = n) ∧
    (∀ n, ggStep n ['.', '.'] = if 1 < n.length then n.dropLast else n) ∧
    (∀ n o a, n.head? = some a → (ggStep n o).head? = some a) ∧
    (∀ (segs : List (List Char)) (k : Nat), (∀ s ∈ segs, s ≠ [] ∧ '/' ∉ s) → 1 ≤ k →
      gg (upPath k) ('/' :: joinWith '/' segs)
        = '/' :: joinWith '/' (segs.take (segs.length - k))) ∧
    gg "../../..".toList "/a".toList = "/".toList := by
  refine ⟨?_, ?_, ?_, ?_, ggStep_head, ?_, by decide⟩
  · intro ht
    have h := foldl_ggStep_head (splitOn '/' e) _ [] (gg_start t ht)
    rw [gg_relative]
    simp only
    split
    · rename_i hlen
      cases hn : (splitOn '/' e).foldl ggStep (splitOn '/' (dropTrailing '/' t)) with
      | nil => rw [hn] at hlen; simp at hlen
      | cons x rest =>
        rw [hn] at h hlen
        simp only [List.head?_cons, Option.some.injEq] at h
        subst h
        cases rest with
        | nil => simp at hlen
        | cons y ys => simp [joinWith]
    · rfl
  · rw [gg_relative, gg_relative]
    have hsp : splitOn '/' ('.' :: '/' :: e) = ['.'] :: splitOn '/' e := by
      simp [splitOn]
    rw [hsp, List.foldl_cons]
    have : ∀ n, ggStep n ['.'] = n := by
      intro n; simp [ggStep]
    rw [this]
  · intro n; simp [ggStep]
  · intro n; simp [ggStep]
  · intro segs k hsegs hk
    have hstart : splitOn '/' (dropTrailing '/' ('/' :: joinWith '/' segs)) = [] :: segs := by
      by_cases hne : segs = []
      · subst hne
        decide
      · obtain ⟨q, x, hq, hx⟩ := joinWith_last segs hne hsegs
        have hd : dropTrailing '/' ('/' :: joinWith '/' segs) = '/' :: joinWith '/' segs := by
          rw [hq]
          have := dropTrailing_static ('/' :: q) x 0 hx
          simpa using this
        rw [hd]
        have := splitOn_joinWith '/' segs hne (fun s hs => (hsegs s hs).2)
        simp [splitOn, this]
    have hup : splitOn '/' (upPath k) = List.replicate k ['.', '.'] := by
      unfold upPath
      apply splitOn_joinWith
      · cases k with
        | zero => omega
        | succ k => simp [List.replicate_succ]
      · intro s hs
        rw [List.eq_of_mem_replicate hs]
        decide
    rw [gg_relative, hstart, hup, foldl_ggStep_up]
    simp only
    cases hrest : segs.take (segs.length - k) with
    | nil => simp [joinWith]
    | cons a rest => simp [joinWith]

/-- Witness for C13: two segments '..' against '/a/b/c' give '/a'. -/
theorem gg_spec_witness :
    gg (upPath 2) "/a/b/c".toList = "/a".toList :=
  (gg_spec [] []).2.2.2.2.2.1 ["a".toList, "b".toList, "c".toList] 2
    (by decide) (by decide)

/-! ### The router: blockers -/

theorem mapGet_mapSet_same (m : BlockerMap) (g : String) (x : Blocker) :
    mapGet (mapSet m g x) g = some x := by
  induction m with
  | nil => simp [mapSet, mapGet]
  | cons p rest ih =>
    obtain ⟨k, v⟩ := p
    by_cases hk : k = g
    · simp [mapSet, mapGet, hk]
    · simp [mapSet, mapGet, hk, ih]

theorem mapGet_mapSet_other (m : BlockerMap) (g : String) (x : Blocker) (key : String)
    (h : key ≠ g) : mapGet (mapSet m g x) key = mapGet m key := by
  have hg : ¬ g = key := fun e => h e.symm
  induction m with
  | nil => simp [mapSet, mapGet, hg]
  | cons p rest ih =>
    obtain ⟨k, v⟩ := p
    by_cases hk : k = g
    · subst hk
      simp [mapSet, mapGet, hg]
    · by_cases hk2 : k = key
      · subst hk2
        simp [mapSet, mapGet, hk]
      · simp [mapSet, mapGet, hk, hk2, ih]

theorem transitionAllowed_iff (k x : String) :
    transitionAllowed k x = true ↔ (k, x) ∈ listedTransitions := by
  simp only [transitionAllowed, listedTransitions, Bool.or_eq_true, Bool.and_eq_true,
    beq_iff_eq, List.mem_cons, Prod.mk.injEq, List.mem_singleton, List.not_mem_nil, or_false]
  tauto

/-- C16: with the current state of a key taken as 'unblocked' when the key is
absent, updateBlocker(key, next) throws 'Invalid blocker state transition' iff
(current state, next state) is not one of unblocked->blocked, blocked->blocked,
blocked->proceeding, blocked->unblocked, proceeding->unblocked; when it does
not throw, the new blockers map maps that key to `next` and every other key
to what it mapped to before. -/
theorem jo_spec (h : RouterState) (g : String) (x : Blocker) :
    ((∃ e, jo h g x = Except.error e) ↔ (currentState h g, x.state) ∉ listedTransitions) ∧
    ((currentState h g, x.state) ∉ listedTransitions →
      jo h g x = Except.error (JsError.other
        ("Invalid blocker state transition: " ++ currentState h g ++ " -> " ++ x.state))) ∧
    (∀ h2, jo h g x = Except.ok h2 →
      mapGet h2.blockers g = some x ∧
      (∀ key, key ≠ g → mapGet h2.blockers key = mapGet h.blockers key) ∧
      h2.published = h.published ++ [h2.blockers]) := by
  have hcur : ((mapGet h.blockers g).getD qn).state = currentState h g := by
    unfold currentState
    cases mapGet h.blockers g <;> rfl
  have hiff := transitionAllowed_iff (currentState h g) x.state
  unfold jo
  simp only [hcur]
  by_cases ha : transitionAllowed (currentState h g) x.state = true
  · have hin := hiff.mp ha
    simp only [ha, if_true]
    refine ⟨⟨fun ⟨e, he⟩ => absurd he (by simp), fun hn => absurd hin hn⟩,
      fun hn => absurd hin hn, ?_⟩
    intro h2 hh2
    have := Except.ok.inj hh2
    subst this
    exact ⟨mapGet_mapSet_same _ _ _, fun key hk => mapGet_mapSet_other _ _ _ key hk, rfl⟩
  · have hnin : (currentState h g, x.state) ∉ listedTransitions := fun hin => ha (hiff.mpr hin)
    simp only [ha, Bool.false_eq_true, if_false]
    exact ⟨⟨fun _ => hnin, fun _ => ⟨_, rfl⟩⟩, fun _ => trivial, fun h2 hh2 => absurd hh2 (by simp)⟩

/-! ### The scheduler: the priority queue -/

theorem taskLe_refl (a : Task) : taskLe a a := Or.inr ⟨rfl, le_refl _⟩

theorem taskLe_trans {a b c : Task} (h1 : taskLe a b) (h2 : taskLe b c) : taskLe a c := by
  unfold taskLe at *
  omega

theorem taskLe_total (a b : Task) : taskLe a b ∨ taskLe b a := by
  unfold taskLe
  omega

theorem o_pos_iff (a b : Task) : 0 < o a b ↔ ¬ taskLe a b := by
  unfold o taskLe
  simp only
  split <;> omega

theorem o_neg_iff (a b : Task) : 0 > o a b ↔ ¬ taskLe b a := by
  unfold o taskLe
  simp only
  split <;> omega

theorem nth_set (P : List Task) (i k : Nat) (a : Task) :
    nth (P.set i a) k = if i = k ∧ i < P.length then a else nth P k := by
  unfold nth
  rw [List.getD_eq_getElem?_getD, List.getD_eq_getElem?_getD, List.getElem?_set]
  by_cases h1 : i = k
  · subst h1
    by_cases h2 : i < P.length
    · simp [h2]
    · have : P[i]? = none := List.getElem?_eq_none (by omega)
      simp [h2, this]
  · simp [h1]

theorem nth_append_left (P : List Task) (F : Task) (i : Nat) (h : i < P.length) :
    nth (P ++ [F]) i = nth P i := by
  unfold nth
  rw [List.getD_eq_getElem?_getD, List.getD_eq_getElem?_getD, List.getElem?_append_left h]

theorem nth_append_length (P : List Task) (F : Task) : nth (P ++ [F]) P.length = F := by
  unfold nth
  rw [List.getD_eq_getElem?_getD]
  simp

theorem nth_mem (P : List Task) (i : Nat) (h : i < P.length) : nth P i ∈ P := by
  unfold nth
  rw [List.getD_eq_getElem?_getD, List.getElem?_eq_getElem h]
  exact List.getElem_mem h

theorem set_perm_cons (l : List Task) (k : Nat) (a : Task) (h : k < l.length) :
    (nth l k :: l.set k a).Perm (a :: l) := by
  induction l generalizing k with
  | nil => simp at h
  | cons x xs ih =>
    cases k with
    | zero => exact List.Perm.swap _ _ _
    | succ k =>
      have hk : k < xs.length := by simpa using h
      have h1 : nth (x :: xs) (k + 1) = nth xs k := rfl
      rw [h1, List.set_cons_succ]
      exact (List.Perm.swap _ _ _).trans
        ((List.Perm.cons x (ih k hk)).trans (List.Perm.swap _ _ _))

theorem swap_perm (A : List Task) (q j : Nat) (hqj : q < j) (hj : j < A.length) :
    ((A.set q (nth A j)).set j (nth A q)).Perm A := by
  induction A generalizing q j with
  | nil => simp at hj
  | cons x xs ih =>
    cases j with
    | zero => omega
    | succ j =>
      have hj2 : j < xs.length := by simpa using hj
      cases q with
      | zero =>
        have h1 : nth (x :: xs) (j + 1) = nth xs j := rfl
        have h2 : nth (x :: xs) 0 = x := rfl
        rw [h1, h2, List.set_cons_zero, List.set_cons_succ]
        exact set_perm_cons xs j x hj2
      | succ q =>
        have h1 : nth (x :: xs) (j + 1) = nth xs j := rfl
        have h2 : nth (x :: xs) (q + 1) = nth xs q := rfl
        rw [h1, h2, List.set_cons_succ, List.set_cons_succ]
        exact List.Perm.cons x (ih q j (by omega) hj2)

theorem siftUp_correct (fuel : Nat) :
    ∀ (A : List Task) (F : Task) (j : Nat), j < A.length → j ≤ fuel → nth A j = F →
      upInv A j →
      isHeap (siftUp fuel A F j) ∧ (siftUp fuel A F j).Perm A := by
  induction fuel with
  | zero =>
    intro A F j _ hjf _ hinv
    have hj0 : j = 0 := by omega
    subst hj0
    refine ⟨?_, List.Perm.refl _⟩
    intro i hi h0
    exact hinv.1 i hi h0 (by omega)
  | succ fuel ih =>
    intro A F j hj hjf hF hinv
    unfold siftUp
    by_cases h0 : 0 < j
    · simp only [h0, if_true]
      have hq : (j - 1) / 2 < j := by omega
      by_cases hcmp : 0 < o (nth A ((j - 1) / 2)) F
      · simp only [hcmp, if_true]
        have hFZ : taskLe F (nth A ((j - 1) / 2)) :=
          (taskLe_total _ _).resolve_right ((o_pos_iff _ _).mp hcmp)
        have hlen : ((A.set ((j - 1) / 2) F).set j (nth A ((j - 1) / 2))).length = A.length := by
          simp
        have hnth : ∀ k, nth ((A.set ((j - 1) / 2) F).set j (nth A ((j - 1) / 2))) k
            = if k = j then nth A ((j - 1) / 2) else if k = (j - 1) / 2 then F else nth A k := by
          intro k
          rw [nth_set, nth_set]
          simp only [List.length_set]
          by_cases hk1 : k = j
          · subst hk1; simp [hj]
          · by_cases hk2 : k = (j - 1) / 2
            · subst hk2
              have : ¬ (j = (j - 1) / 2) := by omega
              simp [this, hk1, (show (j - 1) / 2 < A.length by omega)]
            · have h3 : ¬ (j = k) := fun e => hk1 e.symm
              have h4 : ¬ ((j - 1) / 2 = k) := fun e => hk2 e.symm
              simp [h3, h4, hk1, hk2]
        have hinv2 : upInv ((A.set ((j - 1) / 2) F).set j (nth A ((j - 1) / 2)))
            ((j - 1) / 2) := by
          constructor
          · intro i hi hi0 hiq
            rw [hlen] at hi
            rw [hnth, hnth]
            by_cases hij : i = j
            · subst hij
              have h5 : ¬ ((i - 1) / 2 = i) := by omega
              simp only [h5, if_false, if_true]
              exact hFZ
            · simp only [hij, hiq, if_false]
              by_cases hpj : (i - 1) / 2 = j
              · simp only [hpj, if_true]
                exact hinv.2 h0 i hi hi0 hpj
              · simp only [hpj, if_false]
                by_cases hpq : (i - 1) / 2 = (j - 1) / 2
                · simp only [hpq, if_true]
                  have := hinv.1 i hi hi0 hij
                  rw [hpq] at this
                  exact taskLe_trans hFZ this
                · simp only [hpq, if_false]
                  exact hinv.1 i hi hi0 hij
          · intro hq0 c hc hc0 hcq
            rw [hlen] at hc
            rw [hnth, hnth]
            have h6 : ¬ (((j - 1) / 2 - 1) / 2 = j) := by omega
            have h7 : ¬ (((j - 1) / 2 - 1) / 2 = (j - 1) / 2) := by omega
            simp only [h6, h7, if_false]
            have hpar := hinv.1 ((j - 1) / 2) (by omega) hq0 (by omega)
            by_cases hcj : c = j
            · simp only [hcj, if_true]
              exact hpar
            · have hcq2 : ¬ (c = (j - 1) / 2) := by omega
              simp only [hcj, hcq2, if_false]
              have := hinv.1 c hc hc0 hcj
              rw [hcq] at this
              exact taskLe_trans hpar this
        have hres := ih ((A.set ((j - 1) / 2) F).set j (nth A ((j - 1) / 2))) F ((j - 1) / 2)
          (by rw [hlen]; omega) (by omega)
          (by rw [hnth]; simp [(show ¬ ((j - 1) / 2 = j) by omega)]) hinv2
        refine ⟨hres.1, hres.2.trans ?_⟩
        have := swap_perm A ((j - 1) / 2) j hq hj
        rw [hF] at this
        exact this
      · simp only [hcmp, if_false]
        refine ⟨?_, List.Perm.refl _⟩
        intro i hi hi0
        by_cases hij : i = j
        · subst hij
          have := (o_pos_iff (nth A ((i - 1) / 2)) F)
          rw [hF]
          exact not_not.mp (fun hn => hcmp (this.mpr hn))
        · exact hinv.1 i hi hi0 hij
    · simp only [h0, if_false]
      refine ⟨?_, List.Perm.refl _⟩
      intro i hi hi0
      exact hinv.1 i hi hi0 (by omega)

theorem o_le_iff (a b : Task) : o a b ≤ 0 ↔ taskLe a b := by
  unfold o taskLe
  simp only
  split <;> omega

theorem heap_root_le (P : List Task) (h : isHeap P) :
    ∀ i, i < P.length → taskLe (nth P 0) (nth P i) := by
  intro i
  induction i using Nat.strong_induction_on with
  | _ i ih =>
    intro hi
    by_cases h0 : i = 0
    · subst h0; exact taskLe_refl _
    · have hp : (i - 1) / 2 < i := by omega
      exact taskLe_trans (ih _ hp (by omega)) (h i hi (by omega))

theorem heap_peek_least (Q : List Task) (h : isHeap Q) (m : Task) (hm : peek Q = some m) :
    ∀ x ∈ Q, taskLe m x := by
  intro x hx
  cases Q with
  | nil => simp at hx
  | cons a rest =>
    have hma : a = m := by simpa [peek] using hm
    subst hma
    obtain ⟨i, hi, rfl⟩ := List.mem_iff_getElem.mp hx
    have := heap_root_le (a :: rest) h i hi
    have h2 : nth (a :: rest) i = (a :: rest)[i] := by
      unfold nth
      rw [List.getD_eq_getElem?_getD, List.getElem?_eq_getElem hi]
      rfl
    rw [h2] at this
    exact this

theorem push_upInv (P : List Task) (F : Task) (hP : isHeap P) : upInv (P ++ [F]) P.length := by
  constructor
  · intro i hi hi0 hij
    have hi2 : i < P.length := by
      simp only [List.length_append, List.length_singleton] at hi
      omega
    rw [nth_append_left P F _ (by omega), nth_append_left P F _ hi2]
    exact hP i hi2 hi0
  · intro _ c hc hc0 hcp
    simp only [List.length_append, List.length_singleton] at hc
    omega

/-- C17: for every array with the min-heap property under the order 'smaller
sortIndex first, ties broken by smaller id' (the order of the compare function
`o`) and every node, after push the array again has the min-heap property and
holds exactly the previous elements plus the new node; and peek of an array
with the min-heap property returns an element that is least under that order. -/
theorem push_heap (P : List Task) (F : Task) (hP : isHeap P) :
    isHeap (push P F) ∧
    (push P F).Perm (F :: P) ∧
    (∃ m, peek (push P F) = some m ∧ ∀ x ∈ push P F, taskLe m x) ∧
    (∀ a b, o a b ≤ 0 ↔ taskLe a b) := by
  have h := siftUp_correct P.length (P ++ [F]) F P.length (by simp) (le_refl _)
    (nth_append_length P F) (push_upInv P F hP)
  have hperm : (push P F).Perm (F :: P) :=
    h.2.trans (List.perm_append_comm.trans (List.Perm.refl _))
  refine ⟨h.1, hperm, ?_, o_le_iff⟩
  cases hpush : push P F with
  | nil =>
    have := hperm.length_eq
    rw [hpush] at this
    simp at this
  | cons m rest =>
    refine ⟨m, rfl, ?_⟩
    have hh : isHeap (m :: rest) := by rw [← hpush]; exact h.1
    exact heap_peek_least (m :: rest) hh m rfl

/-- Witness for C17: pushing a node with sortIndex 0 on the sample heap. -/
theorem push_heap_witness :
    isHeap sampleHeap ∧ isHeap (push sampleHeap (sampleTask 5 0)) ∧
    peek (push sampleHeap (sampleTask 5 0)) = some (sampleTask 5 0) :=
  ⟨by decide, (push_heap sampleHeap (sampleTask 5 0) (by decide)).1, by decide⟩

theorem swapped_nth (A : List Task) (q m : Nat) (hqm : q < m) (hm : m < A.length)
    (M j : Task) (k : Nat) :
    nth ((A.set q M).set m j) k = if k = m then j else if k = q then M else nth A k := by
  rw [nth_set, nth_set]
  simp only [List.length_set]
  by_cases hk1 : k = m
  · subst hk1; simp [hm]
  · by_cases hk2 : k = q
    · subst hk2
      have h1 : ¬ (m = k) := by omega
      simp [h1, hk1, (show k < A.length by omega)]
    · have h3 : ¬ (m = k) := fun e => hk1 e.symm
      have h4 : ¬ (q = k) := fun e => hk2 e.symm
      simp [h3, h4, hk1, hk2]

theorem down_step (A : List Task) (q m : Nat) (j : Task) (hm : m < A.length)
    (hpar : (m - 1) / 2 = q) (hm0 : 0 < m) (hj : nth A q = j)
    (hMj : taskLe (nth A m) j)
    (hsmall : ∀ c, c < A.length → 0 < c → (c - 1) / 2 = q → taskLe (nth A m) (nth A c))
    (hinv : downInv A q) :
    downInv ((A.set q (nth A m)).set m j) m ∧
    nth ((A.set q (nth A m)).set m j) m = j ∧
    ((A.set q (nth A m)).set m j).Perm A := by
  have hqm : q < m := by omega
  have hnth := swapped_nth A q m hqm hm (nth A m) j
  refine ⟨⟨?_, ?_⟩, by rw [hnth]; simp, ?_⟩
  · intro i hi hi0 hpi
    simp only [List.length_set] at hi
    rw [hnth, hnth]
    simp only [hpi, if_false]
    by_cases him : i = m
    · subst him
      simp only [hpar, if_true]
      exact hMj
    · simp only [him, if_false]
      by_cases hiq : i = q
      · subst hiq
        have h1 : ¬ ((i - 1) / 2 = i) := by omega
        simp only [h1, if_false, if_true]
        exact hinv.2 hi0 m hm hm0 hpar
      · simp only [hiq, if_false]
        by_cases hpq : (i - 1) / 2 = q
        · simp only [hpq, if_true]
          exact hsmall i hi hi0 hpq
        · simp only [hpq, if_false]
          exact hinv.1 i hi hi0 hpq
  · intro _ c hc hc0 hcm
    simp only [List.length_set] at hc
    rw [hnth, hnth]
    have h1 : ¬ (c = m) := by omega
    have h2 : ¬ (c = q) := by omega
    have h3 : ¬ (q = m) := by omega
    simp only [h1, h2, h3, hpar, if_false, if_true]
    have := hinv.1 c hc hc0 (by omega)
    rw [hcm] at this
    exact this
  · have := swap_perm A q m hqm hm
    rw [hj] at this
    exact this

theorem siftDown_correct (fuel : Nat) :
    ∀ (A : List Task) (j : Task) (q : Nat), q < A.length → A.length ≤ fuel + q →
      nth A q = j → downInv A q →
      isHeap (siftDown fuel A j q) ∧ (siftDown fuel A j q).Perm A := by
  induction fuel with
  | zero =>
    intro A j q hq hf _ _
    omega
  | succ fuel ih =>
    intro A j q hq hf hj hinv
    unfold siftDown
    simp only
    by_cases hQ : q < A.length / 2
    · simp only [hQ, if_true]
      have hUe : 2 * (q + 1) - 1 < A.length := by omega
      have hUpar : (2 * (q + 1) - 1 - 1) / 2 = q := by omega
      have hLpar : (2 * (q + 1) - 1 + 1 - 1) / 2 = q := by omega
      have hchild : ∀ c, c < A.length → 0 < c → (c - 1) / 2 = q →
          c = 2 * (q + 1) - 1 ∨ (c = 2 * (q + 1) - 1 + 1 ∧ 2 * (q + 1) - 1 + 1 < A.length) := by
        intro c hc hc0 hcq
        omega
      by_cases h1 : 0 > o (nth A (2 * (q + 1) - 1)) j
      · simp only [h1, if_true]
        have hjej : taskLe (nth A (2 * (q + 1) - 1)) j :=
          (taskLe_total _ _).resolve_right ((o_neg_iff _ _).mp h1)
        by_cases h2 : 2 * (q + 1) - 1 + 1 < A.length ∧
            0 > o (nth A (2 * (q + 1) - 1 + 1)) (nth A (2 * (q + 1) - 1))
        · simp only [h2, and_self, if_true]
          have hsj : taskLe (nth A (2 * (q + 1) - 1 + 1)) (nth A (2 * (q + 1) - 1)) :=
            (taskLe_total _ _).resolve_right ((o_neg_iff _ _).mp h2.2)
          obtain ⟨hi1, hi2, hi3⟩ := down_step A q (2 * (q + 1) - 1 + 1) j h2.1 hLpar
            (by omega) hj (taskLe_trans hsj hjej)
            (by
              intro c hc hc0 hcq
              rcases hchild c hc hc0 hcq with rfl | ⟨rfl, _⟩
              · exact hsj
              · exact taskLe_refl _)
            hinv
          have hres := ih _ j (2 * (q + 1) - 1 + 1) (by simpa using h2.1)
            (by simp only [List.length_set]; omega) hi2 hi1
          exact ⟨hres.1, hres.2.trans hi3⟩
        · simp only [h2, if_false]
          obtain ⟨hi1, hi2, hi3⟩ := down_step A q (2 * (q + 1) - 1) j hUe hUpar
            (by omega) hj hjej
            (by
              intro c hc hc0 hcq
              rcases hchild c hc hc0 hcq with rfl | ⟨rfl, hlt⟩
              · exact taskLe_refl _
              · have hn : ¬ (0 > o (nth A (2 * (q + 1) - 1 + 1)) (nth A (2 * (q + 1) - 1))) :=
                  fun hh => h2 ⟨hlt, hh⟩
                exact not_not.mp (fun hle => hn ((o_neg_iff _ _).mpr hle)))
            hinv
          have hres := ih _ j (2 * (q + 1) - 1) (by simpa using hUe)
            (by simp only [List.length_set]; omega) hi2 hi1
          exact ⟨hres.1, hres.2.trans hi3⟩
      · simp only [h1, if_false]
        have hjje : taskLe j (nth A (2 * (q + 1) - 1)) :=
          not_not.mp (fun hle => h1 ((o_neg_iff _ _).mpr hle))
        by_cases h2 : 2 * (q + 1) - 1 + 1 < A.length ∧ 0 > o (nth A (2 * (q + 1) - 1 + 1)) j
        · simp only [h2, and_self, if_true]
          have hsj : taskLe (nth A (2 * (q + 1) - 1 + 1)) j :=
            (taskLe_total _ _).resolve_right ((o_neg_iff _ _).mp h2.2)
          obtain ⟨hi1, hi2, hi3⟩ := down_step A q (2 * (q + 1) - 1 + 1) j h2.1 hLpar
            (by omega) hj hsj
            (by
              intro c hc hc0 hcq
              rcases hchild c hc hc0 hcq with rfl | ⟨rfl, _⟩
              · exact taskLe_trans hsj hjje
              · exact taskLe_refl _)
            hinv
          have hres := ih _ j (2 * (q + 1) - 1 + 1) (by simpa using h2.1)
            (by simp only [List.length_set]; omega) hi2 hi1
          exact ⟨hres.1, hres.2.trans hi3⟩
        · simp only [h2, if_false]
          refine ⟨?_, List.Perm.refl _⟩
          intro i hi hi0
          by_cases hpq : (i - 1) / 2 = q
          · rw [hpq, hj]
            rcases hchild i hi hi0 hpq with rfl | ⟨rfl, hlt⟩
            · exact hjje
            · have hn : ¬ (0 > o (nth A (2 * (q + 1) - 1 + 1)) j) := fun hh => h2 ⟨hlt, hh⟩
              exact not_not.mp (fun hle => hn ((o_neg_iff _ _).mpr hle))
          · exact hinv.1 i hi hi0 hpq
    · simp only [hQ, if_false]
      refine ⟨?_, List.Perm.refl _⟩
      intro i hi hi0
      exact hinv.1 i hi hi0 (by omega)

theorem nth_dropLast (P : List Task) (k : Nat) (h : k < P.length - 1) :
    nth P.dropLast k = nth P k := by
  unfold nth
  rw [List.getD_eq_getElem?_getD, List.getD_eq_getElem?_getD, List.dropLast_eq_take,
    List.getElem?_take_of_lt h]

/-- C18: on an empty array pop returns null and leaves the array empty; on a
non-empty array with the min-heap property whose nodes have pairwise distinct
ids it returns the node that is least under (sortIndex, then id), and
afterwards the array holds exactly the other nodes and again has the min-heap
property. -/
theorem pop_spec (P : List Task) (hne : P ≠ []) (hP : isHeap P)
    (hid : (P.map (fun t => t.id)).Nodup) :
    pop [] = (none, []) ∧
    ∃ F, (pop P).1 = some F ∧ F ∈ P ∧ (∀ x ∈ P, taskLe F x) ∧
      P.Perm (F :: (pop P).2) ∧ isHeap (pop P).2 := by
  refine ⟨rfl, ?_⟩
  cases P with
  | nil => exact absurd rfl hne
  | cons F rest =>
    have hleast := heap_peek_least (F :: rest) hP F rfl
    cases rest with
    | nil =>
      refine ⟨F, by simp [pop], by simp, hleast, by simp [pop], ?_⟩
      intro i hi
      simp [pop] at hi
    | cons r rs =>
      have hlast_mem : (r :: rs).getLast (List.cons_ne_nil r rs) ∈ r :: rs :=
        List.getLast_mem _
      have hjF : (F :: r :: rs).getLast (List.cons_ne_nil F (r :: rs)) ≠ F := by
        rw [List.getLast_cons (List.cons_ne_nil r rs)]
        intro he
        rw [List.map_cons, List.nodup_cons] at hid
        apply hid.1
        rw [← he]
        exact List.mem_map_of_mem (fun t => t.id) hlast_mem
      have hpop : pop (F :: r :: rs) =
          (some F, siftDown (F :: (r :: rs).dropLast).length
            (((r :: rs).getLast (List.cons_ne_nil r rs)) :: (r :: rs).dropLast)
            ((r :: rs).getLast (List.cons_ne_nil r rs)) 0) := by
        unfold pop
        simp only
        rw [if_pos hjF]
        simp [List.getLast_cons (List.cons_ne_nil r rs), List.dropLast_cons_of_ne_nil]
      have hinv : downInv (((r :: rs).getLast (List.cons_ne_nil r rs)) :: (r :: rs).dropLast)
          0 := by
        constructor
        · intro i hi hi0 hpi
          have hlen : i < (F :: r :: rs).length - 1 := by
            simp only [List.length_cons, List.length_dropLast] at hi ⊢
            omega
          have e1 : ∀ k, 0 < k → k < (F :: r :: rs).length - 1 →
              nth (((r :: rs).getLast (List.cons_ne_nil r rs)) :: (r :: rs).dropLast) k
                = nth (F :: r :: rs) k := by
            intro k hk0 hk
            obtain ⟨k2, rfl⟩ : ∃ k2, k = k2 + 1 := ⟨k - 1, by omega⟩
            have := nth_dropLast (F :: r :: rs) (k2 + 1) hk
            rw [List.dropLast_cons_of_ne_nil (List.cons_ne_nil r rs)] at this
            exact this
          rw [e1 _ (by omega) (by omega), e1 i hi0 hlen]
          exact hP i (by simp only [List.length_cons] at hlen ⊢; omega) hi0
        · intro h0
          omega
      have hres := siftDown_correct (F :: (r :: rs).dropLast).length
        (((r :: rs).getLast (List.cons_ne_nil r rs)) :: (r :: rs).dropLast)
        ((r :: rs).getLast (List.cons_ne_nil r rs)) 0 (by simp) (by simp) rfl hinv
      rw [hpop]
      refine ⟨F, rfl, by simp, hleast, ?_, hres.1⟩
      simp only
      refine List.Perm.trans ?_ (List.Perm.cons F hres.2.symm)
      apply List.Perm.cons
      have h1 := List.dropLast_append_getLast (List.cons_ne_nil r rs)
      conv_lhs => rw [← h1]
      exact List.perm_append_comm

/-- Witness for C18: pop on the sample heap returns the node with sortIndex 1. -/
theorem pop_spec_witness :
    (pop sampleHeap).1 = some (sampleTask 4 1) ∧ isHeap (pop sampleHeap).2 :=
  have h := (pop_spec sampleHeap (by decide) (by decide) (by decide)).2
  ⟨by decide, by
    obtain ⟨_, _, _, _, _, h5⟩ := h
    exact h5⟩

/-! ### The scheduler: scheduling a callback -/

theorem unstable_scheduleCallback_task (st : Scheduler) (q P : Int) (F : Option Nat)
    (j : ScheduleOptions) :
    (unstable_scheduleCallback st q P F j).1 =
      { id := st.taskIdCounter, callback := F, priorityLevel := P,
        startTime := scheduleStart q j,
        expirationTime := scheduleStart q j + priorityTimeout P,
        sortIndex := if scheduleStart q j > q then scheduleStart q j
          else scheduleStart q j + priorityTimeout P } := by
  unfold unstable_scheduleCallback
  simp only
  split
  · split <;> rfl
  · split <;> rfl

theorem unstable_scheduleCallback_state (st : Scheduler) (q P : Int) (F : Option Nat)
    (j : ScheduleOptions) :
    (unstable_scheduleCallback st q P F j).2.taskIdCounter = st.taskIdCounter + 1 ∧
    (unstable_scheduleCallback st q P F j).2.timerQueue =
      (if scheduleStart q j > q then
        push st.timerQueue (unstable_scheduleCallback st q P F j).1
       else st.timerQueue) ∧
    (unstable_scheduleCallback st q P F j).2.taskQueue =
      (if scheduleStart q j > q then st.taskQueue
       else push st.taskQueue (unstable_scheduleCallback st q P F j).1) := by
  rw [unstable_scheduleCallback_task]
  unfold unstable_scheduleCallback
  simp only
  by_cases h : scheduleStart q j > q
  · simp only [h, if_true]
    split
    · split <;> exact ⟨rfl, rfl, rfl⟩
    · exact ⟨rfl, rfl, rfl⟩
  · simp only [h, if_false]
    split
    · exact ⟨rfl, rfl, rfl⟩
    · unfold St
      simp only
      split <;> exact ⟨rfl, rfl, rfl⟩

/-- C19: for unstable_scheduleCallback(priority, callback, options) called at
time `now`: startTime is now + options.delay when options is an object whose
delay is a number greater than 0, and now otherwise; expirationTime is
startTime + timeout with timeout -1 for priority 1, 250 for 2, 10000 for 4,
1073741823 for 5 and 5000 for every other priority; a task with startTime >
now is pushed to the timer queue with sortIndex = startTime, every other task
to the task queue with sortIndex = expirationTime; and the task gets the
current id counter, which the call increases by one, so the ids of two
successive calls strictly increase. -/
theorem unstable_scheduleCallback_spec (st : Scheduler) (now P : Int) (F : Option Nat)
    (opts : ScheduleOptions) :
    (unstable_scheduleCallback st now P F opts).1.startTime =
      (match opts with
       | ScheduleOptions.object (some d) => if 0 < d then now + d else now
       | _ => now) ∧
    (unstable_scheduleCallback st now P F opts).1.expirationTime =
      (unstable_scheduleCallback st now P F opts).1.startTime +
        (if P = 1 then -1 else if P = 2 then 250 else if P = 4 then 10000
         else if P = 5 then 1073741823 else 5000) ∧
    (if (unstable_scheduleCallback st now P F opts).1.startTime > now then
      (unstable_scheduleCallback st now P F opts).1.sortIndex =
        (unstable_scheduleCallback st now P F opts).1.startTime ∧
      (unstable_scheduleCallback st now P F opts).2.timerQueue =
        push st.timerQueue (unstable_scheduleCallback st now P F opts).1 ∧
      (unstable_scheduleCallback st now P F opts).2.taskQueue = st.taskQueue
     else
      (unstable_scheduleCallback st now P F opts).1.sortIndex =
        (unstable_scheduleCallback st now P F opts).1.expirationTime ∧
      (unstable_scheduleCallback st now P F opts).2.taskQueue =
        push st.taskQueue (unstable_scheduleCallback st now P F opts).1 ∧
      (unstable_scheduleCallback st now P F opts).2.timerQueue = st.timerQueue) ∧
    (unstable_scheduleCallback st now P F opts).1.id = st.taskIdCounter ∧
    (unstable_scheduleCallback st now P F opts).2.taskIdCounter = st.taskIdCounter + 1 ∧
    (∀ (now2 P2 : Int) (F2 : Option Nat) (opts2 : ScheduleOptions),
      (unstable_scheduleCallback st now P F opts).1.id <
        (unstable_scheduleCallback (unstable_scheduleCallback st now P F opts).2
          now2 P2 F2 opts2).1.id) := by
  have ht := unstable_scheduleCallback_task st now P F opts
  have hs := unstable_scheduleCallback_state st now P F opts
  refine ⟨?_, ?_, ?_, ?_, hs.1, ?_⟩
  · rw [ht]
    rfl
  · rw [ht]
    simp only [priorityTimeout]
    by_cases h1 : P = 1
    · simp [h1]
    · by_cases h2 : P = 2
      · simp [h2]
      · by_cases h5 : P = 5
        · simp [h5]
        · by_cases h4 : P = 4
          · simp [h4]
          · simp [h1, h2, h4, h5]
  · by_cases h : scheduleStart now opts > now
    · have h' : (unstable_scheduleCallback st now P F opts).1.startTime > now := by
        rw [ht]; exact h
      rw [if_pos h']
      refine ⟨?_, ?_, ?_⟩
      · rw [ht]; simp [h]
      · rw [hs.2.1, if_pos h]
      · rw [hs.2.2, if_pos h]
    · have h' : ¬ (unstable_scheduleCallback st now P F opts).1.startTime > now := by
        rw [ht]; exact h
      rw [if_neg h']
      refine ⟨?_, ?_, ?_⟩
      · rw [ht]; simp [h]
      · rw [hs.2.2, if_neg h]
      · rw [hs.2.1, if_neg h]
  · rw [ht]
  · intro now2 P2 F2 opts2
    rw [unstable_scheduleCallback_task
      (unstable_scheduleCallback st now P F opts).2 now2 P2 F2 opts2, ht]
    simp only [hs.1]
    omega

/-! ### React createElement -/

theorem getOwn_setOwn (o : Props) (k k2 : String) (v : PropVal) :
    getOwn (setOwn o k v) k2 = if k = k2 then some v else getOwn o k2 := by
  induction o with
  | nil => simp [setOwn, getOwn]
  | cons p rest ih =>
    obtain ⟨k1, v1⟩ := p
    by_cases h1 : k1 = k
    · subst h1
      by_cases h2 : k1 = k2 <;> simp [setOwn, getOwn, h2]
    · by_cases h2 : k1 = k2
      · subst h2
        have : ¬ (k = k1) := fun e => h1 e.symm
        simp [setOwn, getOwn, h1, this]
      · simp [setOwn, getOwn, h1, h2, ih]

theorem getOwn_isSome_mem {β : Type} (l : List (String × β)) (k : String)
    (h : (getOwn l k).isSome = true) : k ∈ l.map Prod.fst := by
  induction l with
  | nil => simp [getOwn] at h
  | cons p rest ih =>
    obtain ⟨k1, v1⟩ := p
    by_cases h1 : k1 = k
    · simp [h1]
    · simp only [getOwn, h1, if_false] at h
      simp only [List.map_cons, List.mem_cons]
      exact Or.inr (ih h)

lemma reachesProtoSetter_ne (inh : Nat → String → Option JsVal) (p : Proto) (k : String)
    (h : k ≠ "__proto__") : reachesProtoSetter inh p k = false := by
  simp [reachesProtoSetter, h]

lemma assign_own_other (inh : Nat → String → Option JsVal) (o : PropsObj) (k k2 : String)
    (v : JsVal) (h : k ≠ k2) : getOwn (assign inh o k v).own k2 = getOwn o.own k2 := by
  unfold assign
  split
  · simp only [getOwn_setOwn, if_neg h]
  · split
    · cases v <;> rfl
    · simp only [getOwn_setOwn, if_neg h]

lemma assign_own_same (inh : Nat → String → Option JsVal) (o : PropsObj) (k : String)
    (v : JsVal) (h : k ≠ "__proto__") :
    getOwn (assign inh o k v).own k = some (PropVal.val v) := by
  unfold assign
  rw [reachesProtoSetter_ne inh o.proto k h]
  split
  · simp only [getOwn_setOwn, if_true]
  · simp only [Bool.false_eq_true, if_false, getOwn_setOwn, if_true]

lemma assign_proto_other (inh : Nat → String → Option JsVal) (o : PropsObj) (k : String)
    (v : JsVal) (h : k ≠ "__proto__") : (assign inh o k v).proto = o.proto := by
  unfold assign
  rw [reachesProtoSetter_ne inh o.proto k h]
  split
  · rfl
  · rfl

lemma assign_proto_setter (inh : Nat → String → Option JsVal) (o : PropsObj) (v : JsVal)
    (hp : o.proto = Proto.objectPrototype) (hn : getOwn o.own "__proto__" = none) :
    getOwn (assign inh o "__proto__" v).own "__proto__" = none := by
  unfold assign
  have hr : reachesProtoSetter inh o.proto "__proto__" = true := by
    simp [reachesProtoSetter, hp]
  simp only [hn, Option.isSome_none, Bool.false_eq_true, if_false, hr, if_true]
  cases v <;> exact hn

theorem copy_fold (inh : Nat → String → Option JsVal) (t : JsObj) (L : List String)
    (o : PropsObj) (k : String) (hk : k ≠ "__proto__") :
    getOwn (L.foldl
      (fun o r => if t.hasOwn r && !bd.contains r then assign inh o r (t.get r) else o)
      o).own k
    = if k ∈ L ∧ t.hasOwn k = true ∧ k ∉ bd then some (PropVal.val (t.get k))
      else getOwn o.own k := by
  induction L generalizing o with
  | nil => simp
  | cons r rest ih =>
    rw [List.foldl_cons, ih]
    by_cases hr : r = k
    · subst hr
      by_cases hc : (t.hasOwn r && !bd.contains r) = true
      · have hc2 : t.hasOwn r = true ∧ r ∉ bd := by
          simpa [List.contains_iff_exists_mem_beq] using hc
        simp [hc, hc2, assign_own_same inh o r _ hk]
      · have hc2 : ¬ (t.hasOwn r = true ∧ r ∉ bd) := by
          simpa [List.contains_iff_exists_mem_beq] using hc
        have hc3 : ¬ (r ∈ rest ∧ t.hasOwn r = true ∧ r ∉ bd) := fun h => hc2 h.2
        have hc4 : ¬ (r ∈ r :: rest ∧ t.hasOwn r = true ∧ r ∉ bd) := fun h => hc2 h.2
        rw [if_neg hc, if_neg hc3, if_neg hc4]
    · have hkr : (k = r) = False := by
        simp only [eq_iff_iff, iff_false]
        exact fun e => hr e.symm
      simp only [List.mem_cons, hkr, false_or]
      split
      · rfl
      · split
        · rw [assign_own_other inh o r k _ hr]
        · rfl

theorem copy_fold_untouched (inh : Nat → String → Option JsVal) (t : JsObj) (L : List String)
    (o : PropsObj) (k : String) (hno : ¬ (t.hasOwn k = true ∧ k ∉ bd)) :
    getOwn (L.foldl
      (fun o r => if t.hasOwn r && !bd.contains r then assign inh o r (t.get r) else o)
      o).own k = getOwn o.own k := by
  induction L generalizing o with
  | nil => rfl
  | cons r rest ih =>
    rw [List.foldl_cons, ih]
    by_cases hc : (t.hasOwn r && !bd.contains r) = true
    · have hc2 : t.hasOwn r = true ∧ r ∉ bd := by
        simpa [List.contains_iff_exists_mem_beq] using hc
      have hr : r ≠ k := fun e => hno (e ▸ hc2)
      rw [if_pos hc, assign_own_other inh o r k _ hr]
    · rw [if_neg hc]

theorem copy_fold_proto (inh : Nat → String → Option JsVal) (t : JsObj) (L : List String)
    (o : PropsObj) (hno : t.hasOwn "__proto__" = false) :
    (L.foldl
      (fun o r => if t.hasOwn r && !bd.contains r then assign inh o r (t.get r) else o)
      o).proto = o.proto := by
  induction L generalizing o with
  | nil => rfl
  | cons r rest ih =>
    rw [List.foldl_cons, ih]
    by_cases hc : (t.hasOwn r && !bd.contains r) = true
    · have hc2 : t.hasOwn r = true ∧ r ∉ bd := by
        simpa [List.contains_iff_exists_mem_beq] using hc
      have hr : r ≠ "__proto__" := by
        intro e
        rw [e, hno] at hc2
        exact absurd hc2.1 (by simp)
      rw [if_pos hc, assign_proto_other inh o r _ hr]
    · rw [if_neg hc]

theorem copy_fold_proto_key (inh : Nat → String → Option JsVal) (t : JsObj) (L : List String)
    (hL : L.Nodup) : ∀ (o : PropsObj), getOwn o.own "__proto__" = none →
    (o.proto = Proto.objectPrototype ∨ "__proto__" ∉ L) →
    getOwn (L.foldl
      (fun o r => if t.hasOwn r && !bd.contains r then assign inh o r (t.get r) else o)
      o).own "__proto__" = none := by
  induction L with
  | nil => intro o hn _; exact hn
  | cons r rest ih =>
    intro o hn hp
    have hnd := List.nodup_cons.mp hL
    rw [List.foldl_cons]
    by_cases hr : r = "__proto__"
    · have hrest : "__proto__" ∉ rest := hr ▸ hnd.1
      have hpo : o.proto = Proto.objectPrototype := by
        rcases hp with h | h
        · exact h
        · exact absurd (by rw [hr]; exact List.mem_cons_self _ _) h
      apply ih hnd.2 _ _ (Or.inr hrest)
      split
      · rw [hr]
        exact assign_proto_setter inh o _ hpo hn
      · exact hn
    · have hp2 : ∀ o2 : PropsObj, o2.proto = o.proto →
          (o2.proto = Proto.objectPrototype ∨ "__proto__" ∉ rest) := by
        intro o2 h2
        rcases hp with h | h
        · exact Or.inl (h2.trans h)
        · exact Or.inr (fun hm => h (List.mem_cons_of_mem _ hm))
      split
      · exact ih hnd.2 _ (by rw [assign_own_other inh o r _ _ hr]; exact hn)
          (hp2 _ (assign_proto_other inh o r _ hr))
      · exact ih hnd.2 _ hn (hp2 _ rfl)

theorem copyConfig_get (inh : Nat → String → Option JsVal) (t : JsObj) (k : String)
    (hk : k ≠ "__proto__") :
    getOwn (copyConfig inh t).own k =
      if t.hasOwn k = true ∧ k ∉ bd then some (PropVal.val (t.get k)) else none := by
  unfold copyConfig
  rw [copy_fold inh t _ _ k hk]
  by_cases h : t.hasOwn k = true ∧ k ∉ bd
  · have hm : k ∈ t.forInKeys := by
      unfold JsObj.forInKeys
      exact List.mem_append_left _ (getOwn_isSome_mem t.own k h.1)
    simp [h, hm]
  · have h2 : ¬ (k ∈ t.forInKeys ∧ t.hasOwn k = true ∧ k ∉ bd) := fun hh => h hh.2
    rw [if_neg h, if_neg h2]
    rfl

lemma assign_undefined (inh : Nat → String → Option JsVal) (o : PropsObj) (r : String)
    (v : JsVal) (hu : propsUndefined inh o r = true) :
    (assign inh o r v).own = setOwn o.own r (PropVal.val v) ∧
    (assign inh o r v).proto = o.proto := by
  unfold assign
  cases hown : getOwn o.own r with
  | some w => simp
  | none =>
    have hin : inheritedUndefined inh o.proto r = true := by
      unfold propsUndefined at hu
      rw [hown] at hu
      exact hu
    have hr : reachesProtoSetter inh o.proto r = false := by
      by_cases hk : r = "__proto__"
      · subst hk
        unfold reachesProtoSetter
        unfold inheritedUndefined at hin
        cases hp : o.proto with
        | objectPrototype =>
          rw [hp] at hin
          simp only [] at hin
          exact absurd hin (by decide)
        | null => simp
        | object ref =>
          rw [hp] at hin
          simp only [] at hin
          cases hi : inh ref "__proto__" with
          | some w => simp [hi]
          | none =>
            rw [hi] at hin
            exact absurd hin (by decide)
      · exact reachesProtoSetter_ne inh o.proto r hk
    simp [hr]

theorem propsUndefined_assign_other (inh : Nat → String → Option JsVal) (o : PropsObj)
    (r k : String) (v : JsVal) (h : r ≠ k) (hu : propsUndefined inh o r = true) :
    propsUndefined inh (assign inh o r v) k = propsUndefined inh o k := by
  obtain ⟨h1, h2⟩ := assign_undefined inh o r v hu
  unfold propsUndefined
  rw [h1, h2, getOwn_setOwn, if_neg h]

theorem defaults_fold (inh : Nat → String → Option JsVal) (a : JsObj) (L : List String)
    (o : PropsObj) (k : String) :
    getOwn (L.foldl
      (fun o r => if propsUndefined inh o r then assign inh o r (a.get r) else o) o).own k
    = if k ∈ L ∧ propsUndefined inh o k = true then some (PropVal.val (a.get k))
      else getOwn o.own k := by
  induction L generalizing o with
  | nil => simp
  | cons r rest ih =>
    rw [List.foldl_cons, ih]
    by_cases hr : r = k
    · subst hr
      by_cases hu : propsUndefined inh o r = true
      · simp only [hu, if_true, (assign_undefined inh o r _ hu).1, getOwn_setOwn,
          List.mem_cons, true_or, and_self]
        split <;> rfl
      · have hu2 : propsUndefined inh o r = false := by simpa using hu
        simp [hu2]
    · have hkr : (k = r) = False := by
        simp only [eq_iff_iff, iff_false]
        exact fun e => hr e.symm
      simp only [List.mem_cons, hkr, false_or]
      by_cases hu : propsUndefined inh o r = true
      · simp only [hu, if_true, propsUndefined_assign_other inh o r k _ hr hu,
          (assign_undefined inh o r _ hu).1, getOwn_setOwn, if_neg hr]
      · simp only [hu, Bool.false_eq_true, if_false]

theorem defaults_fold_proto (inh : Nat → String → Option JsVal) (a : JsObj) (L : List String)
    (o : PropsObj) :
    (L.foldl
      (fun o r => if propsUndefined inh o r then assign inh o r (a.get r) else o) o).proto
    = o.proto := by
  induction L generalizing o with
  | nil => rfl
  | cons r rest ih =>
    rw [List.foldl_cons, ih]
    by_cases hu : propsUndefined inh o r = true
    · rw [if_pos hu, (assign_undefined inh o r _ hu).2]
    · rw [if_neg hu]

theorem setChildren_get (o : PropsObj) (cs : List JsVal) (k : String)
    (h : k ≠ "children" ∨ cs = []) : getOwn (setChildren o cs).own k = getOwn o.own k := by
  rcases h with h | h
  · have h2 : ¬ ("children" = k) := fun e => h e.symm
    unfold setChildren
    split
    · rfl
    · simp only [getOwn_setOwn, if_neg h2]
    · simp only [getOwn_setOwn, if_neg h2]
  · subst h
    rfl

theorem setChildren_proto (o : PropsObj) (cs : List JsVal) :
    (setChildren o cs).proto = o.proto := by
  unfold setChildren
  split <;> rfl

/-- Counterexample to C20 as stated: the config with the own properties
`__proto__` (value 5) and `a`, as `JSON.parse` gives it, has the own property
`__proto__` outside 'key', 'ref', '__self' and '__source', and the props of
the element hold `a` only: the assignment of `__proto__` is answered by the
accessor of `Object.prototype`. -/
theorem Pd_proto_counterexample :
    protoConfig.hasOwn "__proto__" = true ∧ "__proto__" ∉ bd ∧
    (Pd sampleToStr noInherited ⟨"T", none⟩ (some protoConfig) []).props.own
      = [("a", PropVal.val (JsVal.num 2))] ∧
    getOwn (Pd sampleToStr noInherited ⟨"T", none⟩ (some protoConfig) []).props.own
      "__proto__" = none := by
  decide

/-- Claim C20 (amended): the element returned by createElement has key = the
string form of config.key when config.key is not undefined and null
otherwise, ref = config.ref when not undefined and null otherwise.  Before
the defaultProps loop props holds every own property of config except 'key',
'ref', '__self', '__source' and '__proto__', and nothing else from config; an
own property '__proto__' of config never becomes an own property of props,
and without it the prototype of props stays `Object.prototype`.
props.children is the single child when exactly one child argument is
passed, the array of the child arguments in order when more than one is
passed, and is not set by the child arguments when none is passed.  Finally
every property of type.defaultProps whose value in props is undefined is
filled in from defaultProps, and nothing else changes. -/
theorem Pd_spec (toStr : JsVal → String) (inherited : Nat → String → Option JsVal)
    (e : ElemType) (t : Option JsObj) (cs : List JsVal) :
    (Pd toStr inherited e t cs).key =
      (match t with
       | some c => if c.get "key" ≠ JsVal.undefined then some (toStr (c.get "key")) else none
       | none => none) ∧
    (Pd toStr inherited e t cs).ref =
      (match t with
       | some c => if c.get "ref" ≠ JsVal.undefined then c.get "ref" else JsVal.null
       | none => JsVal.null) ∧
    (∀ c k, t = some c → c.hasOwn k = true → k ∉ bd → k ≠ "__proto__" →
      (k ≠ "children" ∨ cs = []) →
      getOwn (propsBeforeDefaults inherited t cs).own k = some (PropVal.val (c.get k))) ∧
    (∀ k, (k ≠ "children" ∨ cs = []) → (¬ ∃ c, t = some c ∧ c.hasOwn k = true ∧ k ∉ bd) →
      getOwn (propsBeforeDefaults inherited t cs).own k = none) ∧
    (∀ c, t = some c → c.forInKeys.Nodup →
      getOwn (propsBeforeDefaults inherited t cs).own "__proto__" = none) ∧
    ((∀ c, t = some c → c.hasOwn "__proto__" = false) →
      (propsBeforeDefaults inherited t cs).proto = Proto.objectPrototype) ∧
    (∀ n, cs = [n] →
      getOwn (propsBeforeDefaults inherited t cs).own "children" = some (PropVal.val n)) ∧
    (2 ≤ cs.length →
      getOwn (propsBeforeDefaults inherited t cs).own "children"
        = some (PropVal.children cs)) ∧
    (e.defaultProps = none →
      (Pd toStr inherited e t cs).props = propsBeforeDefaults inherited t cs) ∧
    (∀ a k, e.defaultProps = some a →
      getOwn (Pd toStr inherited e t cs).props.own k =
        if k ∈ a.forInKeys ∧ propsUndefined inherited (propsBeforeDefaults inherited t cs) k
            = true then
          some (PropVal.val (a.get k))
        else getOwn (propsBeforeDefaults inherited t cs).own k) ∧
    (∀ a, e.defaultProps = some a →
      (Pd toStr inherited e t cs).props.proto = (propsBeforeDefaults inherited t cs).proto) := by
  refine ⟨rfl, rfl, ?_, ?_, ?_, ?_, ?_, ?_, ?_, ?_, ?_⟩
  · intro c k ht hown hbd hproto hk
    subst ht
    unfold propsBeforeDefaults
    rw [setChildren_get _ _ _ hk, copyConfig_get inherited c k hproto]
    simp [hown, hbd]
  · intro k hk hno
    unfold propsBeforeDefaults
    rw [setChildren_get _ _ _ hk]
    cases t with
    | none => rfl
    | some c =>
      simp only
      unfold copyConfig
      rw [copy_fold_untouched inherited c _ _ k (fun h => hno ⟨c, rfl, h.1, h.2⟩)]
      rfl
  · intro c ht hnd
    subst ht
    unfold propsBeforeDefaults
    rw [setChildren_get _ _ _ (Or.inl (by decide))]
    simp only
    unfold copyConfig
    exact copy_fold_proto_key inherited c _ hnd _ rfl (Or.inl rfl)
  · intro hno
    unfold propsBeforeDefaults
    rw [setChildren_proto]
    cases t with
    | none => rfl
    | some c =>
      simp only
      unfold copyConfig
      rw [copy_fold_proto inherited c _ _ (hno c rfl)]
      rfl
  · intro n hcs
    subst hcs
    unfold propsBeforeDefaults setChildren
    simp only [getOwn_setOwn, if_true]
  · intro hlen
    unfold propsBeforeDefaults setChildren
    cases cs with
    | nil => simp at hlen
    | cons a rest =>
      cases rest with
      | nil => simp at hlen
      | cons b rest2 => simp only [getOwn_setOwn, if_true]
  · intro hd
    unfold Pd propsBeforeDefaults
    simp only [hd]
  · intro a k hd
    have : (Pd toStr inherited e t cs).props =
        applyDefaults inherited a (propsBeforeDefaults inherited t cs) := by
      unfold Pd propsBeforeDefaults
      simp only [hd]
    rw [this]
    unfold applyDefaults
    exact defaults_fold inherited a a.forInKeys _ k
  · intro a hd
    have : (Pd toStr inherited e t cs).props =
        applyDefaults inherited a (propsBeforeDefaults inherited t cs) := by
      unfold Pd propsBeforeDefaults
      simp only [hd]
    rw [this]
    unfold applyDefaults
    exact defaults_fold_proto inherited a a.forInKeys _

/-- Witness for C20: a config with key, ref, one ordinary property and one
undefined property, two children, and defaultProps for the undefined one;
and the config with an own `__proto__`, which leaves props without it. -/
theorem Pd_spec_witness :
    (Pd sampleToStr noInherited ⟨"T", some ⟨[("size", JsVal.num 3)], []⟩⟩
      (some ⟨[("key", JsVal.num 7), ("id", JsVal.str "x"), ("size", JsVal.undefined)], []⟩)
      [JsVal.str "a", JsVal.str "b"]).key = some "7" ∧
    getOwn (propsBeforeDefaults noInherited
      (some ⟨[("key", JsVal.num 7), ("id", JsVal.str "x"), ("size", JsVal.undefined)], []⟩)
      [JsVal.str "a", JsVal.str "b"]).own "id" = some (PropVal.val (JsVal.str "x")) ∧
    getOwn (propsBeforeDefaults noInherited (some protoConfig) []).own "__proto__" = none ∧
    getOwn (propsBeforeDefaults noInherited (some protoConfig) []).own "a"
      = some (PropVal.val (JsVal.num 2)) :=
  have h := Pd_spec sampleToStr noInherited ⟨"T", some ⟨[("size", JsVal.num 3)], []⟩⟩
    (some ⟨[("key", JsVal.num 7), ("id", JsVal.str "x"), ("size", JsVal.undefined)], []⟩)
    [JsVal.str "a", JsVal.str "b"]
  have h2 := Pd_spec sampleToStr noInherited ⟨"T", none⟩ (some protoConfig) []
  ⟨h.1, h.2.2.1 _ "id" rfl (by decide) (by decide) (by decide) (Or.inl (by decide)),
    h2.2.2.2.2.1 protoConfig rfl (by decide),
    h2.2.2.1 protoConfig "a" rfl (by decide) (by decide) (by decide) (Or.inr rfl)⟩

/-! ### `$p` (flattenRoutes) -/

lemma visitAll_error (f : List (Branch RouteProps) → Option (List Char) →
      Except JsError (List (Branch RouteProps)))
    (D : Option (List Char) → Bool)
    (hf : ∀ t a, (∃ e, f t a = Except.error e) ↔ D a = true) :
    ∀ (L : List (Option (List Char))) (t : List (Branch RouteProps)),
      (∃ e, visitAll f L t = Except.error e) ↔ L.any D = true := by
  intro L
  induction L with
  | nil => intro t; simp [visitAll]
  | cons a rest ih =>
    intro t
    rw [List.any_cons, Bool.or_eq_true, ← hf t a]
    unfold visitAll
    cases hfa : f t a with
    | error e => simp
    | ok t1 =>
      simp only [ih t1]
      constructor
      · intro h; exact Or.inr h
      · rintro (⟨e, he⟩ | h)
        · cases he
        · exact h

lemma visitRoute_none_error (i : RouteProps) (l : Nat) (n : List (RouteMeta RouteProps))
    (r : List Char) (t : List (Branch RouteProps)) (a : Option (List Char)) :
    (∃ e, visitRoute i l none n r t a = Except.error e) ↔
      absoluteMismatch r (relativePathOf i a) = true := by
  unfold visitRoute
  by_cases h : absoluteMismatch r (relativePathOf i a) = true
  · simp [h]
  · by_cases hp : (!(i.path.isNone && !i.index.isTruthy)) = true
    · simp [h, hp]
    · simp [h, hp]

lemma visitRoute_some_error (i : RouteProps) (l : Nat)
    (k : List (Branch RouteProps) → List (RouteMeta RouteProps) → List Char →
      Except JsError (List (Branch RouteProps)))
    (K : List Char → Bool)
    (hk : ∀ t d u, (∃ e, k t d u = Except.error e) ↔ K u = true)
    (n : List (RouteMeta RouteProps))
    (r : List Char) (t : List (Branch RouteProps)) (a : Option (List Char)) :
    (∃ e, visitRoute i l (some k) n r t a = Except.error e) ↔
      (absoluteMismatch r (relativePathOf i a) ||
        (i.index == IndexValue.isTrue || K (combinedPath i r a))) = true := by
  unfold visitRoute
  by_cases h : absoluteMismatch r (relativePathOf i a) = true
  · simp [h]
  · simp only [h, if_false, Bool.false_eq_true, Bool.or_eq_true, false_or, beq_iff_eq]
    by_cases hi : i.index = IndexValue.isTrue
    · simp [hi]
    · simp only [hi, if_false, false_or]
      rw [← hk t (n ++ [metaOf i l r a]) (combinedPath i r a)]
      cases hka : k t (n ++ [metaOf i l r a]) (combinedPath i r a) with
      | error e => simp
      | ok t1 =>
        by_cases hp : (!(i.path.isNone && !i.index.isTruthy)) = true
        · simp [hp]
        · simp [hp]

lemma flattenRoutes_error (routes : Routes) :
    ∀ (n : List (RouteMeta RouteProps)) (r : List Char) (l : Nat)
      (t : List (Branch RouteProps)),
      (∃ e, flattenRoutes n r l routes t = Except.error e) ↔ hasDefect r routes = true := by
  induction routes with
  | nil => intro n r l t; simp [flattenRoutes, hasDefect]
  | leaf i rest ih =>
    intro n r l t
    have hv := visitAll_error (visitRoute i l none n r)
      (fun a => absoluteMismatch r (relativePathOf i a))
      (fun t a => visitRoute_none_error i l n r t a) (variantsOf i) t
    unfold flattenRoutes hasDefect
    rw [Bool.or_eq_true, ← hv]
    cases hva : visitAll (visitRoute i l none n r) (variantsOf i) t with
    | error e => simp
    | ok t1 =>
      rw [ih n r (l + 1) t1]
      simp
  | node i ch rest ihc ihr =>
    intro n r l t
    by_cases hch : ch.isEmpty = true
    · have hv := visitAll_error (visitRoute i l none n r)
        (fun a => absoluteMismatch r (relativePathOf i a))
        (fun t a => visitRoute_none_error i l n r t a) (variantsOf i) t
      unfold flattenRoutes hasDefect
      simp only [hch, if_true, Bool.not_true, Bool.false_and, Bool.or_false]
      rw [Bool.or_eq_true, ← hv]
      cases hva : visitAll (visitRoute i l none n r) (variantsOf i) t with
      | error e => simp
      | ok t1 =>
        rw [ihr n r (l + 1) t1]
        simp
    · have hv := visitAll_error
        (fun t a => visitRoute i l (some (fun t d u => flattenRoutes d u 0 ch t)) n r t a)
        (fun a => absoluteMismatch r (relativePathOf i a) ||
          (i.index == IndexValue.isTrue || hasDefect (combinedPath i r a) ch))
        (fun t a => visitRoute_some_error i l (fun t d u => flattenRoutes d u 0 ch t)
          (fun u => hasDefect u ch) (fun t d u => ihc d u 0 t) n r t a) (variantsOf i) t
      unfold flattenRoutes hasDefect
      simp only [hch, if_false, Bool.not_false, Bool.true_and, Bool.false_eq_true]
      rw [Bool.or_eq_true, ← hv]
      cases hva : visitAll
          (fun t a => visitRoute i l (some (fun t d u => flattenRoutes d u 0 ch t)) n r t a)
          (variantsOf i) t with
      | error e => simp
      | ok t1 =>
        rw [ihr n r (l + 1) t1]
        simp

lemma visitAll_error_kind (f : List (Branch RouteProps) → Option (List Char) →
      Except JsError (List (Branch RouteProps)))
    (hf : ∀ t a e, f t a = Except.error e → IsFlattenError e) :
    ∀ (L : List (Option (List Char))) (t : List (Branch RouteProps)) (e : JsError),
      visitAll f L t = Except.error e → IsFlattenError e := by
  intro L
  induction L with
  | nil => intro t e h; simp [visitAll] at h
  | cons a rest ih =>
    intro t e h
    unfold visitAll at h
    cases hfa : f t a with
    | error e1 =>
      rw [hfa] at h
      cases h
      exact hf t a e hfa
    | ok t1 =>
      rw [hfa] at h
      exact ih t1 e h

lemma visitRoute_error_kind (i : RouteProps) (l : Nat)
    (kids : Option (List (Branch RouteProps) → List (RouteMeta RouteProps) → List Char →
      Except JsError (List (Branch RouteProps))))
    (hk : ∀ k, kids = some k → ∀ t d u e, k t d u = Except.error e → IsFlattenError e)
    (n : List (RouteMeta RouteProps))
    (r : List Char) (t : List (Branch RouteProps)) (a : Option (List Char)) (e : JsError)
    (h : visitRoute i l kids n r t a = Except.error e) : IsFlattenError e := by
  unfold visitRoute at h
  by_cases hm : absoluteMismatch r (relativePathOf i a) = true
  · rw [if_pos hm] at h
    cases h
    exact Or.inl ⟨_, _, rfl⟩
  · rw [if_neg hm] at h
    cases kids with
    | none =>
      by_cases hp : (!(i.path.isNone && !i.index.isTruthy)) = true
      · simp [hp] at h
      · simp [hp] at h
    | some k =>
      by_cases hi : i.index = IndexValue.isTrue
      · simp only [hi, if_true] at h
        cases h
        exact Or.inr ⟨_, rfl⟩
      · simp only [hi, if_false] at h
        cases hka : k t (n ++ [metaOf i l r a]) (combinedPath i r a) with
        | error e1 =>
          rw [hka] at h
          cases h
          exact hk k rfl _ _ _ _ hka
        | ok t1 =>
          rw [hka] at h
          by_cases hp : (!(i.path.isNone && !i.index.isTruthy)) = true
          · simp [hp] at h
          · simp [hp] at h

lemma flattenRoutes_error_kind (routes : Routes) :
    ∀ (n : List (RouteMeta RouteProps)) (r : List Char) (l : Nat)
      (t : List (Branch RouteProps)) (e : JsError),
      flattenRoutes n r l routes t = Except.error e → IsFlattenError e := by
  induction routes with
  | nil => intro n r l t e h; simp [flattenRoutes] at h
  | leaf i rest ih =>
    intro n r l t e h
    unfold flattenRoutes at h
    cases hva : visitAll (visitRoute i l none n r) (variantsOf i) t with
    | error e1 =>
      rw [hva] at h
      cases h
      exact visitAll_error_kind _
        (fun t a e he => visitRoute_error_kind i l none (fun k hk => by cases hk) n r t a e he)
        _ _ _ hva
    | ok t1 =>
      rw [hva] at h
      exact ih n r (l + 1) t1 e h
  | node i ch rest ihc ihr =>
    intro n r l t e h
    unfold flattenRoutes at h
    cases hva : visitAll
        (fun t a => visitRoute i l
          (if ch.isEmpty then none
           else some (fun t d u => flattenRoutes d u 0 ch t)) n r t a)
        (variantsOf i) t with
    | error e1 =>
      rw [hva] at h
      cases h
      refine visitAll_error_kind _ (fun t a e he => ?_) _ _ _ hva
      refine visitRoute_error_kind i l _ (fun k hk t d u e hke => ?_) n r t a e he
      by_cases hch : ch.isEmpty = true
      · simp [hch] at hk
      · simp only [hch, if_false, Option.some.injEq, Bool.false_eq_true] at hk
        subst hk
        exact ihc d u 0 t e hke
    | ok t1 =>
      rw [hva] at h
      exact ihr n r (l + 1) t1 e h

/-- Claim C15: `$p` (flattenRoutes) throws exactly when some route of the
tree has, for one of its exploded paths, a relative path that starts with '/'
but not with the combined path of its parents, or has index === true and a
non-empty children list (`hasDefect`), and what it throws is one of the two
assertion errors.  A route without path and without index flag pushes no
branch of its own: without children the call goes on with the next route on
the same array of branches, and with children the branches are those of the
children, flattened under the route's meta object and combined path, before
the next route. -/
theorem flattenRoutes_spec (routes : Routes) (n : List (RouteMeta RouteProps))
    (r : List Char) (l : Nat) (t : List (Branch RouteProps)) :
    ((∃ e, flattenRoutes n r l routes t = Except.error e) ↔ hasDefect r routes = true) ∧
    (∀ e, flattenRoutes n r l routes t = Except.error e → IsFlattenError e) ∧
    (∀ o rest, routes = Routes.leaf o rest → o.path = none → o.index = IndexValue.falsy →
      flattenRoutes n r l routes t = flattenRoutes n r (l + 1) rest t) ∧
    (∀ o ch rest, routes = Routes.node o ch rest → o.path = none →
      o.index = IndexValue.falsy →
      flattenRoutes n r l routes t =
        match (if ch.isEmpty then Except.ok t
               else flattenRoutes (n ++ [metaOf o l r none]) (combinedPath o r none) 0 ch t) with
        | Except.error e => Except.error e
        | Except.ok t1 => flattenRoutes n r (l + 1) rest t1) := by
  refine ⟨flattenRoutes_error routes n r l t, flattenRoutes_error_kind routes n r l t, ?_, ?_⟩
  · intro o rest hr hp hi
    subst hr
    have hm : absoluteMismatch r [] = false := rfl
    simp [flattenRoutes, variantsOf, hp, hi, visitAll, visitRoute, relativePathOf, hm,
      IndexValue.isTruthy]
  · intro o ch rest hr hp hi
    subst hr
    have hm : absoluteMismatch r [] = false := rfl
    by_cases hch : ch.isEmpty = true
    · simp [flattenRoutes, variantsOf, hp, hi, visitAll, visitRoute, relativePathOf, hm,
        IndexValue.isTruthy, hch]
    · simp only [flattenRoutes, variantsOf, hp, hi, visitAll, visitRoute, relativePathOf, hm,
        IndexValue.isTruthy, hch, if_false, Option.getD_none, Bool.false_eq_true]
      cases flattenRoutes (n ++ [metaOf o l r none]) (combinedPath o r none) 0 ch t with
      | error e => rfl
      | ok t1 => simp

/-- Witness for C15 on a pathless layout route with one child: nothing throws
and the only branch is the child's, with the path `/a`. -/
theorem flattenRoutes_spec_witness :
    hasDefect [] sampleLayoutTree = false ∧
    (flattenRoutes [] [] 0 sampleLayoutTree []).toOption.map (fun bs => bs.map (fun b => b.path))
      = some [['/', 'a']] ∧
    flattenRoutes [] [] 0 sampleLayoutTree [] =
      match (if sampleLayoutChildren.isEmpty then Except.ok []
             else flattenRoutes ([] ++ [metaOf sampleLayoutRoute 0 [] none])
               (combinedPath sampleLayoutRoute [] none) 0 sampleLayoutChildren []) with
      | Except.error e => Except.error e
      | Except.ok t1 => flattenRoutes [] [] (0 + 1) Routes.nil t1 :=
  ⟨by decide, by decide,
    (flattenRoutes_spec sampleLayoutTree [] [] 0 []).2.2.2 _ _ _ rfl rfl rfl⟩

/-! ### `Ka` (convertRoutesToDataRoutes) -/

lemma digitChar_mem (d : Nat) : digitChar d ∈ digitChars := by
  unfold digitChar
  split <;> simp [digitChars]

lemma digitChar_inj : ∀ a < 10, ∀ b < 10, digitChar a = digitChar b → a = b := by
  decide

lemma map_digitChar_inj : ∀ (l1 l2 : List Nat), (∀ x ∈ l1, x < 10) → (∀ x ∈ l2, x < 10) →
    l1.map digitChar = l2.map digitChar → l1 = l2 := by
  intro l1
  induction l1 with
  | nil =>
    intro l2 _ _ h
    cases l2 with
    | nil => rfl
    | cons b l2 => simp at h
  | cons a l1 ih =>
    intro l2 h1 h2 h
    cases l2 with
    | nil => simp at h
    | cons b l2 =>
      simp only [List.map_cons, List.cons.injEq] at h
      have hab := digitChar_inj a (h1 a (List.mem_cons_self _ _)) b
        (h2 b (List.mem_cons_self _ _)) h.1
      have := ih l2 (fun x hx => h1 x (List.mem_cons_of_mem _ hx))
        (fun x hx => h2 x (List.mem_cons_of_mem _ hx)) h.2
      rw [hab, this]

lemma decimalCore_eq : ∀ (fuel n : Nat) (acc : List Char), 0 < n → n < fuel →
    decimalCore fuel n acc = (Nat.digits 10 n).reverse.map digitChar ++ acc := by
  intro fuel
  induction fuel with
  | zero => intro n acc _ h; omega
  | succ fuel ih =>
    intro n acc hn hlt
    unfold decimalCore
    rw [Nat.digits_def' (by norm_num) hn]
    by_cases h0 : n / 10 = 0
    · simp [h0]
    · rw [if_neg h0, ih (n / 10) _ (Nat.pos_of_ne_zero h0) (by omega)]
      simp

lemma decimal_eq (n : Nat) :
    decimal n = if n = 0 then ['0'] else (Nat.digits 10 n).reverse.map digitChar := by
  by_cases h : n = 0
  · subst h; rfl
  · rw [if_neg h]
    unfold decimal
    rw [decimalCore_eq (n + 1) n [] (Nat.pos_of_ne_zero h) (by omega)]
    simp

lemma decimal_pos_injective (n m : Nat)
    (h : (Nat.digits 10 n).reverse.map digitChar = (Nat.digits 10 m).reverse.map digitChar) :
    n = m := by
  have h1 : ∀ x ∈ (Nat.digits 10 n).reverse, x < 10 := fun x hx =>
    Nat.digits_lt_base (by norm_num) (List.mem_reverse.mp hx)
  have h2 : ∀ x ∈ (Nat.digits 10 m).reverse, x < 10 := fun x hx =>
    Nat.digits_lt_base (by norm_num) (List.mem_reverse.mp hx)
  have := map_digitChar_inj _ _ h1 h2 h
  exact Nat.digits.injective 10 (List.reverse_injective this)

lemma decimal_zero_ne (m : Nat) (hm : m ≠ 0) :
    ['0'] ≠ (Nat.digits 10 m).reverse.map digitChar := by
  intro h
  have h2 : ∀ x ∈ (Nat.digits 10 m).reverse, x < 10 := fun x hx =>
    Nat.digits_lt_base (by norm_num) (List.mem_reverse.mp hx)
  have h0 : ([0] : List Nat).map digitChar = (Nat.digits 10 m).reverse.map digitChar := h
  have := map_digitChar_inj [0] _ (by simp) h2 h0
  have hd : Nat.digits 10 m = [0] := by
    have := congrArg List.reverse this
    simpa using this.symm
  have := Nat.ofDigits_digits 10 m
  rw [hd] at this
  simp at this
  exact hm this.symm

lemma decimal_injective (n m : Nat) (h : decimal n = decimal m) : n = m := by
  rw [decimal_eq, decimal_eq] at h
  by_cases hn : n = 0
  · by_cases hm : m = 0
    · rw [hn, hm]
    · rw [if_pos hn, if_neg hm] at h
      exact absurd h (decimal_zero_ne m hm)
  · by_cases hm : m = 0
    · rw [if_neg hn, if_pos hm] at h
      exact absurd h.symm (decimal_zero_ne n hn)
    · rw [if_neg hn, if_neg hm] at h
      exact decimal_pos_injective n m h

lemma decimal_chars (n : Nat) : ∀ c ∈ decimal n, c ∈ digitChars := by
  intro c hc
  rw [decimal_eq] at hc
  by_cases hn : n = 0
  · rw [if_pos hn] at hc
    simp at hc
    subst hc
    decide
  · rw [if_neg hn] at hc
    obtain ⟨d, _, rfl⟩ := List.mem_map.mp hc
    exact digitChar_mem d

lemma decimal_no_dash (n : Nat) : '-' ∉ decimal n := by
  intro h
  have := decimal_chars n _ h
  revert this
  decide

lemma decimal_ne_nil (n : Nat) : decimal n ≠ [] := by
  rw [decimal_eq]
  by_cases hn : n = 0
  · simp [hn]
  · rw [if_neg hn]
    intro h
    have h1 : Nat.digits 10 n = [] := by simpa using h
    exact hn (Nat.digits_eq_nil_iff_eq_zero.mp h1)

lemma positionId_injective (l1 l2 : List Nat) (h1 : l1 ≠ []) (h2 : l2 ≠ [])
    (h : joinWith '-' (l1.map decimal) = joinWith '-' (l2.map decimal)) : l1 = l2 := by
  have e1 := splitOn_joinWith '-' (l1.map decimal) (by simpa using h1)
    (fun s hs => by
      obtain ⟨x, _, rfl⟩ := List.mem_map.mp hs
      exact decimal_no_dash x)
  have e2 := splitOn_joinWith '-' (l2.map decimal) (by simpa using h2)
    (fun s hs => by
      obtain ⟨x, _, rfl⟩ := List.mem_map.mp hs
      exact decimal_no_dash x)
  rw [h, e2] at e1
  exact (List.map_injective_iff.mpr (fun a b hab => decimal_injective a b hab) e1).symm

lemma joinWith_head (sep : Char) (a : List Char) (rest : List (List Char)) (ha : a ≠ []) :
    ∃ (c : Char) (t1 t2 : List Char), a = c :: t1 ∧ joinWith sep (a :: rest) = c :: t2 := by
  cases a with
  | nil => exact absurd rfl ha
  | cons c t =>
    cases rest with
    | nil => exact ⟨c, t, t, rfl, rfl⟩
    | cons b rest => exact ⟨c, t, t ++ sep :: joinWith sep (b :: rest), rfl, rfl⟩

lemma positionId_not_prototype (l : List Nat) (hl : l ≠ []) :
    String.mk (joinWith '-' (l.map decimal)) ∉ objectPrototypeNames := by
  intro hmem
  have key : ∀ s ∈ objectPrototypeNames, startsWithDigit s = false := by decide
  have hk := key _ hmem
  cases l with
  | nil => exact hl rfl
  | cons x xs =>
    obtain ⟨c, t1, t2, hc, hj⟩ := joinWith_head '-' (decimal x) (xs.map decimal) (decimal_ne_nil x)
    have hcd : c ∈ digitChars := decimal_chars x c (by rw [hc]; exact List.mem_cons_self _ _)
    rw [List.map_cons, hj] at hk
    simp [startsWithDigit, hcd] at hk

lemma manifest_any_iff (r : Manifest) (a : List Char) :
    r.any (fun e => decide (e.1 = a)) = true ↔ a ∈ r.map Prod.fst := by
  simp only [List.any_eq_true, decide_eq_true_eq, List.mem_map]

lemma manifestTruthy_iff (r : Manifest) (a : List Char)
    (hp : String.mk a ∉ objectPrototypeNames) :
    manifestTruthy r a = true ↔ a ∈ r.map Prod.fst := by
  unfold manifestTruthy
  rw [Bool.or_eq_true, manifest_any_iff]
  constructor
  · rintro (h | h)
    · exact h
    · exact absurd (List.elem_iff.mp h) hp
  · intro h; exact Or.inl h

lemma manifestSet_new (r : Manifest) (a : List Char) (l : List Nat)
    (h : a ∉ r.map Prod.fst) : manifestSet r a l = r ++ [(a, l)] := by
  unfold manifestSet
  rw [if_neg (fun h2 => h ((manifest_any_iff r a).mp h2))]

lemma Ka_post (routes : Routes) :
    ∀ (n : List Nat) (i : Nat) (r : Manifest), (r.map Prod.fst).Nodup →
      (∀ a ∈ treeIds n i routes, String.mk a ∉ objectPrototypeNames) →
      KaPost n i routes r (Ka n i routes r) := by
  induction routes with
  | nil =>
    intro n i r hr _
    simp [Ka, KaPost, indexWithChildren, treeIds, treeEntries, DataRoutes.shape,
      DataRoutes.entries, hr]
  | leaf o rest ih =>
    intro n i r hr hp
    have hpa : String.mk (routeId o (n ++ [i])) ∉ objectPrototypeNames :=
      hp _ (by simp [treeIds, treeEntries])
    have hprest : ∀ a ∈ treeIds n (i + 1) rest, String.mk a ∉ objectPrototypeNames :=
      fun a ha => hp a (by
        simp only [treeIds, treeEntries, List.map_cons, List.mem_cons]
        exact Or.inr ha)
    have hids : treeIds n i (Routes.leaf o rest) =
        routeId o (n ++ [i]) :: treeIds n (i + 1) rest := by
      simp [treeIds, treeEntries]
    unfold Ka
    simp only []
    by_cases ht : manifestTruthy r (routeId o (n ++ [i])) = true
    · rw [if_pos ht]
      have hmem := (manifestTruthy_iff r _ hpa).mp ht
      refine Or.inr ⟨_, rfl, ?_⟩
      rw [hids]
      intro hnd
      have := List.nodup_append.mp hnd
      exact this.2.2 hmem (List.mem_cons_self _ _)
    · rw [if_neg ht]
      have hnot : routeId o (n ++ [i]) ∉ r.map Prod.fst :=
        fun h => ht ((manifestTruthy_iff r _ hpa).mpr h)
      rw [manifestSet_new r _ _ hnot]
      have hr1 : ((r ++ [(routeId o (n ++ [i]), n ++ [i])]).map Prod.fst).Nodup := by
        rw [List.map_append, List.nodup_append]
        refine ⟨hr, by simp, ?_⟩
        intro x hx hx2
        simp only [List.map_cons, List.map_nil, List.mem_singleton] at hx2
        subst hx2
        exact hnot hx
      have hih := ih n (i + 1) _ hr1 hprest
      have hkeys : (r ++ [(routeId o (n ++ [i]), n ++ [i])]).map Prod.fst
          ++ treeIds n (i + 1) rest = r.map Prod.fst ++ treeIds n i (Routes.leaf o rest) := by
        rw [hids]; simp
      cases hka : Ka n (i + 1) rest (r ++ [(routeId o (n ++ [i]), n ++ [i])]) with
      | error e =>
        rw [hka] at hih
        simp only [KaPost] at hih ⊢
        rw [hkeys] at hih
        rcases hih with ⟨he, hi⟩ | h
        · exact Or.inl ⟨he, by simpa [indexWithChildren] using hi⟩
        · exact Or.inr h
      | ok p =>
        obtain ⟨d, r2⟩ := p
        rw [hka] at hih
        simp only [KaPost] at hih ⊢
        rw [hkeys] at hih
        obtain ⟨h1, h2, h3, h4, h5⟩ := hih
        refine ⟨by simpa [indexWithChildren] using h1, h2, ?_, ?_, ?_⟩
        · rw [h3]; simp [treeEntries]
        · simp [DataRoutes.shape, h4]
        · simp [DataRoutes.entries, treeEntries, h5]
  | node o ch rest ihc ihr =>
    intro n i r hr hp
    have hids : treeIds n i (Routes.node o ch rest) =
        routeId o (n ++ [i]) :: (treeIds (n ++ [i]) 0 ch ++ treeIds n (i + 1) rest) := by
      simp [treeIds, treeEntries]
    have hpa : String.mk (routeId o (n ++ [i])) ∉ objectPrototypeNames :=
      hp _ (by rw [hids]; exact List.mem_cons_self _ _)
    have hpch : ∀ a ∈ treeIds (n ++ [i]) 0 ch, String.mk a ∉ objectPrototypeNames :=
      fun a ha => hp a (by
        rw [hids]
        exact List.mem_cons_of_mem _ (List.mem_append_left _ ha))
    have hprest : ∀ a ∈ treeIds n (i + 1) rest, String.mk a ∉ objectPrototypeNames :=
      fun a ha => hp a (by
        rw [hids]
        exact List.mem_cons_of_mem _ (List.mem_append_right _ ha))
    unfold Ka
    simp only []
    by_cases hidx : o.index = IndexValue.isTrue
    · rw [if_pos hidx]
      exact Or.inl ⟨rfl, by simp [indexWithChildren, hidx]⟩
    rw [if_neg hidx]
    by_cases ht : manifestTruthy r (routeId o (n ++ [i])) = true
    · rw [if_pos ht]
      have hmem := (manifestTruthy_iff r _ hpa).mp ht
      refine Or.inr ⟨_, rfl, ?_⟩
      rw [hids]
      intro hnd
      have := List.nodup_append.mp hnd
      exact this.2.2 hmem (List.mem_cons_self _ _)
    · rw [if_neg ht]
      have hnot : routeId o (n ++ [i]) ∉ r.map Prod.fst :=
        fun h => ht ((manifestTruthy_iff r _ hpa).mpr h)
      rw [manifestSet_new r _ _ hnot]
      have hr1 : ((r ++ [(routeId o (n ++ [i]), n ++ [i])]).map Prod.fst).Nodup := by
        rw [List.map_append, List.nodup_append]
        refine ⟨hr, by simp, ?_⟩
        intro x hx hx2
        simp only [List.map_cons, List.map_nil, List.mem_singleton] at hx2
        subst hx2
        exact hnot hx
      have hihc := ihc (n ++ [i]) 0 _ hr1 hpch
      have hkeys : (r ++ [(routeId o (n ++ [i]), n ++ [i])]).map Prod.fst
          ++ treeIds (n ++ [i]) 0 ch =
          r.map Prod.fst ++ (routeId o (n ++ [i]) :: treeIds (n ++ [i]) 0 ch) := by
        simp
      have hsub : ∀ (x : List (List Char)),
          (r.map Prod.fst ++ treeIds n i (Routes.node o ch rest)).Nodup →
          x = r.map Prod.fst ++ (routeId o (n ++ [i]) :: treeIds (n ++ [i]) 0 ch) →
          x.Nodup := by
        intro x hnd hx
        subst hx
        rw [hids] at hnd
        have e : r.map Prod.fst ++
            (routeId o (n ++ [i]) :: (treeIds (n ++ [i]) 0 ch ++ treeIds n (i + 1) rest)) =
            (r.map Prod.fst ++ (routeId o (n ++ [i]) :: treeIds (n ++ [i]) 0 ch))
              ++ treeIds n (i + 1) rest := by simp
        rw [e] at hnd
        exact (List.nodup_append.mp hnd).1
      cases hkc : Ka (n ++ [i]) 0 ch (r ++ [(routeId o (n ++ [i]), n ++ [i])]) with
      | error e =>
        rw [hkc] at hihc
        simp only [KaPost] at hihc ⊢
        rcases hihc with ⟨he, hi⟩ | ⟨a, he, hnd⟩
        · exact Or.inl ⟨he, by simp [indexWithChildren, hi]⟩
        · refine Or.inr ⟨a, he, fun h => hnd ?_⟩
          exact hsub _ h hkeys
      | ok p =>
        obtain ⟨dc, r2⟩ := p
        rw [hkc] at hihc
        simp only [KaPost] at hihc
        obtain ⟨c1, c2, c3, c4, c5⟩ := hihc
        have hr2 : (r2.map Prod.fst).Nodup := by
          rw [c3, List.map_append]
          exact c2
        have hihr := ihr n (i + 1) r2 hr2 hprest
        have hkeys2 : r2.map Prod.fst ++ treeIds n (i + 1) rest =
            r.map Prod.fst ++ treeIds n i (Routes.node o ch rest) := by
          rw [c3, hids]
          simp [treeIds]
        show KaPost n i (Routes.node o ch rest) r
          (match Ka n (i + 1) rest r2 with
            | Except.error e => Except.error e
            | Except.ok (d, r3) => Except.ok (DataRoutes.node o (routeId o (n ++ [i])) dc d, r3))
        cases hkr : Ka n (i + 1) rest r2 with
        | error e =>
          rw [hkr] at hihr
          simp only [KaPost] at hihr ⊢
          rw [hkeys2] at hihr
          rcases hihr with ⟨he, hi⟩ | h
          · exact Or.inl ⟨he, by simp [indexWithChildren, hi]⟩
          · exact Or.inr h
        | ok q =>
          obtain ⟨d, r3⟩ := q
          rw [hkr] at hihr
          simp only [KaPost] at hihr ⊢
          rw [hkeys2] at hihr
          obtain ⟨h1, h2, h3, h4, h5⟩ := hihr
          refine ⟨by simp [indexWithChildren, hidx, c1, h1], h2, ?_, ?_, ?_⟩
          · rw [h3, c3]; simp [treeEntries]
          · simp [DataRoutes.shape, h4, c4]
          · simp [DataRoutes.entries, treeEntries, h5, c5]

lemma routeId_cases (o : RouteProps) (l : List Nat) :
    routeId o l ∈ o.id.toList ∨ routeId o l = joinWith '-' (l.map decimal) := by
  unfold routeId
  cases o.id with
  | none => exact Or.inr rfl
  | some s => exact Or.inl (by simp)

lemma treeIds_cases (routes : Routes) : ∀ (n : List Nat) (i : Nat),
    ∀ a ∈ treeIds n i routes,
      a ∈ explicitIds routes ∨ ∃ l : List Nat, l ≠ [] ∧ a = joinWith '-' (l.map decimal) := by
  induction routes with
  | nil => intro n i a ha; simp [treeIds, treeEntries] at ha
  | leaf o rest ih =>
    intro n i a ha
    simp only [treeIds, treeEntries, List.map_cons, List.mem_cons] at ha
    rcases ha with rfl | ha
    · rcases routeId_cases o (n ++ [i]) with h | h
      · exact Or.inl (by simp only [explicitIds, List.mem_append]; exact Or.inl h)
      · exact Or.inr ⟨n ++ [i], by simp, h⟩
    · rcases ih n (i + 1) a ha with h | h
      · exact Or.inl (by simp only [explicitIds, List.mem_append]; exact Or.inr h)
      · exact Or.inr h
  | node o ch rest ihc ihr =>
    intro n i a ha
    simp only [treeIds, treeEntries, List.map_cons, List.mem_cons, List.map_append,
      List.mem_append] at ha
    rcases ha with rfl | ha | ha
    · rcases routeId_cases o (n ++ [i]) with h | h
      · exact Or.inl (by simp only [explicitIds, List.mem_append]; exact Or.inl h)
      · exact Or.inr ⟨n ++ [i], by simp, h⟩
    · rcases ihc (n ++ [i]) 0 a ha with h | h
      · exact Or.inl (by simp only [explicitIds, List.mem_append]; exact Or.inr (Or.inl h))
      · exact Or.inr h
    · rcases ihr n (i + 1) a ha with h | h
      · exact Or.inl (by simp only [explicitIds, List.mem_append]; exact Or.inr (Or.inr h))
      · exact Or.inr h

lemma treeIds_not_prototype (routes : Routes)
    (H : ∀ a ∈ explicitIds routes, String.mk a ∉ objectPrototypeNames) :
    ∀ a ∈ treeIds [] 0 routes, String.mk a ∉ objectPrototypeNames := by
  intro a ha
  rcases treeIds_cases routes [] 0 a ha with h | ⟨l, hl, rfl⟩
  · exact H a h
  · exact positionId_not_prototype l hl

lemma treeEntries_pos (routes : Routes) : ∀ (n : List Nat) (i : Nat),
    ∀ e ∈ treeEntries n i routes, ∃ j tail, i ≤ j ∧ e.2 = n ++ j :: tail := by
  induction routes with
  | nil => intro n i e he; simp [treeEntries] at he
  | leaf o rest ih =>
    intro n i e he
    simp only [treeEntries, List.mem_cons] at he
    rcases he with rfl | he
    · exact ⟨i, [], le_refl _, rfl⟩
    · obtain ⟨j, tail, hj, h⟩ := ih n (i + 1) e he
      exact ⟨j, tail, by omega, h⟩
  | node o ch rest ihc ihr =>
    intro n i e he
    simp only [treeEntries, List.mem_cons, List.mem_append] at he
    rcases he with rfl | he | he
    · exact ⟨i, [], le_refl _, rfl⟩
    · obtain ⟨j, tail, _, h⟩ := ihc (n ++ [i]) 0 e he
      exact ⟨i, j :: tail, le_refl _, by rw [h]; simp⟩
    · obtain ⟨j, tail, hj, h⟩ := ihr n (i + 1) e he
      exact ⟨j, tail, by omega, h⟩

lemma treeEntries_pos_nodup (routes : Routes) : ∀ (n : List Nat) (i : Nat),
    ((treeEntries n i routes).map Prod.snd).Nodup := by
  induction routes with
  | nil => intro n i; simp [treeEntries]
  | leaf o rest ih =>
    intro n i
    simp only [treeEntries, List.map_cons, List.nodup_cons]
    refine ⟨?_, ih n (i + 1)⟩
    intro hmem
    obtain ⟨e, he, heq⟩ := List.mem_map.mp hmem
    obtain ⟨j, tail, hj, h⟩ := treeEntries_pos rest n (i + 1) e he
    rw [h] at heq
    have := List.append_cancel_left heq
    simp at this
    omega
  | node o ch rest ihc ihr =>
    intro n i
    simp only [treeEntries, List.map_cons, List.map_append, List.nodup_cons, List.mem_append,
      List.nodup_append]
    refine ⟨?_, ihc (n ++ [i]) 0, ihr n (i + 1), ?_⟩
    · rintro (hmem | hmem)
      · obtain ⟨e, he, heq⟩ := List.mem_map.mp hmem
        obtain ⟨j, tail, _, h⟩ := treeEntries_pos ch (n ++ [i]) 0 e he
        rw [h] at heq
        have := congrArg List.length heq
        simp at this
      · obtain ⟨e, he, heq⟩ := List.mem_map.mp hmem
        obtain ⟨j, tail, hj, h⟩ := treeEntries_pos rest n (i + 1) e he
        rw [h] at heq
        have := List.append_cancel_left heq
        simp at this
        omega
    · intro p hp1 hp2
      obtain ⟨e, he, heq⟩ := List.mem_map.mp hp1
      obtain ⟨j, tail, _, h⟩ := treeEntries_pos ch (n ++ [i]) 0 e he
      obtain ⟨e2, he2, heq2⟩ := List.mem_map.mp hp2
      obtain ⟨j2, tail2, hj2, h2⟩ := treeEntries_pos rest n (i + 1) e2 he2
      rw [← heq2, h2, h] at heq
      rw [List.append_assoc] at heq
      have := List.append_cancel_left heq
      simp at this
      omega

lemma treeEntries_positional (routes : Routes) (hno : noExplicitIds routes = true) :
    ∀ (n : List Nat) (i : Nat), ∀ e ∈ treeEntries n i routes,
      e.1 = joinWith '-' (e.2.map decimal) := by
  induction routes with
  | nil => intro n i e he; simp [treeEntries] at he
  | leaf o rest ih =>
    intro n i e he
    simp only [noExplicitIds, Bool.and_eq_true, Option.isNone_iff_eq_none] at hno
    simp only [treeEntries, List.mem_cons] at he
    rcases he with rfl | he
    · simp [routeId, hno.1]
    · exact ih hno.2 n (i + 1) e he
  | node o ch rest ihc ihr =>
    intro n i e he
    simp only [noExplicitIds, Bool.and_eq_true, Option.isNone_iff_eq_none] at hno
    simp only [treeEntries, List.mem_cons, List.mem_append] at he
    rcases he with rfl | he | he
    · simp [routeId, hno.1.1]
    · exact ihc hno.1.2 (n ++ [i]) 0 e he
    · exact ihr hno.2 n (i + 1) e he

lemma explicitIds_nil (routes : Routes) (hno : noExplicitIds routes = true) :
    explicitIds routes = [] := by
  induction routes with
  | nil => rfl
  | leaf o rest ih =>
    simp only [noExplicitIds, Bool.and_eq_true, Option.isNone_iff_eq_none] at hno
    simp [explicitIds, hno.1, ih hno.2]
  | node o ch rest ihc ihr =>
    simp only [noExplicitIds, Bool.and_eq_true, Option.isNone_iff_eq_none] at hno
    simp [explicitIds, hno.1.1, ihc hno.1.2, ihr hno.2]

lemma treeIds_nodup_positional (routes : Routes) (hno : noExplicitIds routes = true)
    (n : List Nat) (i : Nat) : (treeIds n i routes).Nodup := by
  have e : treeIds n i routes =
      ((treeEntries n i routes).map Prod.snd).map (fun l => joinWith '-' (l.map decimal)) := by
    unfold treeIds
    rw [List.map_map]
    exact List.map_congr_left (fun e he => treeEntries_positional routes hno n i e he)
  rw [e]
  refine List.Nodup.map_on ?_ (treeEntries_pos_nodup routes n i)
  intro x hx y hy hxy
  obtain ⟨ex, hex, rfl⟩ := List.mem_map.mp hx
  obtain ⟨ey, hey, rfl⟩ := List.mem_map.mp hy
  obtain ⟨j1, t1, _, h1⟩ := treeEntries_pos routes n i ex hex
  obtain ⟨j2, t2, _, h2⟩ := treeEntries_pos routes n i ey hey
  exact positionId_injective _ _ (by rw [h1]; simp) (by rw [h2]; simp) hxy

lemma collisionError_ne_indexRouteError (a : List Char) :
    collisionError a ≠ indexRouteError := by
  intro h
  unfold collisionError indexRouteError at h
  have h2 := congrArg (fun e => match e with
    | JsError.other s => s.data.head?
    | JsError.pd s => s.data.head?) h
  simp [String.data_append] at h2

/-- Counterexample to C14 as stated: in the tree of an index route with an
(empty) children array followed by two routes with the id `a`, two routes
would receive the same id, and `Ka` throws 'Cannot specify children on an
index route' and not 'Found a route id collision'. -/
theorem Ka_collision_counterexample :
    ¬ (treeIds [] 0 sampleCollisionTree).Nodup ∧
    Ka [] 0 sampleCollisionTree [] = Except.error indexRouteError ∧
    ¬ ∃ a, Ka [] 0 sampleCollisionTree [] = Except.error (collisionError a) := by
  refine ⟨by decide, rfl, ?_⟩
  rintro ⟨a, h⟩
  have h2 : Ka [] 0 sampleCollisionTree [] = Except.error indexRouteError := rfl
  rw [h2] at h
  injection h with h
  exact collisionError_ne_indexRouteError a h.symm

/-- Claim C14 (amended): `Ka` called with an empty manifest on a tree whose
string ids are not names of members of `Object.prototype`.  Every route
receives its own string id, or else the indices of its position joined by '-'
(`treeEntries`).  The call throws iff some route has index === true and a
children array or two routes would receive the same id; what it throws is
'Cannot specify children on an index route', and then some index route has
children, or 'Found a route id collision', and then two routes would receive
the same id, so each defect alone gives its own error.  Otherwise the call
returns a tree of the same shape whose routes carry these ids, and the
manifest has exactly one entry per route, under pairwise distinct ids.  A
tree without string ids and without index routes having children never
throws, and its ids are pairwise distinct. -/
theorem Ka_spec (routes : Routes) :
    ((∀ a ∈ explicitIds routes, String.mk a ∉ objectPrototypeNames) →
      ((∃ e, Ka [] 0 routes [] = Except.error e) ↔
        (indexWithChildren routes = true ∨ ¬ (treeIds [] 0 routes).Nodup)) ∧
      (∀ e, Ka [] 0 routes [] = Except.error e →
        (e = indexRouteError ∧ indexWithChildren routes = true) ∨
        (∃ a, e = collisionError a ∧ ¬ (treeIds [] 0 routes).Nodup)) ∧
      (indexWithChildren routes = true → (treeIds [] 0 routes).Nodup →
        Ka [] 0 routes [] = Except.error indexRouteError) ∧
      (indexWithChildren routes = false → ¬ (treeIds [] 0 routes).Nodup →
        ∃ a, Ka [] 0 routes [] = Except.error (collisionError a)) ∧
      (∀ d m, Ka [] 0 routes [] = Except.ok (d, m) →
        d.shape = routes ∧ d.entries [] 0 = treeEntries [] 0 routes ∧
        m = treeEntries [] 0 routes ∧ (m.map Prod.fst).Nodup)) ∧
    (noExplicitIds routes = true → indexWithChildren routes = false →
      (treeIds [] 0 routes).Nodup ∧
      ∃ d, Ka [] 0 routes [] = Except.ok (d, treeEntries [] 0 routes)) := by
  have main : (∀ a ∈ explicitIds routes, String.mk a ∉ objectPrototypeNames) →
      KaPost [] 0 routes [] (Ka [] 0 routes []) := fun H =>
    Ka_post routes [] 0 [] (by simp) (treeIds_not_prototype routes H)
  constructor
  · intro H
    have hpost := main H
    cases hk : Ka [] 0 routes [] with
    | error e =>
      rw [hk] at hpost
      simp only [KaPost, List.map_nil, List.nil_append] at hpost
      refine ⟨?_, ?_, ?_, ?_, ?_⟩
      · constructor
        · intro _
          rcases hpost with ⟨_, hi⟩ | ⟨a, _, hnd⟩
          · exact Or.inl hi
          · exact Or.inr hnd
        · intro _; exact ⟨e, rfl⟩
      · intro e2 he2
        injection he2 with he2
        subst he2
        exact hpost
      · intro _ hnd
        rcases hpost with ⟨he, _⟩ | ⟨a, _, hnd2⟩
        · rw [he]
        · exact absurd hnd hnd2
      · intro hi _
        rcases hpost with ⟨_, hi2⟩ | ⟨a, he, _⟩
        · rw [hi] at hi2; cases hi2
        · exact ⟨a, by rw [he]⟩
      · intro d m h; cases h
    | ok p =>
      obtain ⟨d, m⟩ := p
      rw [hk] at hpost
      simp only [KaPost, List.map_nil, List.nil_append] at hpost
      obtain ⟨h1, h2, h3, h4, h5⟩ := hpost
      refine ⟨?_, ?_, ?_, ?_, ?_⟩
      · constructor
        · rintro ⟨e, he⟩; cases he
        · rintro (hi | hnd)
          · rw [h1] at hi; cases hi
          · exact absurd h2 hnd
      · intro e he; cases he
      · intro hi _; rw [h1] at hi; cases hi
      · intro _ hnd; exact absurd h2 hnd
      · intro d2 m2 h
        injection h with h
        injection h with hd hm
        subst hd; subst hm
        refine ⟨h4, h5, h3, ?_⟩
        rw [h3]
        exact h2
  · intro hno hi
    have H : ∀ a ∈ explicitIds routes, String.mk a ∉ objectPrototypeNames := by
      rw [explicitIds_nil routes hno]
      intro a ha
      cases ha
    have hnd := treeIds_nodup_positional routes hno [] 0
    refine ⟨hnd, ?_⟩
    have hpost := main H
    cases hk : Ka [] 0 routes [] with
    | error e =>
      rw [hk] at hpost
      simp only [KaPost, List.map_nil, List.nil_append] at hpost
      rcases hpost with ⟨_, hi2⟩ | ⟨a, _, hnd2⟩
      · rw [hi] at hi2; cases hi2
      · exact absurd hnd hnd2
    | ok p =>
      obtain ⟨d, m⟩ := p
      rw [hk] at hpost
      simp only [KaPost, List.map_nil, List.nil_append] at hpost
      exact ⟨d, by rw [hpost.2.2.1]⟩

/-- Witness for C14.  In the tree with an index route with children and two
routes with the id `a` the string ids are no prototype names and the call
throws; in a tree of three routes without string ids the ids are `0`, `0-0`
and `1`, they are pairwise distinct, and `Ka` returns. -/
theorem Ka_spec_witness :
    (∀ a ∈ explicitIds sampleCollisionTree, String.mk a ∉ objectPrototypeNames) ∧
    ((∃ e, Ka [] 0 sampleCollisionTree [] = Except.error e) ↔
      (indexWithChildren sampleCollisionTree = true ∨
        ¬ (treeIds [] 0 sampleCollisionTree).Nodup)) ∧
    treeIds [] 0 sampleIdTree = [['0'], ['0', '-', '0'], ['1']] ∧
    noExplicitIds sampleIdTree = true ∧ indexWithChildren sampleIdTree = false ∧
    ((treeIds [] 0 sampleIdTree).Nodup ∧
      ∃ d, Ka [] 0 sampleIdTree [] = Except.ok (d, treeEntries [] 0 sampleIdTree)) :=
  ⟨by decide, ((Ka_spec sampleCollisionTree).1 (by decide)).1,
    by decide, by decide, by decide,
    (Ka_spec sampleIdTree).2 (by decide) (by decide)⟩

/-! ### `Ig` (isHashChangeOnly) and the error boundary `Jg` -/

/-- Claim C27: `Ig(a,b)` is true exactly when the two locations have the same
pathname and the same search and the hash of `b` is not empty, so the case
analysis of the code on the hash of `a` amounts to this one condition;
removing the hash (`/page#x` to `/page`) is not a hash-only change, and
`/page#x` to `/page#x` is one. -/
theorem Ig_spec (a b : Location) :
    (Ig a b = true ↔ IgSpec a b) ∧
    Ig ⟨"/page".toList, [], "#x".toList⟩ ⟨"/page".toList, [], []⟩ = false ∧
    Ig ⟨"/page".toList, [], "#x".toList⟩ ⟨"/page".toList, [], "#x".toList⟩ = true := by
  refine ⟨?_, by decide, by decide⟩
  unfold Ig IgSpec
  by_cases h1 : a.pathname = b.pathname
  · by_cases h2 : a.search = b.search
    · by_cases h3 : a.hash = []
      · simp [h1, h2, h3]
      · by_cases h4 : a.hash = b.hash
        · have h5 : b.hash ≠ [] := fun h => h3 (h4.trans h)
          simp [h1, h2, h3, h4, h5]
        · simp [h1, h2, h3, h4]
    · simp [h1, h2]
  · simp [h1]

/-- Claim C28: `getDerivedStateFromProps` of the error boundary.  When the
location of the state differs from the location of the props, or the state's
revalidation is not 'idle' while the props' revalidation is 'idle', the result
is the error, location and revalidation of the props, so that a caught error
is cleared when the props carry no error.  Otherwise the result keeps the
location of the state, has the error of the props when that is not undefined
and the error of the state otherwise, and has the revalidation of the props
when that is truthy and the revalidation of the state otherwise. -/
theorem Jg_getDerivedStateFromProps_spec {L E : Type} [DecidableEq L]
    (t n : BoundaryFields L E) :
    ((n.location ≠ t.location ∨
        (n.revalidation ≠ some "idle" ∧ t.revalidation = some "idle")) →
      (Jg.getDerivedStateFromProps t n).error = t.error ∧
      (Jg.getDerivedStateFromProps t n).location = t.location ∧
      (Jg.getDerivedStateFromProps t n).revalidation = t.revalidation ∧
      (t.error = none → (Jg.getDerivedStateFromProps t n).error = none)) ∧
    (¬ (n.location ≠ t.location ∨
        (n.revalidation ≠ some "idle" ∧ t.revalidation = some "idle")) →
      (Jg.getDerivedStateFromProps t n).location = n.location ∧
      (t.error ≠ none → (Jg.getDerivedStateFromProps t n).error = t.error) ∧
      (t.error = none → (Jg.getDerivedStateFromProps t n).error = n.error) ∧
      (revalidationTruthy t.revalidation = true →
        (Jg.getDerivedStateFromProps t n).revalidation = t.revalidation) ∧
      (revalidationTruthy t.revalidation = false →
        (Jg.getDerivedStateFromProps t n).revalidation = n.revalidation)) := by
  constructor
  · intro h
    unfold Jg.getDerivedStateFromProps
    rw [if_pos h]
    exact ⟨rfl, rfl, rfl, fun h => h⟩
  · intro h
    unfold Jg.getDerivedStateFromProps
    rw [if_neg h]
    refine ⟨rfl, ?_, ?_, ?_, ?_⟩
    · intro he
      cases hte : t.error with
      | none => exact absurd hte he
      | some e => simp
    · intro he
      simp [he]
    · intro hr
      simp [hr]
    · intro hr
      simp [hr]

/-- Witness for C28 with numbered locations: a new location clears the caught
error, and the same location keeps it. -/
theorem Jg_getDerivedStateFromProps_spec_witness :
    (Jg.getDerivedStateFromProps
      (⟨none, 2, some "idle"⟩ : BoundaryFields Nat String)
      ⟨some "boom", 1, some "idle"⟩).error = none ∧
    (Jg.getDerivedStateFromProps
      (⟨none, 1, some "idle"⟩ : BoundaryFields Nat String)
      ⟨some "boom", 1, some "idle"⟩).error = some "boom" :=
  ⟨((Jg_getDerivedStateFromProps_spec
      (⟨none, 2, some "idle"⟩ : BoundaryFields Nat String)
      ⟨some "boom", 1, some "idle"⟩).1 (Or.inl (by decide))).2.2.2 rfl,
   (((Jg_getDerivedStateFromProps_spec
      (⟨none, 1, some "idle"⟩ : BoundaryFields Nat String)
      ⟨some "boom", 1, some "idle"⟩).2 (by decide)).2.2.1 rfl).trans rfl⟩

/-! ### Reachable states of the store `k0` -/

lemma k0_setState_inv (s : k0) (t : String)
    (h : s.loadingCount > 0 → s.connectionState = "loading") :
    (s.setState t).loadingCount > 0 → (s.setState t).connectionState = "loading" := by
  by_cases ht : t = s.connectionState
  · subst ht
    rw [k0_setState_same]
    exact h
  · rw [k0_setState_ne s t ht]
    intro h0
    exact absurd h0 (by simp)

lemma k0_decreaseLoadingCount_inv (s : k0) (t : String)
    (h : s.loadingCount > 0 → s.connectionState = "loading") :
    (s.decreaseLoadingCount t).loadingCount > 0 →
      (s.decreaseLoadingCount t).connectionState = "loading" := by
  unfold k0.decreaseLoadingCount
  by_cases h0 : s.loadingCount > 0
  · rw [if_pos h0]
    by_cases h1 : s.loadingCount - 1 = 0
    · simp only [h1, if_true]
      apply k0_setState_inv
      intro hc
      simp at hc
    · simp only [h1, if_false]
      intro _
      exact h h0
  · rw [if_neg h0]
    exact h

lemma StoreOp_run_inv (op : StoreOp) (s : k0)
    (h : s.loadingCount > 0 → s.connectionState = "loading") :
    (op.run s).loadingCount > 0 → (op.run s).connectionState = "loading" := by
  cases op with
  | loadingStarted =>
    intro _
    exact (k0_loadingStarted_spec s).1
  | loadingFinished => exact k0_decreaseLoadingCount_inv s _ h
  | loadingFailed => exact k0_decreaseLoadingCount_inv s _ h
  | assign t => exact k0_setState_inv s t h
  | addStateChangeListener t =>
    simp only [StoreOp.run, k0.addStateChangeListener]
    split
    · exact h
    · exact h
  | removeStateChangeListener t => exact h

lemma runStoreOps_inv (ops : List StoreOp) : ∀ (s : k0),
    (s.loadingCount > 0 → s.connectionState = "loading") →
    (runStoreOps ops s).loadingCount > 0 → (runStoreOps ops s).connectionState = "loading" := by
  induction ops with
  | nil => intro s h; exact h
  | cons op ops ih =>
    intro s h
    exact ih (op.run s) (StoreOp_run_inv op s h)

lemma k0_decreaseLoadingCount_zero (s : k0) (t : String) (h : s.loadingCount = 0) :
    s.decreaseLoadingCount t = s := by
  unfold k0.decreaseLoadingCount
  rw [if_neg (by omega)]

lemma runStoreOps_completions_zero (es : List StoreOp) : ∀ (s : k0),
    s.loadingCount = 0 → (∀ op ∈ es, op.isCompletion = true) → runStoreOps es s = s := by
  induction es with
  | nil => intro s _ _; rfl
  | cons op es ih =>
    intro s h hes
    have hop := hes op (List.mem_cons_self _ _)
    have hstep : op.run s = s := by
      cases op with
      | loadingFinished => exact k0_decreaseLoadingCount_zero s _ h
      | loadingFailed => exact k0_decreaseLoadingCount_zero s _ h
      | loadingStarted => simp [StoreOp.isCompletion] at hop
      | assign t => simp [StoreOp.isCompletion] at hop
      | addStateChangeListener t => simp [StoreOp.isCompletion] at hop
      | removeStateChangeListener t => simp [StoreOp.isCompletion] at hop
    show runStoreOps es (op.run s) = s
    rw [hstep]
    exact ih s h (fun o ho => hes o (List.mem_cons_of_mem _ ho))

/-- Claim C23: in every state that a newly constructed store reaches by a
sequence of `loadingStarted()`, `loadingFinished()`, `loadingFailed()` and
assignments to `state` (and registrations and removals of listeners), the
loading count is not negative, and a positive loading count implies that the
state is 'loading'.  The count is a natural number in the store; its only
decrement is the one of `decreaseLoadingCount`, made when the count is
positive. -/
theorem k0_reachable_invariant (t : String) (ops : List StoreOp) :
    (0 : Int) ≤ ((runStoreOps ops (k0.new t)).loadingCount : Int) ∧
    ((runStoreOps ops (k0.new t)).loadingCount > 0 →
      (runStoreOps ops (k0.new t)).connectionState = "loading") :=
  ⟨Int.ofNat_nonneg _,
    runStoreOps_inv ops (k0.new t) (fun h => absurd h (by simp [k0.new]))⟩

/-- Claim C24: `loadingFinished()` and `loadingFailed()` called on a store
whose loading count is 0 return the store as it is: same state, same count,
no listener called.  Consequently, when a reachable store has `k >= 1` loads
outstanding and `state` is assigned a value `t` other than 'loading', the
state becomes `t` with count 0, and the `k` completion calls that follow
leave the store as it is, so the state stays `t`. -/
theorem k0_stale_completions (s : k0) (t0 : String) (ops : List StoreOp) (k : Nat)
    (t : String) (es : List StoreOp) :
    (s.loadingCount = 0 → s.loadingFinished = s ∧ s.loadingFailed = s) ∧
    ((runStoreOps ops (k0.new t0)).loadingCount = k → 1 ≤ k → t ≠ "loading" →
      es.length = k → (∀ op ∈ es, op.isCompletion = true) →
      ((runStoreOps ops (k0.new t0)).setState t).connectionState = t ∧
      ((runStoreOps ops (k0.new t0)).setState t).loadingCount = 0 ∧
      runStoreOps es ((runStoreOps ops (k0.new t0)).setState t) =
        (runStoreOps ops (k0.new t0)).setState t) := by
  constructor
  · intro h
    exact ⟨k0_decreaseLoadingCount_zero s _ h, k0_decreaseLoadingCount_zero s _ h⟩
  · intro hk h1 ht _ hes
    have hinv := runStoreOps_inv ops (k0.new t0) (fun h => absurd h (by simp [k0.new]))
    have hstate : (runStoreOps ops (k0.new t0)).connectionState = "loading" :=
      hinv (by omega)
    have hne : t ≠ (runStoreOps ops (k0.new t0)).connectionState := by
      rw [hstate]; exact ht
    have hcount : ((runStoreOps ops (k0.new t0)).setState t).loadingCount = 0 := by
      rw [k0_setState_ne _ t hne]
    exact ⟨k0_setState_connectionState _ t, hcount,
      runStoreOps_completions_zero es _ hcount hes⟩

/-- Witness for C24: a store with one listener and two loads outstanding is
set to 'connection-lost'; the two completions that follow change nothing. -/
theorem k0_stale_completions_witness :
    (runStoreOps [StoreOp.loadingFinished, StoreOp.loadingFailed]
      ((runStoreOps [StoreOp.addStateChangeListener 7, StoreOp.loadingStarted,
          StoreOp.loadingStarted] (k0.new "connected")).setState "connection-lost")).state
      = "connection-lost" ∧
    (k0.new "connected").loadingFinished = k0.new "connected" :=
  ⟨congrArg k0.state ((k0_stale_completions (k0.new "connected") "connected"
      [StoreOp.addStateChangeListener 7, StoreOp.loadingStarted, StoreOp.loadingStarted] 2
      "connection-lost" [StoreOp.loadingFinished, StoreOp.loadingFailed]).2
      (by decide) (by decide) (by decide) (by decide) (by decide)).2.2 |>.trans (by decide),
   ((k0_stale_completions (k0.new "connected") "connected" [] 0 "x" []).1 rfl).1⟩

/-- Witness for C23: after two started loads and one completion the count is
positive and the state is 'loading'. -/
theorem k0_reachable_invariant_witness :
    (runStoreOps [StoreOp.loadingStarted, StoreOp.loadingStarted, StoreOp.loadingFinished]
      (k0.new "connected")).loadingCount = 1 ∧
    (runStoreOps [StoreOp.loadingStarted, StoreOp.loadingStarted, StoreOp.loadingFinished]
      (k0.new "connected")).connectionState = "loading" :=
  ⟨by decide, (k0_reachable_invariant "connected"
    [StoreOp.loadingStarted, StoreOp.loadingStarted, StoreOp.loadingFinished]).2 (by decide)⟩

lemma toUint32_lt (x : Int) : toUint32 x < 4294967296 := by
  unfold toUint32
  omega

lemma toUint32_natCast (c : Nat) : toUint32 (c : Int) = c % 4294967296 := by
  unfold toUint32
  omega

lemma toInt32_modEq (y : Int) : toInt32 y ≡ y [ZMOD 4294967296] := by
  unfold toInt32 Int.ModEq
  omega

lemma toUint32_cast (x : Int) : ((toUint32 x : Nat) : Int) = x % 4294967296 := by
  unfold toUint32
  omega

lemma toUint32_congr (a b : Int) (h : a ≡ b [ZMOD 4294967296]) : toUint32 a = toUint32 b := by
  unfold toUint32
  rw [h]

lemma shift_add (x : Int) :
    toUint32 (x + (toInt32 (toInt32 x * 2) + toInt32 (toInt32 x * 16) + toInt32 (toInt32 x * 128)
      + toInt32 (toInt32 x * 256) + toInt32 (toInt32 x * 16777216)))
    = (toUint32 x * 16777619) % 4294967296 := by
  have h : ∀ c : Int, toInt32 (toInt32 x * c) ≡ x * c [ZMOD 4294967296] := fun c =>
    (toInt32_modEq _).trans ((toInt32_modEq x).mul_right c)
  have hsum : x + (toInt32 (toInt32 x * 2) + toInt32 (toInt32 x * 16) + toInt32 (toInt32 x * 128)
      + toInt32 (toInt32 x * 256) + toInt32 (toInt32 x * 16777216))
      ≡ ((toUint32 x * 16777619 : Nat) : Int) [ZMOD 4294967296] := by
    have e : ((toUint32 x * 16777619 : Nat) : Int) =
        (x % 4294967296) + ((x % 4294967296) * 2 + (x % 4294967296) * 16
          + (x % 4294967296) * 128 + (x % 4294967296) * 256 + (x % 4294967296) * 16777216) := by
      push_cast
      rw [toUint32_cast]
      ring
    rw [e]
    have hx : x ≡ x % 4294967296 [ZMOD 4294967296] := (Int.mod_modEq x _).symm
    exact hx.add (((((h 2).trans (hx.mul_right 2)).add ((h 16).trans (hx.mul_right 16))).add
      ((h 128).trans (hx.mul_right 128))).add ((h 256).trans (hx.mul_right 256))
      |>.add ((h 16777216).trans (hx.mul_right 16777216)))
  rw [toUint32_congr _ _ hsum]
  have e : ((toUint32 x * 16777619 : Nat) : Int) % 4294967296 =
      (((toUint32 x * 16777619) % 4294967296 : Nat) : Int) := by
    norm_cast
  show (((toUint32 x * 16777619 : Nat) : Int) % 4294967296).toNat = _
  rw [e, Int.toNat_natCast]

lemma xor_mod_two_pow32 (a b : Nat) (ha : a < 4294967296) :
    a ^^^ (b % 4294967296) = (a ^^^ b) % 4294967296 := by
  have e : (4294967296 : Nat) = 2 ^ 32 := by norm_num
  rw [e] at ha ⊢
  apply Nat.eq_of_testBit_eq
  intro i
  simp only [Nat.testBit_xor, Nat.testBit_mod_two_pow]
  by_cases hi : i < 32
  · simp [hi]
  · have : a.testBit i = false := by
      apply Nat.testBit_lt_two_pow
      exact lt_of_lt_of_le ha (Nat.pow_le_pow_right (by norm_num) (by omega))
    simp [hi, this]

lemma gdStep_toUint32 (r : Int) (c : Nat) :
    toUint32 (gdStep r c) = ((toUint32 r ^^^ c) * 16777619) % 4294967296 := by
  have hstep : gdStep r c = xor32 r c + (toInt32 (toInt32 (xor32 r c) * 2)
      + toInt32 (toInt32 (xor32 r c) * 16) + toInt32 (toInt32 (xor32 r c) * 128)
      + toInt32 (toInt32 (xor32 r c) * 256) + toInt32 (toInt32 (xor32 r c) * 16777216)) := by
    simp only [gdStep, shl32]
    norm_num
  have hlt : toUint32 r ^^^ (c % 4294967296) < 4294967296 := by
    have e : (4294967296 : Nat) = 2 ^ 32 := by norm_num
    rw [e]
    apply Nat.xor_lt_two_pow
    · rw [← e]; exact toUint32_lt r
    · rw [← e]; exact Nat.mod_lt _ (by norm_num)
  have hx : toUint32 (xor32 r c) = (toUint32 r ^^^ c) % 4294967296 := by
    unfold xor32
    rw [toUint32_congr _ _ (toInt32_modEq _), toUint32_natCast, toUint32_natCast,
      Nat.mod_eq_of_lt hlt, xor_mod_two_pow32 _ _ (toUint32_lt r)]
  rw [hstep, shift_add, hx, Nat.mul_mod, Nat.mod_mod, ← Nat.mul_mod]

lemma gd_fold (e : List Nat) : ∀ r : Int,
    toUint32 (e.foldl gdStep r) =
      e.foldl (fun h c => ((h ^^^ c) * 16777619) % 4294967296) (toUint32 r) := by
  induction e with
  | nil => intro r; rfl
  | cons c e ih =>
    intro r
    rw [List.foldl_cons, List.foldl_cons, ih, gdStep_toUint32]

lemma gd_fold_fnv1a (e : List Nat) : toUint32 (e.foldl gdStep 2166136261) = fnv1a e := by
  rw [gd_fold]
  have : toUint32 2166136261 = 2166136261 := by
    unfold toUint32
    omega
  rw [this]
  rfl

lemma hexDigit_mem (d : Nat) : hexDigit d ∈ hexChars := by
  unfold hexDigit
  split <;> decide

lemma hexVal_hexDigit : ∀ d < 16, hexVal (hexDigit d) = d := by
  decide

lemma toString16Core_eq : ∀ (fuel n : Nat) (acc : List Char), 0 < n → n < fuel →
    toString16Core fuel n acc = (Nat.digits 16 n).reverse.map hexDigit ++ acc := by
  intro fuel
  induction fuel with
  | zero => intro n acc _ h; omega
  | succ fuel ih =>
    intro n acc hn hlt
    unfold toString16Core
    rw [Nat.digits_def' (by norm_num) hn]
    by_cases h0 : n / 16 = 0
    · simp [h0]
    · rw [if_neg h0, ih (n / 16) _ (Nat.pos_of_ne_zero h0) (by omega)]
      simp

lemma toString16_eq (n : Nat) :
    toString16 n = if n = 0 then ['0'] else (Nat.digits 16 n).reverse.map hexDigit := by
  by_cases h : n = 0
  · subst h; rfl
  · rw [if_neg h]
    unfold toString16
    rw [toString16Core_eq (n + 1) n [] (Nat.pos_of_ne_zero h) (by omega)]
    simp

lemma ofHex_fold (ds : List Nat) (hds : ∀ d ∈ ds, d < 16) : ∀ a : Nat,
    (ds.reverse.map hexDigit).foldl (fun a c => 16 * a + hexVal c) a
      = a * 16 ^ ds.length + Nat.ofDigits 16 ds := by
  induction ds with
  | nil => intro a; simp
  | cons d ds ih =>
    intro a
    have hd := hexVal_hexDigit d (hds d (List.mem_cons_self _ _))
    rw [List.reverse_cons, List.map_append, List.foldl_append,
      ih (fun x hx => hds x (List.mem_cons_of_mem _ hx))]
    simp only [List.map_cons, List.map_nil, List.foldl_cons, List.foldl_nil, hd,
      Nat.ofDigits_cons, List.length_cons]
    ring

lemma ofHex_zeros (z : Nat) (s : List Char) :
    ofHex (List.replicate z '0' ++ s) = ofHex s := by
  unfold ofHex
  rw [List.foldl_append]
  have : (List.replicate z '0').foldl (fun a c => 16 * a + hexVal c) 0 = 0 := by
    induction z with
    | zero => rfl
    | succ z ih =>
      rw [List.replicate_succ, List.foldl_cons]
      exact ih
  rw [this]

lemma toString16_props (n : Nat) (hn : n < 4294967296) :
    1 ≤ (toString16 n).length ∧ (toString16 n).length ≤ 8 ∧
    (∀ c ∈ toString16 n, c ∈ hexChars) ∧ ofHex (toString16 n) = n := by
  rw [toString16_eq]
  by_cases h : n = 0
  · subst h
    simp only [if_true]
    decide
  · rw [if_neg h]
    have hlen : (Nat.digits 16 n).length ≤ 8 := by
      have h1 := Nat.base_pow_length_digits_le 16 n (by norm_num) h
      by_contra hc
      have h2 : 16 ^ 9 ≤ 16 ^ (Nat.digits 16 n).length :=
        Nat.pow_le_pow_right (by norm_num) (by omega)
      have h3 : (16 : Nat) ^ 9 = 68719476736 := by norm_num
      omega
    have hpos : 1 ≤ (Nat.digits 16 n).length := by
      have hne : Nat.digits 16 n ≠ [] := Nat.digits_ne_nil_iff_ne_zero.mpr h
      exact List.length_pos.mpr hne
    refine ⟨by simpa using hpos, by simpa using hlen, ?_, ?_⟩
    · intro c hc
      obtain ⟨d, _, rfl⟩ := List.mem_map.mp hc
      exact hexDigit_mem d
    · unfold ofHex
      rw [ofHex_fold _ (fun d hd => Nat.digits_lt_base (by norm_num) hd), Nat.ofDigits_digits]
      simp

lemma substrLast8_pad (s : List Char) (h1 : 1 ≤ s.length) (h8 : s.length ≤ 8) :
    substrLast8 ("0000000".toList ++ s) = List.replicate (8 - s.length) '0' ++ s := by
  unfold substrLast8
  have e : "0000000".toList = List.replicate 7 '0' := by decide
  rw [e, List.length_append, List.length_replicate]
  have e2 : 7 + s.length - 8 = s.length - 1 := by omega
  rw [e2, List.drop_append_of_le_length (by simp; omega), List.drop_replicate]
  congr 2
  omega

lemma gd_props (e : List Nat) :
    (gd e).length = 8 ∧ (∀ c ∈ gd e, c ∈ hexChars) ∧ ofHex (gd e) = fnv1a e := by
  have hp := toString16_props (toUint32 (e.foldl gdStep 2166136261)) (toUint32_lt _)
  obtain ⟨h1, h8, hc, hv⟩ := hp
  have hgd : gd e = List.replicate (8 - (toString16 (toUint32 (e.foldl gdStep 2166136261))).length)
      '0' ++ toString16 (toUint32 (e.foldl gdStep 2166136261)) := by
    unfold gd
    exact substrLast8_pad _ h1 h8
  rw [hgd]
  refine ⟨?_, ?_, ?_⟩
  · rw [List.length_append, List.length_replicate]
    omega
  · intro c hmem
    rcases List.mem_append.mp hmem with h | h
    · rw [List.eq_of_mem_replicate h]; decide
    · exact hc c h
  · rw [ofHex_zeros, hv, gd_fold_fnv1a]

/-- Claim C26: for every string, given by its list of UTF-16 code units,
`gd` returns exactly 8 lower-case hexadecimal digits whose value is the 32-bit
FNV-1a hash of the code units; one round of the loop, with its shift-and-add
expression, multiplies the xor by 16777619 modulo `2^32`.  The hash of the
empty string is `811c9dc5`, and `Ky` always has 16 hexadecimal digits. -/
theorem gd_spec (e : List Nat) :
    (gd e).length = 8 ∧ (∀ c ∈ gd e, c ∈ hexChars) ∧ ofHex (gd e) = fnv1a e ∧
    (∀ (r : Int) (c : Nat),
      toUint32 (gdStep r c) = ((toUint32 r ^^^ c) * 16777619) % 4294967296) ∧
    gd [] = "811c9dc5".toList ∧
    (Ky e).length = 16 ∧ (∀ c ∈ Ky e, c ∈ hexChars) := by
  obtain ⟨h1, h2, h3⟩ := gd_props e
  obtain ⟨k1, k2, _⟩ := gd_props (codeUnits (gd e) ++ e)
  refine ⟨h1, h2, h3, gdStep_toUint32, by decide, ?_, ?_⟩
  · unfold Ky
    simp only [List.length_append, h1, k1]
  · intro c hc
    unfold Ky at hc
    rcases List.mem_append.mp hc with h | h
    · exact h2 c h
    · exact k2 c h

/-! ### Global theme CSS injection `Zn` -/

lemma Zn_injected_mono (parse : List Nat → List Nat × List (List Nat × Option (List Nat)))
    (c : ZnCall) (d : ThemeDom) (key : List Char) (h : key ∈ d.injectedGlobalCss) :
    key ∈ (Zn parse c.css c.target c.first d).2.injectedGlobalCss := by
  unfold Zn
  cases c.target with
  | document =>
    simp only []
    by_cases hk : Ky c.css ∈ d.injectedGlobalCss
    · rw [if_pos hk]; exact h
    · rw [if_neg hk]
      simp only [Qy, By]
      exact List.mem_append_left _ h
  | shadowRoot k =>
    simp only [Wy, By]
    exact h

lemma runZn_injected_mono (parse : List Nat → List Nat × List (List Nat × Option (List Nat)))
    (calls : List ZnCall) : ∀ (d : ThemeDom) (key : List Char),
    key ∈ d.injectedGlobalCss → key ∈ (runZn parse calls d).injectedGlobalCss := by
  induction calls with
  | nil => intro d key h; exact h
  | cons c calls ih =>
    intro d key h
    exact ih _ key (Zn_injected_mono parse c d key h)

lemma Zn_document_injected (parse : List Nat → List Nat × List (List Nat × Option (List Nat)))
    (css : List Nat) (r : Bool) (d : ThemeDom) :
    Ky css ∈ (Zn parse css ThemeTarget.document r d).2.injectedGlobalCss := by
  unfold Zn
  simp only []
  by_cases hk : Ky css ∈ d.injectedGlobalCss
  · rw [if_pos hk]; exact hk
  · rw [if_neg hk]
    simp only [Qy, By]
    exact List.mem_append_right _ (List.mem_singleton_self _)

/-- Claim C25: after one call `Zn(css, _, document)`, and whatever calls of
`Zn` follow it, the key `Ky(css)` is in the list `injectedGlobalCss`, and a
call with the same text for the document returns `undefined` and leaves the
page as it is: no style element is added and the list is unchanged.  For a
target other than the document the list is not modified, and the call does
the same on two pages that differ only in the list. -/
theorem Zn_idempotent (parse : List Nat → List Nat × List (List Nat × Option (List Nat)))
    (css : List Nat) (r0 : Bool) (d0 : ThemeDom) (calls : List ZnCall) (r : Bool) :
    Ky css ∈ (runZn parse calls
      (Zn parse css ThemeTarget.document r0 d0).2).injectedGlobalCss ∧
    Zn parse css ThemeTarget.document r
        (runZn parse calls (Zn parse css ThemeTarget.document r0 d0).2) =
      (ZnResult.undefined, runZn parse calls (Zn parse css ThemeTarget.document r0 d0).2) ∧
    (∀ (k : Nat) (css2 : List Nat) (r2 : Bool) (d2 : ThemeDom) (l : List (List Char)),
      (Zn parse css2 (ThemeTarget.shadowRoot k) r2 d2).2.injectedGlobalCss =
        d2.injectedGlobalCss ∧
      Zn parse css2 (ThemeTarget.shadowRoot k) r2 { d2 with injectedGlobalCss := l } =
        ((Zn parse css2 (ThemeTarget.shadowRoot k) r2 d2).1,
          { (Zn parse css2 (ThemeTarget.shadowRoot k) r2 d2).2 with
            injectedGlobalCss := l })) := by
  have hmem := runZn_injected_mono parse calls _ _ (Zn_document_injected parse css r0 d0)
  refine ⟨hmem, ?_, ?_⟩
  · generalize runZn parse calls (Zn parse css ThemeTarget.document r0 d0).2 = d at hmem ⊢
    unfold Zn
    simp only []
    rw [if_pos hmem]
  · intro k css2 r2 d2 l
    exact ⟨rfl, rfl⟩

/-- Witness for C25 on an empty page: the first call for the document puts one
style element in the head and one key in the list, and the second call with
the same text changes neither. -/
theorem Zn_idempotent_witness :
    (Zn noImports (codeUnits "a".toList) ThemeTarget.document false emptyThemeDom).2.head.length
      = 1 ∧
    (Zn noImports (codeUnits "a".toList) ThemeTarget.document false
      (Zn noImports (codeUnits "a".toList) ThemeTarget.document false
        emptyThemeDom).2).2.head.length = 1 ∧
    (Zn noImports (codeUnits "a".toList) ThemeTarget.document false
      (Zn noImports (codeUnits "a".toList) ThemeTarget.document false
        emptyThemeDom).2).2.injectedGlobalCss.length = 1 := by
  have h := (Zn_idempotent noImports (codeUnits "a".toList) false emptyThemeDom [] false).2.1
  simp only [runZn, List.foldl_nil] at h
  refine ⟨rfl, ?_, ?_⟩
  · rw [h]; rfl
  · rw [h]; rfl

/-! ### The `css` tag `ye` and the class `iu` (CSSResult) -/

lemma cssValueText_accepted (toStr : JsVal → String) (o : CssValue)
    (h : o.accepted = true) : cssValueText toStr o = Except.ok (o.text toStr) := by
  cases o with
  | cssResult t => rfl
  | plain v =>
    cases v <;> first | rfl | (simp [CssValue.accepted] at h)

lemma cssValueText_rejected (toStr : JsVal → String) (o : CssValue)
    (h : o.accepted = false) : ∃ err, cssValueText toStr o = Except.error err := by
  cases o with
  | cssResult t => simp [CssValue.accepted] at h
  | plain v =>
    cases v <;> first | exact ⟨_, rfl⟩ | (simp [CssValue.accepted] at h)

lemma cssValueText_plain (toStr : JsVal → String) (v : JsVal)
    (h1 : v ≠ JsVal.undefined) (h2 : v ≠ JsVal.null) (h3 : ∀ n, v ≠ JsVal.num n) :
    cssValueText toStr (CssValue.plain v) = Except.error (cssValueError toStr v) := by
  cases v with
  | undefined => exact absurd rfl h1
  | null => exact absurd rfl h2
  | num n => exact absurd rfl (h3 n)
  | bool b => rfl
  | str s => rfl
  | obj r => rfl

lemma yeReduce_ok (toStr : JsVal → String) : ∀ (t : List CssValue) (es : List String)
    (pre : List String) (r : String),
    es.length = t.length → (∀ o ∈ t, o.accepted = true) →
    yeReduce toStr (pre ++ es) pre.length t r = Except.ok (r ++ interleave toStr t es) := by
  intro t
  induction t with
  | nil =>
    intro es pre r hlen _
    cases es with
    | nil => simp [yeReduce, interleave]
    | cons s es => simp at hlen
  | cons o t ih =>
    intro es pre r hlen hacc
    cases es with
    | nil => simp at hlen
    | cons s es =>
      unfold yeReduce
      rw [cssValueText_accepted toStr o (hacc o (List.mem_cons_self _ _))]
      have hget : (pre ++ s :: es).get? pre.length = some s := by
        rw [List.get?_eq_getElem?, List.getElem?_append_right (le_refl _)]
        simp
      have hpre : pre ++ s :: es = (pre ++ [s]) ++ es := by simp
      simp only [hget, Option.getD_some]
      rw [hpre]
      have := ih es (pre ++ [s]) (r ++ o.text toStr ++ s) (by simpa using hlen)
        (fun x hx => hacc x (List.mem_cons_of_mem _ hx))
      rw [List.length_append, List.length_singleton] at this
      rw [this]
      simp [interleave, String.append_assoc]

lemma yeReduce_error (toStr : JsVal → String) (es : List String) :
    ∀ (pre : List CssValue) (i : Nat) (r : String) (v : CssValue) (post : List CssValue)
      (err : JsError),
    (∀ o ∈ pre, o.accepted = true) → cssValueText toStr v = Except.error err →
    yeReduce toStr es i (pre ++ v :: post) r = Except.error err := by
  intro pre
  induction pre with
  | nil =>
    intro i r v post err _ hv
    simp only [List.nil_append]
    unfold yeReduce
    rw [hv]
  | cons o pre ih =>
    intro i r v post err hpre hv
    simp only [List.cons_append]
    unfold yeReduce
    rw [cssValueText_accepted toStr o (hpre o (List.mem_cons_self _ _))]
    exact ih _ _ v post err (fun x hx => hpre x (List.mem_cons_of_mem _ hx)) hv

lemma ye_error (toStr : JsVal → String) (e0 : String) (es : List String)
    (pre : List CssValue) (v : CssValue) (post : List CssValue) (err : JsError)
    (hlen : es.length = (pre ++ v :: post).length)
    (hpre : ∀ o ∈ pre, o.accepted = true) (hv : cssValueText toStr v = Except.error err) :
    ye toStr e0 es (pre ++ v :: post) = Except.error err := by
  unfold ye
  have hne : ¬ (e0 :: es).length = 1 := by
    simp only [List.length_cons, List.length_append] at hlen ⊢
    omega
  simp only [hne, if_false]
  rw [yeReduce_error toStr es pre 0 e0 v post err hpre hv]

lemma ye_ok (toStr : JsVal → String) (e0 : String) (es : List String) (t : List CssValue)
    (hlen : es.length = t.length) (hacc : ∀ o ∈ t, o.accepted = true) :
    ye toStr e0 es t =
      Except.ok { cssText := e0 ++ interleave toStr t es, t := some (e0 :: es) } := by
  unfold ye
  by_cases h1 : (e0 :: es).length = 1
  · have hes : es = [] := by
      cases es with
      | nil => rfl
      | cons s es => simp at h1
    have ht : t = [] := by
      cases t with
      | nil => rfl
      | cons o t => rw [hes] at hlen; simp at hlen
    subst hes; subst ht
    simp [interleave, iu.new]
  · simp only [h1, if_false]
    have := yeReduce_ok toStr t es [] e0 hlen hacc
    simp only [List.nil_append, List.length_nil] at this
    rw [this]
    simp [iu.new]

lemma exists_first_rejected : ∀ (t : List CssValue), (∃ o ∈ t, o.accepted = false) →
    ∃ pre v post, t = pre ++ v :: post ∧ (∀ o ∈ pre, o.accepted = true) ∧
      v.accepted = false := by
  intro t
  induction t with
  | nil => rintro ⟨o, ho, _⟩; cases ho
  | cons a t ih =>
    intro h
    by_cases ha : a.accepted = true
    · obtain ⟨o, ho, hf⟩ := h
      have hot : o ∈ t := by
        rcases List.mem_cons.mp ho with rfl | h
        · rw [ha] at hf; cases hf
        · exact h
      obtain ⟨pre, v, post, e, hp, hv⟩ := ih ⟨o, hot, hf⟩
      refine ⟨a :: pre, v, post, by rw [e]; rfl, ?_, hv⟩
      intro x hx
      rcases List.mem_cons.mp hx with rfl | h
      · exact ha
      · exact hp x h
    · exact ⟨[], a, t, rfl, by simp, by simpa using ha⟩

/-- Counterexample to C21 as stated: the value `undefined` is neither a number
nor a CSS result, and the `css` tag does not throw its own error for it: the
read of `_$cssResult$` throws the `TypeError` of the engine. -/
theorem ye_undefined_counterexample :
    ye sampleToStr "a" ["b"] [CssValue.plain JsVal.undefined]
      = Except.error nullishReadError ∧
    nullishReadError ≠ cssValueError sampleToStr JsVal.undefined :=
  ⟨rfl, by decide⟩

/-- Claim C21 (amended): the constructor of `iu` throws 'CSSResult is not
constructable' without the private token.  The `css` tag, called with one
more string than values, throws iff some value is neither a number nor a CSS
result; the first such value decides the error: 'Value passed to 'css'
function must be a 'css' function result' with the value, unless the value is
`undefined` or `null`, for which the read of the property throws a
`TypeError`.  When it does not throw, the `cssText` of the result is the
first string followed by the text of each value and the next string. -/
theorem ye_spec (toStr : JsVal → String) (e0 : String) (es : List String)
    (t : List CssValue) (hlen : es.length = t.length) :
    (∀ s n r, r ≠ CssToken.ou → iu.new s n r = Except.error notConstructableError) ∧
    (∀ pre v post, t = pre ++ CssValue.plain v :: post → (∀ o ∈ pre, o.accepted = true) →
      v ≠ JsVal.undefined → v ≠ JsVal.null → (∀ n, v ≠ JsVal.num n) →
      ye toStr e0 es t = Except.error (cssValueError toStr v)) ∧
    (∀ pre v post, t = pre ++ CssValue.plain v :: post → (∀ o ∈ pre, o.accepted = true) →
      (v = JsVal.undefined ∨ v = JsVal.null) →
      ye toStr e0 es t = Except.error nullishReadError) ∧
    ((∀ o ∈ t, o.accepted = true) →
      ye toStr e0 es t =
        Except.ok { cssText := e0 ++ interleave toStr t es, t := some (e0 :: es) }) ∧
    ((∃ err, ye toStr e0 es t = Except.error err) ↔ ∃ o ∈ t, o.accepted = false) := by
  refine ⟨?_, ?_, ?_, ?_, ?_⟩
  · intro s n r hr
    simp [iu.new, hr]
  · intro pre v post ht hpre h1 h2 h3
    subst ht
    exact ye_error toStr e0 es pre _ post _ hlen hpre (cssValueText_plain toStr v h1 h2 h3)
  · intro pre v post ht hpre hv
    subst ht
    refine ye_error toStr e0 es pre _ post _ hlen hpre ?_
    rcases hv with rfl | rfl <;> rfl
  · intro hacc
    exact ye_ok toStr e0 es t hlen hacc
  · constructor
    · rintro ⟨err, herr⟩
      by_contra hno
      have hacc : ∀ o ∈ t, o.accepted = true := by
        intro o ho
        by_contra hf
        exact hno ⟨o, ho, by simpa using hf⟩
      rw [ye_ok toStr e0 es t hlen hacc] at herr
      cases herr
    · intro h
      obtain ⟨pre, v, post, ht, hpre, hv⟩ := exists_first_rejected t h
      obtain ⟨err, herr⟩ := cssValueText_rejected toStr v hv
      subst ht
      exact ⟨err, ye_error toStr e0 es pre v post err hlen hpre herr⟩

/-- Witness for C21: a template with a CSS result and a number, and one with
a string as a value. -/
theorem ye_spec_witness :
    ye sampleToStr "a" ["b", "c"] [CssValue.cssResult "X", CssValue.plain (JsVal.num 3)]
      = Except.ok { cssText := "aXb3c", t := some ["a", "b", "c"] } ∧
    ye sampleToStr "a" ["b", "c"] [CssValue.cssResult "X", CssValue.plain (JsVal.str "s")]
      = Except.error (cssValueError sampleToStr (JsVal.str "s")) :=
  ⟨((ye_spec sampleToStr "a" ["b", "c"]
      [CssValue.cssResult "X", CssValue.plain (JsVal.num 3)] rfl).2.2.2.1
      (by decide)).trans rfl,
   (ye_spec sampleToStr "a" ["b", "c"]
      [CssValue.cssResult "X", CssValue.plain (JsVal.str "s")] rfl).2.1
      [CssValue.cssResult "X"] (JsVal.str "s") [] rfl (by decide) (by decide) (by decide)
      (fun n h => JsVal.noConfusion h)⟩

/-! ### CSS comment stripping `jy` -/

lemma quoteStep_plain (prev l : Option Char) (a : Char) (h1 : a ≠ doubleQuote)
    (h2 : a ≠ singleQuote) : quoteStep prev l a = l := by
  simp [quoteStep, h1, h2]

lemma scanComment_closed : ∀ (s q acc : List Char), ¬ ['*', '/'] <:+: s →
    scanComment (s ++ '*' :: '/' :: q) acc = some (acc ++ s, q) := by
  intro s
  induction s with
  | nil =>
    intro q acc _
    simp [scanComment]
  | cons c s ih =>
    intro q acc h
    have hs : ¬ ['*', '/'] <:+: s := fun hi => h (List.IsInfix.trans hi (List.suffix_cons c s).isInfix)
    have hc : ¬ (c = '*' ∧ (s ++ '*' :: '/' :: q).head? = some '/') := by
      rintro ⟨rfl, hh⟩
      cases s with
      | nil => simp at hh
      | cons d s =>
        simp at hh
        subst hh
        exact h ⟨[], s, rfl⟩
    show scanComment (c :: (s ++ '*' :: '/' :: q)) acc = _
    rw [scanComment, if_neg hc, ih q (acc ++ [c]) hs]
    simp

lemma jyLoop_plain (o : Bool) (i : Option (List Char → Bool)) (n : Bool) :
    ∀ (x : List Char) (fuel : Nat) (prev l : Option Char) (u : List Char),
    x.length ≤ fuel → ¬ ['/', '*'] <:+: x →
    jyLoop o i n fuel prev l x u = u ++ x := by
  intro x
  induction x with
  | nil =>
    intro fuel prev l u _ _
    cases fuel <;> simp [jyLoop]
  | cons a x ih =>
    intro fuel prev l u hf h
    cases fuel with
    | zero => simp at hf
    | succ fuel =>
      have hx : ¬ ['/', '*'] <:+: x :=
        fun hi => h (List.IsInfix.trans hi (List.suffix_cons a x).isInfix)
      have hc : ¬ (quoteStep prev l a = none ∧ a = '/' ∧ x.head? = some '*') := by
        rintro ⟨_, rfl, hh⟩
        cases x with
        | nil => simp at hh
        | cons d x =>
          simp at hh
          subst hh
          exact h ⟨[], x, rfl⟩
      rw [jyLoop]
      simp only []
      rw [if_neg hc, ih fuel _ _ _ (by simpa using hf) hx]
      simp

lemma jyLoop_prefix (o : Bool) (i : Option (List Char → Bool)) (n : Bool) :
    ∀ (x y : List Char) (fuel : Nat) (prev l : Option Char) (u : List Char),
    noQuote x → ¬ ['/', '*'] <:+: x → y.head? = some '/' →
    ∃ prev2, jyLoop o i n (fuel + x.length) prev l (x ++ y) u =
      jyLoop o i n fuel prev2 l y (u ++ x) := by
  intro x
  induction x with
  | nil =>
    intro y fuel prev l u _ _ _
    exact ⟨prev, by simp⟩
  | cons a x ih =>
    intro y fuel prev l u hq h hy
    have hx : ¬ ['/', '*'] <:+: x :=
      fun hi => h (List.IsInfix.trans hi (List.suffix_cons a x).isInfix)
    have hqx : noQuote x := ⟨fun hm => hq.1 (List.mem_cons_of_mem _ hm),
      fun hm => hq.2 (List.mem_cons_of_mem _ hm)⟩
    have ha1 : a ≠ doubleQuote := fun e => hq.1 (e ▸ List.mem_cons_self _ _)
    have ha2 : a ≠ singleQuote := fun e => hq.2 (e ▸ List.mem_cons_self _ _)
    have hc : ¬ (quoteStep prev l a = none ∧ a = '/' ∧ (x ++ y).head? = some '*') := by
      rintro ⟨_, rfl, hh⟩
      cases x with
      | nil =>
        simp only [List.nil_append] at hh
        rw [hy] at hh
        simp at hh
      | cons d x =>
        simp at hh
        subst hh
        exact h ⟨[], x, rfl⟩
    obtain ⟨prev2, hrec⟩ := ih y fuel (some a) l (u ++ [a]) hqx hx hy
    refine ⟨prev2, ?_⟩
    have e : fuel + (a :: x).length = (fuel + x.length) + 1 := by simp; omega
    rw [e]
    show jyLoop o i n (fuel + x.length + 1) prev l (a :: (x ++ y)) u = _
    rw [jyLoop]
    simp only []
    rw [if_neg hc, quoteStep_plain prev l a ha1 ha2, hrec]
    simp

lemma jy_comment (p q s : List Char) (hp : noQuote p)
    (hp2 : ¬ ['/', '*'] <:+: p) (hq2 : ¬ ['/', '*'] <:+: q) (hs : ¬ ['*', '/'] <:+: s) :
    jy (p ++ '/' :: '*' :: (s ++ '*' :: '/' :: q)) JyOptions.default =
      Except.ok (if s.head? = some '!' then p ++ '/' :: '*' :: (s ++ '*' :: '/' :: q)
        else p ++ q) := by
  unfold jy
  simp only [JyOptions.default, Bool.false_eq_true, if_false]
  have hlen : (p ++ '/' :: '*' :: (s ++ '*' :: '/' :: q)).length =
      ((s ++ '*' :: '/' :: q).length + 1 + 1) + p.length := by
    simp only [List.length_append, List.length_cons]
    omega
  rw [hlen]
  obtain ⟨prev2, h1⟩ := jyLoop_prefix true none true p
    ('/' :: '*' :: (s ++ '*' :: '/' :: q)) ((s ++ '*' :: '/' :: q).length + 1 + 1) none none []
    hp hp2 rfl
  rw [h1]
  have hqs : quoteStep prev2 none '/' = none := quoteStep_plain _ _ _ (by decide) (by decide)
  have hscan := scanComment_closed s q [] hs
  simp only [List.nil_append] at hscan
  have hf : ((s ++ '*' :: '/' :: q).head? = some '!') ↔ s.head? = some '!' := by
    cases s with
    | nil => simp
    | cons c s => simp
  simp only [jyLoop, hqs, List.head?_cons, List.tail_cons, hscan, true_and, if_true]
  by_cases hb : s.head? = some '!'
  · have hb2 : (s ++ '*' :: '/' :: q).head? = some '!' := hf.mpr hb
    simp only [hb, hb2, if_true, decide_True, Bool.and_self, Bool.or_false]
    rw [jyLoop_plain true none true q _ _ _ _ (by simp; omega) hq2]
    simp
  · have hb2 : ¬ (s ++ '*' :: '/' :: q).head? = some '!' := fun h => hb (hf.mp h)
    simp only [hb, hb2, if_false, decide_False, Bool.and_false, Bool.or_false,
      Bool.false_eq_true, if_true]
    rw [jyLoop_plain true none true q _ _ _ _ (by simp; omega) hq2]
    simp

/-- Claim C22: `jy` throws its error about `all` whenever that option is
truthy.  With the default options, for a string `p` without quote character
and without '/*', a string `q` without '/*' and a string `s` without '*/',
`jy(p + '/*' + s + '*/' + q)` is `p + q` when `s` does not start with '!' and
the input itself when it does; an input without any '/*' is returned as it
is. -/
theorem jy_spec (e p q s : List Char) (opts : JyOptions) :
    (opts.all = true → jy e opts = Except.error allOptionError) ∧
    (noQuote p → ¬ ['/', '*'] <:+: p → ¬ ['/', '*'] <:+: q → ¬ ['*', '/'] <:+: s →
      jy (p ++ '/' :: '*' :: (s ++ '*' :: '/' :: q)) JyOptions.default =
        Except.ok (if s.head? = some '!' then p ++ '/' :: '*' :: (s ++ '*' :: '/' :: q)
          else p ++ q)) ∧
    (¬ ['/', '*'] <:+: e → jy e JyOptions.default = Except.ok e) := by
  refine ⟨?_, ?_, ?_⟩
  · intro h
    simp [jy, h]
  · intro hp hp2 hq2 hs
    exact jy_comment p q s hp hp2 hq2 hs
  · intro h
    unfold jy
    simp only [JyOptions.default, Bool.false_eq_true, if_false]
    rw [jyLoop_plain true none true e _ _ _ _ (le_refl _) h]
    simp

/-- Witness for C22: an ordinary comment is removed and an important comment
is kept. -/
theorem jy_spec_witness :
    jy "a;/* x */b".toList JyOptions.default = Except.ok "a;b".toList ∧
    jy "a/*! x */b".toList JyOptions.default = Except.ok "a/*! x */b".toList ∧
    jy ['a', doubleQuote, '/', 'b'] JyOptions.default = Except.ok ['a', doubleQuote, '/', 'b'] :=
  ⟨((jy_spec [] "a;".toList "b".toList " x ".toList JyOptions.default).2.1
      ⟨by decide, by decide⟩ (by decide) (by decide) (by decide)).trans rfl,
   ((jy_spec [] "a".toList "b".toList "! x ".toList JyOptions.default).2.1
      ⟨by decide, by decide⟩ (by decide) (by decide) (by decide)).trans rfl,
   (jy_spec ['a', doubleQuote, '/', 'b'] [] [] [] JyOptions.default).2.2 (by decide)⟩

/-! ### React lanes: `Jr` (getHighestPriorityLanes) -/

lemma land_double (a b : Nat) : (2 * a) &&& (2 * b) = 2 * (a &&& b) := by
  have h := Nat.land_bit false a false b
  simpa [Nat.bit_val] using h

lemma land_double_succ (a b : Nat) : (2 * a + 1) &&& (2 * b + 1) = 2 * (a &&& b) + 1 := by
  have h := Nat.land_bit true a true b
  simpa [Nat.bit_val] using h

lemma land_complement (w a : Nat) (ha : a < 2 ^ w) : a &&& (2 ^ w - (a + 1)) = 0 := by
  apply Nat.eq_of_testBit_eq
  intro i
  rw [Nat.testBit_and, Nat.testBit_two_pow_sub_succ ha, Nat.zero_testBit]
  cases a.testBit i <;> simp

lemma land_neg_lowest : ∀ (k w n : Nat), k < w → n < 2 ^ w → n.testBit k = true →
    (∀ j < k, n.testBit j = false) → n &&& (2 ^ w - n) = 2 ^ k := by
  intro k
  induction k with
  | zero =>
    intro w n hw hn hk _
    obtain ⟨w, rfl⟩ : ∃ v, w = v + 1 := ⟨w - 1, by omega⟩
    have hodd : n % 2 = 1 := by simpa using hk
    obtain ⟨a, rfl⟩ : ∃ a, n = 2 * a + 1 := ⟨n / 2, by omega⟩
    have ha : a < 2 ^ w := by rw [pow_succ] at hn; omega
    have e : 2 ^ (w + 1) - (2 * a + 1) = 2 * (2 ^ w - (a + 1)) + 1 := by
      rw [pow_succ]; omega
    rw [e, land_double_succ, land_complement w a ha]
    rfl
  | succ k ih =>
    intro w n hw hn hk hlow
    obtain ⟨w, rfl⟩ : ∃ v, w = v + 1 := ⟨w - 1, by omega⟩
    have h0 : n % 2 = 0 := by
      have := hlow 0 (by omega)
      simp at this
      omega
    obtain ⟨a, rfl⟩ : ∃ a, n = 2 * a := ⟨n / 2, by omega⟩
    have ha : a < 2 ^ w := by rw [pow_succ] at hn; omega
    have hka : a.testBit k = true := by
      rw [Nat.testBit_add_one] at hk
      simpa using hk
    have hla : ∀ j < k, a.testBit j = false := by
      intro j hj
      have := hlow (j + 1) (by omega)
      rw [Nat.testBit_add_one] at this
      simpa using this
    have e : 2 ^ (w + 1) - 2 * a = 2 * (2 ^ w - a) := by
      rw [pow_succ]; omega
    rw [e, land_double, ih w a (by omega) ha hka hla, pow_succ]
    ring

lemma and32_natCast (a b : Nat) (hb : b < 2147483648) (ha : a < 4294967296) :
    and32 (a : Int) (b : Int) = ((a &&& b : Nat) : Int) := by
  have h1 : toUint32 (a : Int) = a := by unfold toUint32; omega
  have h2 : toUint32 (b : Int) = b := by unfold toUint32; omega
  have h3 : a &&& b < 2147483648 := by
    have e : (2147483648 : Nat) = 2 ^ 31 := by norm_num
    rw [e] at hb ⊢
    exact Nat.and_lt_two_pow a hb
  unfold and32
  rw [h1, h2]
  unfold toInt32
  omega

lemma and32_neg (n k : Nat) (h1 : 1 ≤ n) (h2 : n < 2147483648) (hk : n.testBit k = true)
    (hlow : ∀ j < k, n.testBit j = false) :
    k < 31 ∧ and32 (n : Int) (-(n : Int)) = ((2 ^ k : Nat) : Int) := by
  have hk31 : k < 31 := by
    by_contra hc
    have : n < 2 ^ k := lt_of_lt_of_le (by norm_num at h2 ⊢; exact h2)
      (Nat.pow_le_pow_right (by norm_num) (by omega : 31 ≤ k))
    rw [Nat.testBit_lt_two_pow this] at hk
    cases hk
  refine ⟨hk31, ?_⟩
  have u1 : toUint32 (n : Int) = n := by unfold toUint32; omega
  have u2 : toUint32 (-(n : Int)) = 4294967296 - n := by unfold toUint32; omega
  have hl := land_neg_lowest k 32 n (by omega) (by norm_num; omega) hk hlow
  have hp : (2 : Nat) ^ k < 2147483648 := by
    have : (2 : Nat) ^ k < 2 ^ 31 := Nat.pow_lt_pow_right (by norm_num) hk31
    norm_num at this
    exact this
  unfold and32
  rw [u1, u2]
  norm_num at hl
  rw [hl]
  unfold toInt32
  omega

lemma Jr_cases (n k : Nat) (h1 : 1 ≤ n) (h2 : n < 2147483648) (hk : n.testBit k = true)
    (hlow : ∀ j < k, n.testBit j = false) :
    Jr (n : Int) =
      if 6 ≤ k ∧ k ≤ 21 then ((n &&& 4194240 : Nat) : Int)
      else if 22 ≤ k ∧ k ≤ 26 then ((n &&& 130023424 : Nat) : Int)
      else ((2 ^ k : Nat) : Int) := by
  obtain ⟨hk31, hb⟩ := and32_neg n k h1 h2 hk hlow
  have m1 : and32 (n : Int) 4194240 = ((n &&& 4194240 : Nat) : Int) :=
    and32_natCast n 4194240 (by norm_num) (by omega)
  have m2 : and32 (n : Int) 130023424 = ((n &&& 130023424 : Nat) : Int) :=
    and32_natCast n 130023424 (by norm_num) (by omega)
  unfold Jr
  simp only [hb, m1, m2]
  interval_cases k <;> norm_num

lemma land_land_self (n m : Nat) : (n &&& m) &&& n = n &&& m := by
  apply Nat.eq_of_testBit_eq
  intro i
  simp only [Nat.testBit_and]
  cases n.testBit i <;> cases m.testBit i <;> rfl

lemma two_pow_land (n k : Nat) (hk : n.testBit k = true) : 2 ^ k &&& n = 2 ^ k := by
  apply Nat.eq_of_testBit_eq
  intro i
  simp only [Nat.testBit_and, Nat.testBit_two_pow]
  by_cases h : k = i
  · subst h; simp [hk]
  · simp [h]

/-- Claim C30: for a lanes bitmask `e` with `1 <= e < 2^31` whose lowest set
bit is bit `k`, `Jr(e)` is a non-empty subset of the bits of `e` that contains
bit `k`; it is `e & 4194240` when `k` is one of 6..21, `e & 130023424` when
`k` is one of 22..26, and the lowest set bit alone, `2^k`, in every other
case. -/
theorem Jr_spec (n k : Nat) (h1 : 1 ≤ n) (h2 : n < 2147483648) (hk : n.testBit k = true)
    (hlow : ∀ j < k, n.testBit j = false) :
    ∃ m : Nat, Jr (n : Int) = (m : Int) ∧ m ≠ 0 ∧ m &&& n = m ∧ m.testBit k = true ∧
      (6 ≤ k ∧ k ≤ 21 → m = n &&& 4194240) ∧
      (22 ≤ k ∧ k ≤ 26 → m = n &&& 130023424) ∧
      (¬ (6 ≤ k ∧ k ≤ 26) → m = 2 ^ k) := by
  have hJ := Jr_cases n k h1 h2 hk hlow
  have hne : ∀ m : Nat, m.testBit k = true → m ≠ 0 := by
    intro m hm h0
    rw [h0, Nat.zero_testBit] at hm
    cases hm
  by_cases ha : 6 ≤ k ∧ k ≤ 21
  · rw [if_pos ha] at hJ
    have hbit : (n &&& 4194240).testBit k = true := by
      rw [Nat.testBit_and, hk]
      obtain ⟨ha1, ha2⟩ := ha
      interval_cases k <;> decide
    exact ⟨n &&& 4194240, hJ, hne _ hbit, land_land_self n _, hbit, fun _ => rfl,
      fun h => by omega, fun h => absurd ⟨ha.1, by omega⟩ h⟩
  · rw [if_neg ha] at hJ
    by_cases hb : 22 ≤ k ∧ k ≤ 26
    · rw [if_pos hb] at hJ
      have hbit : (n &&& 130023424).testBit k = true := by
        rw [Nat.testBit_and, hk]
        obtain ⟨hb1, hb2⟩ := hb
        interval_cases k <;> decide
      exact ⟨n &&& 130023424, hJ, hne _ hbit, land_land_self n _, hbit, fun h => absurd h ha,
        fun _ => rfl, fun h => absurd ⟨by omega, hb.2⟩ h⟩
    · rw [if_neg hb] at hJ
      have hbit : (2 ^ k).testBit k = true := Nat.testBit_two_pow_self
      exact ⟨2 ^ k, hJ, hne _ hbit, two_pow_land n k hk, hbit, fun h => absurd h ha,
        fun h => absurd h hb, fun _ => rfl⟩

/-- Witness for C30: the mask with the bits 7, 8 and 23 (8388992) has the
lowest set bit 7, a transition lane, and `Jr` gives the bits 7 and 8. -/
theorem Jr_spec_witness : Jr 8388992 = 384 := by
  obtain ⟨m, hm, _, _, _, h6, _, _⟩ := Jr_spec 8388992 7 (by decide) (by decide) (by decide)
    (by decide)
  have hm2 : m = 384 := (h6 (by decide)).trans (by decide)
  rw [hm2] at hm
  exact hm

/-! ### `Np` (explodeOptionalSegments) -/

lemma splitOn_mem_no_sep (sep : Char) : ∀ (l : List Char), ∀ s ∈ splitOn sep l, sep ∉ s := by
  intro l
  induction l with
  | nil => intro s hs; simp [splitOn] at hs; subst hs; simp
  | cons c cs ih =>
    intro s hs
    unfold splitOn at hs
    by_cases hc : c = sep
    · rw [if_pos hc] at hs
      rcases List.mem_cons.mp hs with rfl | h
      · simp
      · exact ih s h
    · rw [if_neg hc] at hs
      cases hsp : splitOn sep cs with
      | nil => exact absurd hsp (splitOn_ne_nil sep cs)
      | cons s0 rest =>
        rw [hsp] at hs ih
        simp only [] at hs
        rcases List.mem_cons.mp hs with rfl | h
        · intro hm
          rcases List.mem_cons.mp hm with h1 | h1
          · exact hc h1.symm
          · exact ih s0 (List.mem_cons_self _ _) h1
        · exact ih s (List.mem_cons_of_mem _ h)

lemma NpSegs_length : ∀ (segs : List (List Char)), segs ≠ [] →
    (NpSegs segs).length = 2 ^ (segs.countP isOptionalSegment) := by
  intro segs
  induction segs with
  | nil => intro h; exact absurd rfl h
  | cons n rest ih =>
    intro _
    cases rest with
    | nil =>
      unfold NpSegs
      by_cases ho : n.getLast? = some '?'
      · simp [ho, isOptionalSegment]
      · simp [ho, isOptionalSegment]
    | cons m r =>
      have ihr := ih (by simp)
      unfold NpSegs
      simp only [List.length_map, List.length_append]
      rw [ihr]
      by_cases ho : n.getLast? = some '?'
      · have : isOptionalSegment n = true := by simp [isOptionalSegment, ho]
        rw [List.countP_cons_of_pos _ _ this]
        simp only [ho, if_true]
        rw [ihr, pow_succ]
        ring
      · have : ¬ isOptionalSegment n = true := by simp [isOptionalSegment, ho]
        rw [List.countP_cons_of_neg _ _ this]
        simp [ho]

lemma joinWith_cons_cons (sep : Char) (a b : List Char) (rest : List (List Char)) :
    joinWith sep (a :: b :: rest) = a ++ sep :: joinWith sep (b :: rest) := rfl

lemma joinWith_two_ne_nil (sep : Char) (a b : List Char) (rest : List (List Char)) :
    joinWith sep (a :: b :: rest) ≠ [] := by
  rw [joinWith_cons_cons]
  simp

lemma NpSegs_head : ∀ (segs : List (List Char)), segs ≠ [] →
    (segs.length = 1 ∨ ∀ h : segs ≠ [], stripMarker (segs.getLast h) ≠ []) →
    (NpSegs segs).head? = some (joinWith '/' (segs.map stripMarker)) := by
  intro segs
  induction segs with
  | nil => intro h; exact absurd rfl h
  | cons n rest ih =>
    intro _ hlast
    cases rest with
    | nil =>
      unfold NpSegs
      by_cases ho : n.getLast? = some '?'
      · simp [ho, stripMarker, joinWith]
      · simp [ho, stripMarker, joinWith]
    | cons m r =>
      have hl : ∀ h : (n :: m :: r) ≠ [], stripMarker ((n :: m :: r).getLast h) ≠ [] := by
        rcases hlast with h | h
        · simp at h
        · exact h
      have hl2 : ∀ h : (m :: r) ≠ [], stripMarker ((m :: r).getLast h) ≠ [] := by
        intro h
        have := hl (by simp)
        rwa [List.getLast_cons h] at this
      have ihr := ih (by simp) (Or.inr hl2)
      have hF : joinWith '/' ((m :: r).map stripMarker) ≠ [] := by
        cases r with
        | nil =>
          have := hl2 (by simp)
          simpa [joinWith] using this
        | cons m2 r2 => exact joinWith_two_ne_nil _ _ _ _
      obtain ⟨tl, htl⟩ : ∃ tl, NpSegs (m :: r) =
          joinWith '/' ((m :: r).map stripMarker) :: tl := by
        cases hN : NpSegs (m :: r) with
        | nil => rw [hN] at ihr; simp at ihr
        | cons x tl =>
          rw [hN] at ihr
          simp only [List.head?_cons, Option.some.injEq] at ihr
          exact ⟨tl, by rw [ihr]⟩
      have hgoal : joinWith '/' ((n :: m :: r).map stripMarker) =
          stripMarker n ++ '/' :: joinWith '/' ((m :: r).map stripMarker) := rfl
      rw [hgoal]
      generalize joinWith '/' ((m :: r).map stripMarker) = F at hF htl ⊢
      unfold NpSegs
      simp only [htl, List.map_cons, List.cons_append, List.head?_cons, Option.some.injEq]
      rw [if_neg hF, if_neg (fun h => by simp at h)]
      rfl

lemma stripMarker_no_sep (n : List Char) (h : '/' ∉ n) : '/' ∉ stripMarker n := by
  unfold stripMarker
  split
  · exact fun hm => h (List.mem_of_mem_dropLast hm)
  · exact h

lemma NpSegs_no_marker : ∀ (segs : List (List Char)), (∀ g ∈ segs, '/' ∉ g) →
    (∀ g ∈ segs, (stripMarker g).getLast? ≠ some '?') →
    ∀ x ∈ NpSegs segs, ∀ g ∈ splitOn '/' x, g.getLast? ≠ some '?' := by
  intro segs
  induction segs with
  | nil => intro _ _ x hx; simp [NpSegs] at hx
  | cons n rest ih =>
    intro hsep hmark
    have hn := hmark n (List.mem_cons_self _ _)
    have hns := stripMarker_no_sep n (hsep n (List.mem_cons_self _ _))
    have hi : ∀ g ∈ splitOn '/' (stripMarker n), g.getLast? ≠ some '?' := by
      intro g hg
      rw [splitOn_no_sep '/' _ hns] at hg
      rw [List.mem_singleton.mp hg]
      exact hn
    have hnil : ∀ g ∈ splitOn '/' ([] : List Char), g.getLast? ≠ some '?' := by
      intro g hg
      simp [splitOn] at hg
      subst hg
      simp
    cases rest with
    | nil =>
      intro x hx
      unfold NpSegs at hx
      by_cases ho : n.getLast? = some '?'
      · rw [if_pos ho] at hx
        have e : n.dropLast = stripMarker n := by simp [stripMarker, ho]
        rw [e] at hx
        rcases List.mem_cons.mp hx with rfl | h
        · exact hi
        · rw [List.mem_singleton.mp h]
          exact hnil
      · rw [if_neg ho] at hx
        have e : n = stripMarker n := by simp [stripMarker, ho]
        rw [List.mem_singleton.mp hx, e]
        exact hi
    | cons m r =>
      have ihr := ih (fun g hg => hsep g (List.mem_cons_of_mem _ hg))
        (fun g hg => hmark g (List.mem_cons_of_mem _ hg))
      have hslash : ∀ g ∈ splitOn '/' ['/'], g.getLast? ≠ some '?' := by decide
      intro x hx
      unfold NpSegs at hx
      simp only [] at hx
      obtain ⟨s, hs, rfl⟩ := List.mem_map.mp hx
      have hsP : ∀ g ∈ splitOn '/' s, g.getLast? ≠ some '?' := by
        rcases List.mem_append.mp hs with h | h
        · obtain ⟨s2, hs2, rfl⟩ := List.mem_map.mp h
          have e : (if n.getLast? = some '?' then n.dropLast else n) = stripMarker n := rfl
          rw [e]
          by_cases h0 : s2 = []
          · rw [if_pos h0]; exact hi
          · rw [if_neg h0, splitOn_prefix_sep '/' _ _ hns]
            intro g hg
            rcases List.mem_cons.mp hg with rfl | hg2
            · exact hn
            · exact ihr s2 hs2 g hg2
        · by_cases ho : n.getLast? = some '?'
          · rw [if_pos ho] at h
            exact ihr s h
          · rw [if_neg ho] at h
            cases h
      split
      · exact hslash
      · exact hsP

/-- Counterexample to C29 as stated: the path `a??` has one segment ending in
`?`, and the first of the two paths that `Np` returns is `a?`, whose segment
still ends in the marker. -/
theorem Np_marker_counterexample :
    Np "a??".toList = ["a?".toList, []] ∧
    ∃ x ∈ Np "a??".toList, ∃ g ∈ splitOn '/' x, g.getLast? = some '?' := by
  decide

/-- Claim C29 (amended): for every path with exactly `k` segments ending in
`?`, `Np` returns exactly `2^k` paths.  When no segment ends in `??`, no
segment of a returned path ends in the marker `?`.  When the path has one
segment only, or its last segment is neither empty nor the bare marker `?`,
the first returned path is the path with every marker removed.  For example
`/one?/two?` gives `/one/two`, `/one`, `/two` and `/`. -/
theorem Np_spec (path : List Char) :
    (Np path).length = 2 ^ ((splitOn '/' path).countP isOptionalSegment) ∧
    ((∀ g ∈ splitOn '/' path, (stripMarker g).getLast? ≠ some '?') →
      ∀ x ∈ Np path, ∀ g ∈ splitOn '/' x, g.getLast? ≠ some '?') ∧
    (((splitOn '/' path).length = 1 ∨
        ∀ g, (splitOn '/' path).getLast? = some g → stripMarker g ≠ []) →
      (Np path).head? = some (joinWith '/' ((splitOn '/' path).map stripMarker))) ∧
    Np "/one?/two?".toList =
      ["/one/two".toList, "/one".toList, "/two".toList, "/".toList] := by
  refine ⟨NpSegs_length _ (splitOn_ne_nil '/' path), ?_, ?_, by decide⟩
  · intro h
    exact NpSegs_no_marker _ (splitOn_mem_no_sep '/' path) h
  · intro h
    refine NpSegs_head _ (splitOn_ne_nil '/' path) ?_
    rcases h with h | h
    · exact Or.inl h
    · exact Or.inr (fun hne => h _ (List.getLast?_eq_getLast _ hne))

/-- Witness for C29 on the path `/a?/b`: two paths, no marker left, and the
first one is `/a/b`. -/
theorem Np_spec_witness :
    (∀ x ∈ Np "/a?/b".toList, ∀ g ∈ splitOn '/' x, g.getLast? ≠ some '?') ∧
    (Np "/a?/b".toList).head? = some "/a/b".toList ∧
    (Np "/a?/b".toList).length = 2 :=
  ⟨(Np_spec "/a?/b".toList).2.1 (by decide),
   ((Np_spec "/a?/b".toList).2.2.1 (Or.inr (by decide))).trans (by decide),
   (Np_spec "/a?/b".toList).1.trans (by decide)⟩

end FinTrack
